import Mathlib

/-!
# kilo: a verification development

A shallow embedding of `src/kilo.c` (row store, cursor navigation, scrolling,
key decoding, frame composition) and theorems about it.

Conventions of the embedding.

* C `int` is `Int`; arithmetic is carried out in the integers, so the rare
  executions in which a signed operation overflows (undefined in C) are outside
  the model.  `%` on `int` is `Int.tmod` (truncation toward zero).
* A byte is a `Nat` (0..255).  A heap buffer is the `List` of its allocated
  bytes; reading or writing outside of it is `Fault.outOfBounds`.
* A running program that reads `size` one slot past the array `E.row` usually
  finds some `int` there and goes on.  The functions named `...With` are the
  cursor movement functions with a parameter for what such a read yields, a
  fault or an `int`; with faults only they are the plain functions.
* Functions that can leave defined behaviour return `Except Fault _`.
* `malloc`/`realloc` are taken to succeed.
* The C library calls `snprintf`, `strlen` and the conversion `%d` are
  modelled on the C standard; of an array filled by `snprintf` only the written
  part is modelled.
-/

namespace Kilo

/-! ## Faults -/

/-- Ways in which a run leaves defined, returning behaviour. -/
inductive Fault where
  /-- a read or write outside an allocated object (a null base included) -/
  | outOfBounds
  /-- a loop used up the iteration bound the model gives it -/
  | fuel
  /-- the loop `while (times--)` was entered with a negative counter -/
  | negativeCount
  /-- the function `die` was called: the process exits with status 1 -/
  | died
  /-- the first `read` loop of `editorReadKey` never obtains a byte -/
  | blocked
  deriving DecidableEq, Repr

/-- Equality of results is decidable, so closed runs can be evaluated. -/
instance instDecidableEqExcept {ε α : Type} [DecidableEq ε] [DecidableEq α] :
    DecidableEq (Except ε α)
  | .ok a, .ok b => if h : a = b then isTrue (by rw [h]) else isFalse (fun h1 => h (Except.ok.inj h1))
  | .error a, .error b =>
    if h : a = b then isTrue (by rw [h]) else isFalse (fun h1 => h (Except.error.inj h1))
  | .ok _, .error _ => isFalse (fun h => Except.noConfusion h)
  | .error _, .ok _ => isFalse (fun h => Except.noConfusion h)

/-! ## Defines -/

/-- The tab stop, `#define KILO_TAB_STOP 8`. -/
def KILO_TAB_STOP : Int := 8

/-- First member of `enum editorKey`. -/
def ARROW_UP : Int := 1000
/-- Second member of `enum editorKey`. -/
def ARROW_DOWN : Int := 1001
/-- Third member of `enum editorKey`. -/
def ARROW_LEFT : Int := 1002
/-- Fourth member of `enum editorKey`. -/
def ARROW_RIGHT : Int := 1003
/-- Fifth member of `enum editorKey`. -/
def PAGE_UP : Int := 1004
/-- Sixth member of `enum editorKey`. -/
def PAGE_DOWN : Int := 1005
/-- Seventh member of `enum editorKey`. -/
def HOME_KEY : Int := 1006
/-- Eighth member of `enum editorKey`. -/
def END_KEY : Int := 1007
/-- Ninth member of `enum editorKey`. -/
def DEL_KEY : Int := 1008

/-- The byte of the character constant for a horizontal tab. -/
def TAB : Nat := 9
/-- The byte of the character constant for a blank. -/
def SPACE : Nat := 32
/-- The byte that terminates a C string. -/
def NUL : Nat := 0

/-! ## Data -/

/-- The struct `erow`.  `chars`, `render` and `marginl` are the buffers the three
pointers refer to, terminators included. -/
structure erow where
  size : Int
  rsize : Int
  marginlsize : Int
  chars : List Nat
  render : List Nat
  marginl : List Nat
  deriving DecidableEq, Repr

/-- The struct `editorConfig` without `orig_termios`.  `row` is the array `E.row`
(the empty list is the null pointer `initEditor` stores). -/
structure editorConfig where
  cx : Int
  cy : Int
  rx : Int
  screenrows : Int
  screencols : Int
  rowoff : Int
  coloff : Int
  numrows : Int
  row : List erow
  deriving DecidableEq, Repr

/-- The expression `buf[j]` read from a buffer. -/
def byteAt (buf : List Nat) (j : Int) : Except Fault Nat :=
  if j < 0 then .error .outOfBounds
  else
    match buf[j.toNat]? with
    | some c => .ok c
    | none => .error .outOfBounds

/-- The statement `render[idx++] = v` on a buffer of `cap` bytes.  The buffer is
filled from index 0 upward without gaps, so the model keeps the written prefix
`render`, and `idx` is its length. -/
def putByte (cap : Int) (render : List Nat) (v : Nat) : Except Fault (List Nat) :=
  if (render.length : Int) < cap then .ok (render ++ [v]) else .error .outOfBounds

/-! ## Row operations -/

/-- The `for (j = 0; j < cx; j++)` loop of `cxToRx`; the first argument counts
the iterations still to run, `j` is the loop index. -/
def cxToRxLoop (row : erow) : Nat → Int → Int → Except Fault Int
  | 0, _, rx => .ok rx
  | n + 1, j, rx =>
    match byteAt row.chars j with
    | .error e => .error e
    | .ok c =>
      let rx1 := if c = TAB then rx + ((KILO_TAB_STOP - 1) - Int.tmod rx KILO_TAB_STOP) else rx
      cxToRxLoop row n (j + 1) (rx1 + 1)

/-- The function `cxToRx`. -/
def cxToRx (row : erow) (cx : Int) : Except Fault Int :=
  cxToRxLoop row cx.toNat 0 row.marginlsize

/-- The tab-counting loop of `editorUpdateRow`. -/
def countTabsLoop (row : erow) : Nat → Int → Int → Except Fault Int
  | 0, _, tabs => .ok tabs
  | n + 1, j, tabs =>
    match byteAt row.chars j with
    | .error e => .error e
    | .ok c => countTabsLoop row n (j + 1) (if c = TAB then tabs + 1 else tabs)

/-- The margin loop of `editorUpdateRow`. -/
def renderMarginLoop (row : erow) (cap : Int) : Nat → Int → List Nat → Except Fault (List Nat)
  | 0, _, r => .ok r
  | n + 1, j, r =>
    match byteAt row.marginl j with
    | .error e => .error e
    | .ok c =>
      match putByte cap r c with
      | .error e => .error e
      | .ok r1 => renderMarginLoop row cap n (j + 1) r1

/-- The loop `while (idx % KILO_TAB_STOP != 0) render[idx++] = ' ';`.  The first
argument bounds the number of iterations; `padLoop_fuel` shows that
`KILO_TAB_STOP` of them are never used up. -/
def padLoop (cap : Int) : Nat → List Nat → Except Fault (List Nat)
  | 0, r => if Int.tmod r.length KILO_TAB_STOP ≠ 0 then .error .fuel else .ok r
  | f + 1, r =>
    if Int.tmod r.length KILO_TAB_STOP ≠ 0 then
      match putByte cap r SPACE with
      | .error e => .error e
      | .ok r1 => padLoop cap f r1
    else .ok r

/-- The character loop of `editorUpdateRow`. -/
def renderCharsLoop (row : erow) (cap : Int) : Nat → Int → List Nat → Except Fault (List Nat)
  | 0, _, r => .ok r
  | n + 1, j, r =>
    match byteAt row.chars j with
    | .error e => .error e
    | .ok c =>
      if c = TAB then
        match putByte cap r SPACE with
        | .error e => .error e
        | .ok r1 =>
          match padLoop cap KILO_TAB_STOP.toNat r1 with
          | .error e => .error e
          | .ok r2 => renderCharsLoop row cap n (j + 1) r2
      else
        match putByte cap r c with
        | .error e => .error e
        | .ok r1 => renderCharsLoop row cap n (j + 1) r1

/-- The function `editorUpdateRow`.  `cap` is the size handed to `malloc`; the
stored `render` is the written part of the buffer, the terminator at index
`rsize` included. -/
def editorUpdateRow (row : erow) : Except Fault erow :=
  match countTabsLoop row row.size.toNat 0 0 with
  | .error e => .error e
  | .ok tabs =>
    let cap := row.size + tabs * (KILO_TAB_STOP - 1) + 1 + row.marginlsize
    match renderMarginLoop row cap row.marginlsize.toNat 0 [] with
    | .error e => .error e
    | .ok r1 =>
      match renderCharsLoop row cap row.size.toNat 0 r1 with
      | .error e => .error e
      | .ok r2 =>
        match putByte cap r2 NUL with
        | .error e => .error e
        | .ok r3 => .ok { row with render := r3, rsize := r2.length }

/-- The row `editorAppendRow` stores at `E.row[at]` before it calls
`editorUpdateRow`: `s` holds the `len` bytes copied by `memcpy`, the margin is
the string literal `"~ "`. -/
def newRow (s : List Nat) : erow :=
  { size := s.length
    chars := s ++ [NUL]
    marginl := [126, 32, NUL]
    marginlsize := 2
    rsize := 0
    render := [] }

/-- The function `editorAppendRow`, for the byte string `s` of length `len`. -/
def editorAppendRow (E : editorConfig) (s : List Nat) : Except Fault editorConfig :=
  match editorUpdateRow (newRow s) with
  | .error e => .error e
  | .ok r => .ok { E with row := E.row ++ [r], numrows := E.numrows + 1 }

/-- The function `initEditor`; `rows` and `cols` are the values `getWindowSize`
stores into `E.screenrows` and `E.screencols`. -/
def initEditor (rows cols : Int) : editorConfig :=
  { numrows := 0
    cx := 0
    cy := 0
    rx := 0
    row := []
    rowoff := 0
    coloff := 0
    screenrows := rows
    screencols := cols }

/-! ## Input: cursor movement -/

/-- The expression `E.row[i]`, read. -/
def rowAt (E : editorConfig) (i : Int) : Except Fault erow :=
  if i < 0 then .error .outOfBounds
  else
    match E.row[i.toNat]? with
    | some r => .ok r
    | none => .error .outOfBounds

/-- The expression `E.row[i].size`. -/
def rowSize (E : editorConfig) (i : Int) : Except Fault Int :=
  match rowAt E i with
  | .error e => .error e
  | .ok r => .ok r.size

/-- The value of `(E.cy > E.numrows) ? NULL : &E.row[E.cy]`: `none` is the null
pointer, `some i` the address of slot `i` of `E.row`.  With `E.row` null the
address of slot 0 is null again. -/
def rowPtr (E : editorConfig) : Option Int :=
  if E.cy > E.numrows then none
  else if E.row = [] ∧ E.cy = 0 then none
  else some E.cy

/-- The expression `row->size` for a pointer `row` computed by `rowPtr`. -/
def ptrSize (E : editorConfig) : Option Int → Except Fault Int
  | none => .error .outOfBounds
  | some i => rowSize E i

/-- The last five lines of `editorMoveCursor`: `row` is recomputed and `E.cx` is
cut back to `rowlen`. -/
def clampCx (E : editorConfig) : Except Fault editorConfig :=
  match rowPtr E with
  | none => .ok (if E.cx > 0 then { E with cx := 0 } else E)
  | some i =>
    match rowSize E i with
    | .error e => .error e
    | .ok rowlen => .ok (if E.cx > rowlen then { E with cx := rowlen } else E)

/-- The `switch` of `editorMoveCursor` for every key but the two page keys. -/
def moveSwitch (E : editorConfig) (key : Int) : Except Fault editorConfig :=
  let row := rowPtr E
  if key = ARROW_UP then
    .ok (if E.cy > 0 then { E with cy := E.cy - 1 } else E)
  else if key = ARROW_LEFT then
    if E.cx > 0 then .ok { E with cx := E.cx - 1 }
    else if E.cx = 0 ∧ E.cy > 0 then
      match rowSize E (E.cy - 1) with
      | .error e => .error e
      | .ok sz => .ok { E with cy := E.cy - 1, cx := sz }
    else .ok E
  else if key = ARROW_RIGHT then
    match row with
    | none => .ok E
    | some i =>
      match rowSize E i with
      | .error e => .error e
      | .ok sz =>
        if E.cx < sz then .ok { E with cx := E.cx + 1 }
        else if E.cx = sz then .ok { E with cy := E.cy + 1, cx := 0 }
        else .ok E
  else if key = ARROW_DOWN then
    .ok (if E.cy ≤ E.numrows then { E with cy := E.cy + 1 } else E)
  else if key = HOME_KEY then .ok { E with cx := 0 }
  else if key = END_KEY then
    if E.cy < E.numrows then
      match ptrSize E row with
      | .error e => .error e
      | .ok sz => .ok { E with cx := sz }
    else .ok E
  else .ok E

/-- A call `editorMoveCursor(key)` for a key other than the page keys: the
`switch`, then the closing clamp. -/
def moveKey (E : editorConfig) (key : Int) : Except Fault editorConfig :=
  match moveSwitch E key with
  | .error e => .error e
  | .ok E1 => clampCx E1

/-- The loop `while (times--) editorMoveCursor(arrow);` of the page keys; the
first argument is the value of `times` on entry. -/
def pageLoop (arrow : Int) : Nat → editorConfig → Except Fault editorConfig
  | 0, E => .ok E
  | n + 1, E =>
    match moveKey E arrow with
    | .error e => .error e
    | .ok E1 => pageLoop arrow n E1

/-- The function `editorMoveCursor`.  Its recursive calls are made with an
arrow key only, so they are calls of `moveKey`. -/
def editorMoveCursor (E : editorConfig) (key : Int) : Except Fault editorConfig :=
  if key = PAGE_DOWN ∨ key = PAGE_UP then
    if E.screenrows < 0 then .error .negativeCount
    else
      match pageLoop (if key = PAGE_DOWN then ARROW_DOWN else ARROW_UP) E.screenrows.toNat E with
      | .error e => .error e
      | .ok E1 => clampCx E1
  else moveKey E key

/-! ## Cursor movement when reads past the row array return -/

/-- What a read of `E.row[i].size` outside the array `E.row` yields, for each
index `i`: a fault (the null `E.row` of the empty document, an unmapped page),
or the `int` that lies at that address.  Nothing writes to memory during a
call of `editorMoveCursor`, so one such function serves a whole call. -/
abbrev StrayRead := Int → Except Fault Int

/-- Every read outside the array is a fault: the reading of the plain
functions above. -/
def strictRead : StrayRead := fun _ => .error .outOfBounds

/-- The expression `E.row[i].size`; outside the array the read yields
`stray i`. -/
def rowSizeWith (stray : StrayRead) (E : editorConfig) (i : Int) : Except Fault Int :=
  match rowAt E i with
  | .ok r => .ok r.size
  | .error _ => stray i

/-- The expression `row->size` for a pointer `row` computed by `rowPtr`; a null
`row` is a fault. -/
def ptrSizeWith (stray : StrayRead) (E : editorConfig) : Option Int → Except Fault Int
  | none => .error .outOfBounds
  | some i => rowSizeWith stray E i

/-- The last five lines of `editorMoveCursor`, as `clampCx`, with `rowSizeWith`
for the read of `row->size`. -/
def clampCxWith (stray : StrayRead) (E : editorConfig) : Except Fault editorConfig :=
  match rowPtr E with
  | none => .ok (if E.cx > 0 then { E with cx := 0 } else E)
  | some i =>
    match rowSizeWith stray E i with
    | .error e => .error e
    | .ok rowlen => .ok (if E.cx > rowlen then { E with cx := rowlen } else E)

/-- The `switch` of `editorMoveCursor` for every key but the two page keys, as
`moveSwitch`, with `rowSizeWith` for the reads of `size`. -/
def moveSwitchWith (stray : StrayRead) (E : editorConfig) (key : Int) :
    Except Fault editorConfig :=
  let row := rowPtr E
  if key = ARROW_UP then
    .ok (if E.cy > 0 then { E with cy := E.cy - 1 } else E)
  else if key = ARROW_LEFT then
    if E.cx > 0 then .ok { E with cx := E.cx - 1 }
    else if E.cx = 0 ∧ E.cy > 0 then
      match rowSizeWith stray E (E.cy - 1) with
      | .error e => .error e
      | .ok sz => .ok { E with cy := E.cy - 1, cx := sz }
    else .ok E
  else if key = ARROW_RIGHT then
    match row with
    | none => .ok E
    | some i =>
      match rowSizeWith stray E i with
      | .error e => .error e
      | .ok sz =>
        if E.cx < sz then .ok { E with cx := E.cx + 1 }
        else if E.cx = sz then .ok { E with cy := E.cy + 1, cx := 0 }
        else .ok E
  else if key = ARROW_DOWN then
    .ok (if E.cy ≤ E.numrows then { E with cy := E.cy + 1 } else E)
  else if key = HOME_KEY then .ok { E with cx := 0 }
  else if key = END_KEY then
    if E.cy < E.numrows then
      match ptrSizeWith stray E row with
      | .error e => .error e
      | .ok sz => .ok { E with cx := sz }
    else .ok E
  else .ok E

/-- A call `editorMoveCursor(key)` for a key other than the page keys, as
`moveKey`. -/
def moveKeyWith (stray : StrayRead) (E : editorConfig) (key : Int) : Except Fault editorConfig :=
  match moveSwitchWith stray E key with
  | .error e => .error e
  | .ok E1 => clampCxWith stray E1

/-- The loop `while (times--) editorMoveCursor(arrow);`, as `pageLoop`. -/
def pageLoopWith (stray : StrayRead) (arrow : Int) : Nat → editorConfig → Except Fault editorConfig
  | 0, E => .ok E
  | n + 1, E =>
    match moveKeyWith stray E arrow with
    | .error e => .error e
    | .ok E1 => pageLoopWith stray arrow n E1

/-- The function `editorMoveCursor`, as above, with `stray` for what the reads
of `size` outside `E.row` yield. -/
def editorMoveCursorWith (stray : StrayRead) (E : editorConfig) (key : Int) :
    Except Fault editorConfig :=
  if key = PAGE_DOWN ∨ key = PAGE_UP then
    if E.screenrows < 0 then .error .negativeCount
    else
      match pageLoopWith stray (if key = PAGE_DOWN then ARROW_DOWN else ARROW_UP)
          E.screenrows.toNat E with
      | .error e => .error e
      | .ok E1 => clampCxWith stray E1
  else moveKeyWith stray E key

/-! ## Output: scrolling -/

/-- The first statements of `editorScroll`: `E.rx` is set to 0 and, when the
cursor is on a row of the file, to `cxToRx(&E.row[E.cy], E.cx)`. -/
def scrollRx (E : editorConfig) : Except Fault editorConfig :=
  let E0 := { E with rx := 0 }
  if E0.cy < E0.numrows then
    match rowAt E0 E0.cy with
    | .error e => .error e
    | .ok r =>
      match cxToRx r E0.cx with
      | .error e => .error e
      | .ok rx => .ok { E0 with rx := rx }
  else .ok E0

/-- The four `if` statements of `editorScroll` that move `rowoff` and `coloff`. -/
def scrollOffsets (E1 : editorConfig) : editorConfig :=
  let E2 := if E1.cy < E1.rowoff then { E1 with rowoff := E1.cy } else E1
  let E3 :=
    if E2.cy ≥ E2.rowoff + E2.screenrows then { E2 with rowoff := E2.cy - E2.screenrows + 1 }
    else E2
  let E4 := if E3.rx < E3.coloff then { E3 with coloff := E3.rx } else E3
  if E4.rx ≥ E4.coloff + E4.screencols then { E4 with coloff := E4.rx - E4.screencols + 1 }
  else E4

/-- The function `editorScroll`. -/
def editorScroll (E : editorConfig) : Except Fault editorConfig :=
  match scrollRx E with
  | .error e => .error e
  | .ok E1 => .ok (scrollOffsets E1)

/-! ## Append buffer -/

/-- The struct `abuf`: the `len` bytes at `b`. -/
abbrev abuf := List Nat

/-- The initialiser `ABUF_INIT`. -/
def ABUF_INIT : abuf := []

/-- The function `abAppend`, for the `len` bytes that start at index `off` of the
buffer `s` its pointer argument points into.  A negative `len`, or a copy of
bytes from outside `s`, is a fault of `memcpy`. -/
def abAppend (ab : abuf) (s : List Nat) (off len : Int) : Except Fault abuf :=
  if len < 0 then .error .outOfBounds
  else if 0 < len ∧ (off < 0 ∨ (s.length : Int) < off + len) then .error .outOfBounds
  else .ok (ab ++ (s.drop off.toNat).take len.toNat)

/-! ## Output: drawing -/

/-- The decimal digits of `n`, most significant first; the first argument bounds
the number of divisions. -/
def decimalAux : Nat → Nat → List Nat → List Nat
  | 0, _, acc => acc
  | fuel + 1, n, acc =>
    if n < 10 then (48 + n) :: acc else decimalAux fuel (n / 10) ((48 + n % 10) :: acc)

/-- The decimal digits of `n`. -/
def decimal (n : Nat) : List Nat := decimalAux (n + 1) n []

/-- Modelled on the C library, which is not part of the repository: the text
the conversion `%d` of `printf` produces for an `int`. -/
def fmtInt (v : Int) : List Nat :=
  if v < 0 then 45 :: decimal v.natAbs else decimal v.natAbs

/-- Modelled on the C library, which is not part of the repository: the call
`snprintf(buf, size, ...)` whose arguments format to `text`.  The result is the
part of `buf` that is written, at most `size - 1` bytes of `text` and the
terminator, and the value returned, the full length of `text`. -/
def snprintf (size : Nat) (text : List Nat) : List Nat × Int :=
  (text.take (size - 1) ++ [NUL], (text.length : Int))

/-- Modelled on the C library, which is not part of the repository: `strlen` on
a buffer that holds a terminator. -/
def strlen (buf : List Nat) : Int :=
  ((buf.takeWhile (fun c => c ≠ NUL)).length : Int)

/-- The string `KILO_VERSION`, `0.0.1`. -/
def KILO_VERSION : List Nat := [48, 46, 48, 46, 49]

/-- The text `~ Kilo Editor -- Version 0.0.1` that `snprintf` formats in
`drawTitle`. -/
def welcomeText : List Nat :=
  [126, 32, 75, 105, 108, 111, 32, 69, 100, 105, 116, 111, 114, 32, 45, 45, 32,
    86, 101, 114, 115, 105, 111, 110, 32] ++ KILO_VERSION

/-- The text `~ cx: <cx>, cy: <cy>` that `snprintf` formats in `drawDebug`. -/
def debugText (E : editorConfig) : List Nat :=
  [126, 32, 99, 120, 58, 32] ++ fmtInt E.cx ++ [44, 32, 99, 121, 58, 32] ++ fmtInt E.cy

/-- The loop `while (padding--) abAppend(ab, " ", 1);`; the first argument is
the value of `padding` on entry. -/
def padBlanks : Nat → abuf → Except Fault abuf
  | 0, ab => .ok ab
  | n + 1, ab =>
    match abAppend ab [SPACE, NUL] 0 1 with
    | .error e => .error e
    | .ok ab1 => padBlanks n ab1

/-- The statements `drawTitle` and `drawDebug` share after their call of
`snprintf` into an array of 80 bytes: the length is cut to `screencols`, the
padding is computed and written, the text is appended.  Only the written part
of the array is modelled. -/
def drawLine (E : editorConfig) (text : List Nat) (ab : abuf) : Except Fault abuf :=
  let buf := (snprintf 80 text).1
  let n := (snprintf 80 text).2
  let len := if n > E.screencols then E.screencols else n
  let padding := Int.tdiv (E.screencols - len) 2
  let padding1 := if padding ≠ 0 then padding - 1 else padding
  if padding1 < 0 then .error .negativeCount
  else
    match padBlanks padding1.toNat ab with
    | .error e => .error e
    | .ok ab1 => abAppend ab1 buf 0 len

/-- The function `drawTitle`. -/
def drawTitle (E : editorConfig) (ab : abuf) : Except Fault abuf :=
  drawLine E welcomeText ab

/-- The function `drawDebug`. -/
def drawDebug (E : editorConfig) (ab : abuf) : Except Fault abuf :=
  drawLine E (debugText E) ab

/-- The `if (filerow >= E.numrows) ... else ...` statement in the loop body of
`editorDrawRows`, for the screen row `y`: the content of the row. -/
def drawRowContent (E : editorConfig) (y : Int) (ab : abuf) : Except Fault abuf :=
  let filerow := y + E.rowoff
  if filerow ≥ E.numrows then
    if E.numrows = 0 then
      match (if y = Int.tdiv E.screenrows 3 then drawTitle E ab else .ok ab) with
      | .error e => .error e
      | .ok ab1 => if y = Int.tdiv E.screenrows 3 + 1 then drawDebug E ab1 else .ok ab1
    else .ok ab
  else
    match rowAt E filerow with
    | .error e => .error e
    | .ok r =>
      let len := r.rsize - E.coloff
      let len1 := if len < 0 then 0 else len
      let len2 := if len1 > E.screencols then E.screencols else len1
      abAppend ab r.render E.coloff len2

/-- One pass through the loop body of `editorDrawRows`: the content of row `y`,
the sequence `ESC [ K`, and the line break unless `y` is the last row. -/
def drawRow (E : editorConfig) (y : Int) (ab : abuf) : Except Fault abuf :=
  match drawRowContent E y ab with
  | .error e => .error e
  | .ok ab1 =>
    match abAppend ab1 [27, 91, 75, NUL] 0 3 with
    | .error e => .error e
    | .ok ab2 => if y < E.screenrows - 1 then abAppend ab2 [13, 10, NUL] 0 2 else .ok ab2

/-- The loop `for (int y = 0; y < E.screenrows; y++)` of `editorDrawRows`; the
first argument counts the iterations still to run. -/
def drawRowsLoop (E : editorConfig) : Nat → Int → abuf → Except Fault abuf
  | 0, _, ab => .ok ab
  | n + 1, y, ab =>
    match drawRow E y ab with
    | .error e => .error e
    | .ok ab1 => drawRowsLoop E n (y + 1) ab1

/-- The function `editorDrawRows`. -/
def editorDrawRows (E : editorConfig) (ab : abuf) : Except Fault abuf :=
  drawRowsLoop E E.screenrows.toNat 0 ab

/-- The text `ESC [ <row> ; <col> H` that `editorRefreshScreen` formats. -/
def cursorText (E : editorConfig) : List Nat :=
  [27, 91] ++ fmtInt (E.cy - E.rowoff + 1) ++ [59] ++ fmtInt (E.rx - E.coloff + 1) ++ [72]

/-- The function `editorRefreshScreen`: the bytes it hands to `write`. -/
def editorRefreshScreen (E : editorConfig) : Except Fault (List Nat) :=
  match abAppend ABUF_INIT [27, 91, 63, 50, 53, 108, NUL] 0 6 with
  | .error e => .error e
  | .ok ab1 =>
    match abAppend ab1 [27, 91, 72, NUL] 0 3 with
    | .error e => .error e
    | .ok ab2 =>
      match editorDrawRows E ab2 with
      | .error e => .error e
      | .ok ab3 =>
        let buf := (snprintf 32 (cursorText E)).1
        match abAppend ab3 buf 0 (strlen buf) with
        | .error e => .error e
        | .ok ab4 => abAppend ab4 [27, 91, 63, 50, 53, 104, NUL] 0 6

/-! ## Terminal: key decoding -/

/-- What one call `read(STDIN_FILENO, &c, 1)` does. -/
inductive ReadResult where
  /-- it returns 1 and stores the byte -/
  | byte (b : Nat)
  /-- it returns 0: no byte arrived within the timeout -/
  | timeout
  /-- it returns -1; the flag says whether `errno` is `EAGAIN` -/
  | failed (eagain : Bool)
  deriving DecidableEq, Repr

/-- The `int` value of a `char` that holds the byte `b`.  Whether plain `char`
is signed is left to the platform, hence the parameter. -/
def charValue (signedChar : Bool) (b : Nat) : Int :=
  if signedChar = true ∧ 128 ≤ b then (b : Int) - 256 else (b : Int)

/-- The loop `while ((nread = read(...)) != 1)` that opens `editorReadKey`, run
on the results of the successive `read` calls.  When the list ends before a
byte arrives the loop does not return. -/
def readFirst (signedChar : Bool) : List ReadResult → Except Fault (Int × List ReadResult)
  | [] => .error .blocked
  | .byte b :: rest => .ok (charValue signedChar b, rest)
  | .timeout :: rest => readFirst signedChar rest
  | .failed true :: rest => readFirst signedChar rest
  | .failed false :: _ => .error .died

/-- A call `read(STDIN_FILENO, &seq[i], 1)` tested with `!= 1`: `none` when it
did not return 1.  After the end of the list the terminal stays silent. -/
def readFollow (signedChar : Bool) : List ReadResult → Option Int × List ReadResult
  | [] => (none, [])
  | .byte b :: rest => (some (charValue signedChar b), rest)
  | _ :: rest => (none, rest)

/-- The end of the escape branch of `editorReadKey`: the block for
`seq[0] == 'O'` and the closing `return '\x1b'`. -/
def decodeTail (seq0 seq1 : Int) : Int :=
  if seq0 = 79 then
    if seq1 = 70 then END_KEY
    else if seq1 = 72 then HOME_KEY
    else 27
  else 27

/-- The function `editorReadKey`: the key it returns and the `read` results it
has not used. -/
def editorReadKey (signedChar : Bool) (inp : List ReadResult) :
    Except Fault (Int × List ReadResult) :=
  match readFirst signedChar inp with
  | .error e => .error e
  | .ok (c, in1) =>
    if c = 27 then
      match readFollow signedChar in1 with
      | (none, in2) => .ok (27, in2)
      | (some seq0, in2) =>
        match readFollow signedChar in2 with
        | (none, in3) => .ok (27, in3)
        | (some seq1, in3) =>
          if seq0 = 91 then
            if seq1 ≥ 48 ∧ seq1 ≤ 57 then
              match readFollow signedChar in3 with
              | (none, in4) => .ok (27, in4)
              | (some seq2, in4) =>
                if seq2 = 126 then
                  if seq1 = 49 then .ok (HOME_KEY, in4)
                  else if seq1 = 51 then .ok (DEL_KEY, in4)
                  else if seq1 = 52 then .ok (END_KEY, in4)
                  else if seq1 = 53 then .ok (PAGE_UP, in4)
                  else if seq1 = 54 then .ok (PAGE_DOWN, in4)
                  else if seq1 = 55 then .ok (HOME_KEY, in4)
                  else if seq1 = 56 then .ok (END_KEY, in4)
                  else .ok (decodeTail seq0 seq1, in4)
                else .ok (decodeTail seq0 seq1, in4)
            else
              if seq1 = 65 then .ok (ARROW_UP, in3)
              else if seq1 = 66 then .ok (ARROW_DOWN, in3)
              else if seq1 = 67 then .ok (ARROW_RIGHT, in3)
              else if seq1 = 68 then .ok (ARROW_LEFT, in3)
              else if seq1 = 70 then .ok (END_KEY, in3)
              else if seq1 = 72 then .ok (HOME_KEY, in3)
              else .ok (decodeTail seq0 seq1, in3)
          else .ok (decodeTail seq0 seq1, in3)
    else .ok (c, in1)

/-! ## Auxiliary notions used in the statements -/

/-- Number of blanks the padding loop of a tab appends to a written prefix of length `len`. -/
def padCount (len : Nat) : Nat := (8 - len % 8) % 8

/-- The escape sequences listed as recognised, as a test on the read results
that follow the escape byte: `[` then one of `A B C D F H`; `[`, a digit among
`1 3 4 5 6 7 8`, then `~`; `O` then `F` or `H`. -/
def recognised : List ReadResult → Bool
  | .byte b0 :: .byte b1 :: rest =>
    if b0 = 91 then
      if b1 = 65 ∨ b1 = 66 ∨ b1 = 67 ∨ b1 = 68 ∨ b1 = 70 ∨ b1 = 72 then true
      else if b1 = 49 ∨ b1 = 51 ∨ b1 = 52 ∨ b1 = 53 ∨ b1 = 54 ∨ b1 = 55 ∨ b1 = 56 then
        match rest with
        | .byte b2 :: _ => decide (b2 = 126)
        | _ => false
      else false
    else if b0 = 79 then decide (b1 = 70 ∨ b1 = 72)
    else false
  | _ => false

/-- Every byte delivered by the reads in `inp` is a byte, a value below 256. -/
def bytesOnly (inp : List ReadResult) : Prop :=
  ∀ b, ReadResult.byte b ∈ inp → b < 256

/-- The parts of the state that cursor movement leaves alone: the file and the
screen size. -/
def frameOf (E : editorConfig) : Int × List erow × Int × Int :=
  (E.numrows, E.row, E.screenrows, E.screencols)

/-- The row index lies between 0 and `numrows + 1`. -/
def cyInRange (E : editorConfig) : Prop :=
  0 ≤ E.cy ∧ E.cy ≤ E.numrows + 1

/-- The column `E.cx` is already clamped to its row: the closing clamp of
`editorMoveCursor` returns the state as it is. -/
def cxClamped (E : editorConfig) : Prop :=
  clampCx E = .ok E

/-! ## Runs of several keys -/

/-- The key presses `keys`, applied one after the other by `editorMoveCursor`. -/
def runKeys : List Int → editorConfig → Except Fault editorConfig
  | [], E => .ok E
  | k :: ks, E =>
    match editorMoveCursor E k with
    | .error e => .error e
    | .ok E1 => runKeys ks E1

/-- The key `key` pressed `n` times. -/
def pressTimes (key : Int) : Nat → editorConfig → Except Fault editorConfig
  | 0, E => .ok E
  | n + 1, E =>
    match editorMoveCursor E key with
    | .error e => .error e
    | .ok E1 => pressTimes key n E1

/-- The eight keys `editorProcessKeypress` hands to `editorMoveCursor`. -/
def isNavKey (key : Int) : Prop :=
  key = ARROW_UP ∨ key = ARROW_DOWN ∨ key = ARROW_LEFT ∨ key = ARROW_RIGHT ∨
    key = PAGE_UP ∨ key = PAGE_DOWN ∨ key = HOME_KEY ∨ key = END_KEY

instance (key : Int) : Decidable (isNavKey key) := by
  unfold isNavKey; infer_instance

/-- The editor right after `initEditor` and the `editorAppendRow` calls that
`editorOpen` makes for the lines `ls`. -/
def loadLines : List (List Nat) → editorConfig → Except Fault editorConfig
  | [], E => .ok E
  | l :: ls, E =>
    match editorAppendRow E l with
    | .error e => .error e
    | .ok E1 => loadLines ls E1

/-- The editor after `initEditor` on a screen of `rows` by `cols` and the load
of the lines `ls`; the empty editor stands in should the load fault, which
`editorUpdateRow_newRow` rules out. -/
def editorOf (ls : List (List Nat)) (rows cols : Int) : editorConfig :=
  match loadLines ls (initEditor rows cols) with
  | .ok E => E
  | .error _ => initEditor rows cols

/-- A file of five lines, `abc`, `a`, `abcd`, the empty line and `xy`, on a
screen of 2 rows and 80 columns, the cursor at the end of the first line. -/
def fiveLines : editorConfig :=
  { editorOf [[97, 98, 99], [97], [97, 98, 99, 100], [], [120, 121]] 2 80 with cx := 3 }

/-- The one-line file `a<TAB>b` on a screen of 24 rows and 80 columns, the
cursor after the tab. -/
def tabLine : editorConfig :=
  { editorOf [[97, 9, 98]] 24 80 with cx := 2 }

/-- The file of `fiveLines`, the cursor at the start of its fourth line
(`cx = 0, cy = 3`). -/
def fiveLinesRow3 : editorConfig :=
  { fiveLines with cx := 0, cy := 3 }

/-- The value fits a C `int` of 32 bits. -/
def isInt32 (v : Int) : Prop :=
  -2147483648 ≤ v ∧ v ≤ 2147483647

/-- The contents of the screen rows `y`, `y + 1`, ... (as many as the first
argument says), each as `editorDrawRows` emits it: the bytes `drawRowContent`
appends for that row. -/
def rowContents (E : editorConfig) : Nat → Int → Except Fault (List (List Nat))
  | 0, _ => .ok []
  | n + 1, y =>
    match drawRowContent E y [] with
    | .error e => .error e
    | .ok c =>
      match rowContents E n (y + 1) with
      | .error e => .error e
      | .ok cs => .ok (c :: cs)

/-- The number of blanks `drawTitle` and `drawDebug` write in front of a text of
`n` bytes on a screen of `screencols` columns. -/
def linePadding (screencols : Int) (n : Nat) : Nat :=
  let len : Int := if (n : Int) > screencols then screencols else (n : Int)
  let padding := Int.tdiv (screencols - len) 2
  (if padding ≠ 0 then padding - 1 else padding).toNat

/-- The bytes the loop of `editorDrawRows` appends for the rows `y`, `y + 1`, ...
with the contents `cs`, on a screen of `sr` rows. -/
def rowsFrom (sr : Int) : Int → List (List Nat) → List Nat
  | _, [] => []
  | y, c :: cs =>
    c ++ [27, 91, 75] ++ (if y < sr - 1 then [13, 10] else []) ++ rowsFrom sr (y + 1) cs

/-- The rows of a frame in the words of the specification: every content is
followed by the erase-to-end-of-line sequence `ESC [ K`, and the separator
CR LF stands after every row except the last. -/
def joinRows : List (List Nat) → List Nat
  | [] => []
  | [c] => c ++ [27, 91, 75]
  | c :: c1 :: cs => c ++ [27, 91, 75] ++ [13, 10] ++ joinRows (c1 :: cs)

/-- The frame in the words of the specification: hide-cursor `ESC [ ? 2 5 l`,
cursor-home `ESC [ H`, the rows, the cursor-position escape, show-cursor
`ESC [ ? 2 5 h`. -/
def frameOfRows (contents : List (List Nat)) (cursor : List Nat) : List Nat :=
  [27, 91, 63, 50, 53, 108] ++ [27, 91, 72] ++ joinRows contents ++ cursor ++
    [27, 91, 63, 50, 53, 104]

/-- The title line of the empty document on a screen of 80 columns: 24 blanks,
then `~ Kilo Editor -- Version 0.0.1`. -/
def titleLine : List Nat :=
  List.replicate 24 SPACE ++ welcomeText

/-- The debug line of the empty document on a screen of 80 columns: the padding,
then `~ cx: <cx>, cy: <cy>`. -/
def debugLine (E : editorConfig) : List Nat :=
  List.replicate (linePadding 80 (debugText E).length) SPACE ++ debugText E

/-- The contents of the 24 screen rows of the empty document: the title line on
row 8, the debug line on row 9, nothing on the other 22 rows. -/
def emptyScreen (E : editorConfig) : List (List Nat) :=
  List.replicate 8 [] ++ [titleLine, debugLine E] ++ List.replicate 14 []

/-- The file of `tabLine` on a screen of 2 rows. -/
def tabLineTwoRows : editorConfig :=
  { tabLine with screenrows := 2 }

/-- The file of `fiveLines`, the cursor at the start of its last line
(`cx = 0, cy = 4`), the screen still showing rows 0 and 1. -/
def fiveLinesRow4 : editorConfig :=
  { fiveLines with cx := 0, cy := 4 }

/-- A state `editorRefreshScreen` can draw without leaving its buffers: the
screen width and the offsets are not negative, `numrows` is the length of the
row array, every render text lies inside its buffer, and `cx`, `cy` are values
of a C `int`. -/
def drawable (E : editorConfig) : Prop :=
  0 ≤ E.screencols ∧ 0 ≤ E.coloff ∧ 0 ≤ E.rowoff ∧ E.numrows = (E.row.length : Int) ∧
    (∀ r ∈ E.row, r.rsize ≤ (r.render.length : Int)) ∧ isInt32 E.cx ∧ isInt32 E.cy

/-- The file of `tabLine` seen through a window of 4 columns that starts at
render column 3. -/
def tabWindow : editorConfig :=
  { tabLine with coloff := 3, screencols := 4 }

instance (E : editorConfig) : Decidable (cxClamped E) := by
  unfold cxClamped; infer_instance

/-- Tab expansion as a function of the content alone: the bytes the character
loop of `editorUpdateRow` appends for the content `l` when the write index
stands at `col`.  A tab gives one blank and then blanks up to the next
multiple of 8; any other byte gives itself. -/
def expandTabs (col : Nat) : List Nat → List Nat
  | [] => []
  | c :: cs =>
    if c = TAB then
      List.replicate (1 + padCount (col + 1)) SPACE ++ expandTabs (col + (1 + padCount (col + 1))) cs
    else c :: expandTabs (col + 1) cs

/-- The key presses `ks`, applied one after the other by `editorMoveCursor`;
each press comes with what the reads outside `E.row` yield during that call
(the frame drawn between two presses may change the memory behind the array). -/
def runKeysWith : List (Int × StrayRead) → editorConfig → Except Fault editorConfig
  | [], E => .ok E
  | k :: ks, E =>
    match editorMoveCursorWith k.2 E k.1 with
    | .error e => .error e
    | .ok E1 => runKeysWith ks E1

/-- No read outside the array faults: each yields some `int`. -/
def totalRead (stray : StrayRead) : Prop :=
  ∀ i, ∃ v, stray i = .ok v

/-- The states reachable from `E0` by navigation keys handed to
`editorMoveCursor`, whatever the reads outside `E.row` yield at each press. -/
inductive Reaches (E0 : editorConfig) : editorConfig → Prop where
  | start : Reaches E0 E0
  | step (E E1 : editorConfig) (key : Int) (stray : StrayRead) :
      Reaches E0 E → isNavKey key → editorMoveCursorWith stray E key = .ok E1 → Reaches E0 E1

/-- Reads outside the array that find the `int` 33 wherever they look. -/
def stray33 : StrayRead := fun _ => .ok 33

/-- The file of `fiveLines` with the cursor at the initial position
`cx = 0, cy = 0`. -/
def fiveLinesStart : editorConfig :=
  { fiveLines with cx := 0, cy := 0 }

/-- The decimal numeral of `n` in the words of the C standard for `%d`: the
digits of `n` in base 10, most significant first, as ASCII bytes (`48 + d` for
the digit `d`); the single digit `0` for zero. -/
def decimalText (n : Nat) : List Nat :=
  if n = 0 then [48] else (Nat.digits 10 n).reverse.map (fun d => 48 + d)

/-- The text of an `int` in decimal, in the words of the C standard for `%d`:
the sign `-` for a negative value, then the numeral of its magnitude. -/
def intText (v : Int) : List Nat :=
  if v < 0 then 45 :: decimalText v.natAbs else decimalText v.natAbs

/-- The empty document on a screen of 24 by 80 after one ArrowDown: the cursor
stands on row 1 (`cx = 0, cy = 1`). -/
def emptyRow1 : editorConfig :=
  { initEditor 24 80 with cy := 1 }

/-- The empty document on a screen of 24 by 80 with a cursor of several digits
and a negative row (`cx = 120, cy = -7`). -/
def emptyFarCursor : editorConfig :=
  { initEditor 24 80 with cx := 120, cy := -7 }

/-- A file of twelve lines `a<TAB>b` on a screen of 12 rows and 80 columns, the
cursor at the end of the last line (`cx = 3, cy = 11`) and `rx = 9` as
`editorScroll` computes it. -/
def twelveLines : editorConfig :=
  { editorOf (List.replicate 12 [97, 9, 98]) 12 80 with cx := 3, cy := 11, rx := 9 }

/-! ## Lemmas on buffers -/

theorem byteAt_natCast (buf : List Nat) (j : Nat) :
    byteAt buf (j : Int) = match buf[j]? with
      | some c => .ok c
      | none => .error .outOfBounds := by
  unfold byteAt
  have h : ¬ ((j : Int) < 0) := by omega
  rw [if_neg h, Int.toNat_ofNat]

theorem byteAt_middle (pre post : List Nat) (c : Nat) :
    byteAt (pre ++ c :: post) (pre.length : Int) = .ok c := by
  rw [byteAt_natCast, List.getElem?_append_right (Nat.le_refl _)]
  simp

theorem putByte_ok (cap : Int) (r : List Nat) (v : Nat) (h : (r.length : Int) < cap) :
    putByte cap r v = .ok (r ++ [v]) := by
  unfold putByte
  rw [if_pos h]

theorem tmod_stop_natCast (n : Nat) : Int.tmod (n : Int) KILO_TAB_STOP = ((n % 8 : Nat) : Int) := by
  unfold KILO_TAB_STOP
  rw [Int.tmod_eq_emod (by omega) (by omega)]
  omega

/-! ## Lemmas on the loops of `editorUpdateRow` and `cxToRx` -/

theorem countTabsLoop_mono (row : erow) :
    ∀ (n : Nat) (j t T : Int), countTabsLoop row n j t = .ok T → t ≤ T := by
  intro n
  induction n with
  | zero =>
    intro j t T h
    simp only [countTabsLoop, Except.ok.injEq] at h
    omega
  | succ n ih =>
    intro j t T h
    simp only [countTabsLoop] at h
    cases hb : byteAt row.chars j with
    | error e => rw [hb] at h; cases h
    | ok c =>
      rw [hb] at h
      have := ih _ _ _ h
      split at this <;> omega

theorem padLoop_spec (cap : Int) :
    ∀ (f : Nat) (r : List Nat), padCount r.length ≤ f →
      ((r.length + padCount r.length : Nat) : Int) ≤ cap →
      padLoop cap f r = .ok (r ++ List.replicate (padCount r.length) SPACE) := by
  intro f
  induction f with
  | zero =>
    intro r hf _
    have h0 : r.length % 8 = 0 := by unfold padCount at hf; omega
    have hk : padCount r.length = 0 := by unfold padCount; omega
    simp [padLoop, tmod_stop_natCast, h0, hk]
  | succ f ih =>
    intro r hf hcap
    by_cases h0 : r.length % 8 = 0
    · have hk : padCount r.length = 0 := by unfold padCount; omega
      simp [padLoop, tmod_stop_natCast, h0, hk]
    · have hk : padCount r.length = padCount (r ++ [SPACE]).length + 1 := by
        simp only [padCount, List.length_append, List.length_singleton]; omega
      have hlt : (r.length : Int) < cap := by omega
      have hne : Int.tmod (r.length : Int) KILO_TAB_STOP ≠ 0 := by
        rw [tmod_stop_natCast]; omega
      rw [padLoop, if_pos hne, putByte_ok cap r SPACE hlt]
      simp only
      rw [ih (r ++ [SPACE]) (by omega) (by
        simp only [List.length_append, List.length_singleton] at hk ⊢
        omega)]
      rw [hk, List.replicate_succ]
      simp

theorem padCount_le (len : Nat) : padCount len ≤ 7 := by
  unfold padCount; omega

/-- The padding loop never uses up the iterations the model allows: with
`KILO_TAB_STOP` of them it ends at a multiple of the tab stop or on a write
past the buffer, never on `Fault.fuel`. -/
theorem padLoop_fuel (cap : Int) :
    ∀ (f : Nat) (r : List Nat), padCount r.length ≤ f → padLoop cap f r ≠ .error .fuel := by
  intro f
  induction f with
  | zero =>
    intro r hf
    have h0 : r.length % 8 = 0 := by unfold padCount at hf; omega
    simp [padLoop, tmod_stop_natCast, h0]
  | succ f ih =>
    intro r hf
    by_cases h0 : r.length % 8 = 0
    · simp [padLoop, tmod_stop_natCast, h0]
    · have hne : Int.tmod (r.length : Int) KILO_TAB_STOP ≠ 0 := by
        rw [tmod_stop_natCast]; omega
      rw [padLoop, if_pos hne]
      by_cases hlt : (r.length : Int) < cap
      · rw [putByte_ok cap r SPACE hlt]
        exact ih (r ++ [SPACE]) (by
          simp only [padCount, List.length_append, List.length_singleton] at hf ⊢
          omega)
      · simp [putByte, hlt]

theorem tabStop_toNat : KILO_TAB_STOP.toNat = 8 := by decide

/-- The character loop of `editorUpdateRow`, run next to the tab count and to
the loop of `cxToRx`: with room for the bytes the tab count allows, it returns,
it only appends, the appended bytes are no tabs, and the index it reaches is
the column `cxToRx` computes. -/
theorem renderCharsLoop_spec (row : erow) (cap : Int) :
    ∀ (n : Nat) (j t T : Int) (r : List Nat),
      countTabsLoop row n j t = .ok T →
      (r.length : Int) + n + (T - t) * 7 < cap →
      ∃ tail : List Nat,
        renderCharsLoop row cap n j r = .ok (r ++ tail) ∧
        cxToRxLoop row n j r.length = .ok ((r ++ tail).length : Int) ∧
        n ≤ tail.length ∧
        (tail.length : Int) ≤ n + (T - t) * 7 ∧
        ∀ x ∈ tail, x ≠ TAB := by
  intro n
  induction n with
  | zero =>
    intro j t T r h _
    have hT := countTabsLoop_mono row 0 j t T h
    refine ⟨[], ?_, ?_, ?_, ?_, ?_⟩
    · simp [renderCharsLoop]
    · simp [cxToRxLoop]
    · simp
    · simp only [List.length_nil]; push_cast; omega
    · simp
  | succ n ih =>
    intro j t T r h hcap
    have hT := countTabsLoop_mono row (n + 1) j t T h
    simp only [countTabsLoop] at h
    cases hb : byteAt row.chars j with
    | error e => rw [hb] at h; cases h
    | ok c =>
      rw [hb] at h
      simp only at h
      by_cases hc : c = TAB
      · rw [if_pos hc] at h
        have hT1 := countTabsLoop_mono row n (j + 1) (t + 1) T h
        have hk := padCount_le (r ++ [SPACE]).length
        have hlen : (r ++ [SPACE]).length = r.length + 1 := by simp
        have hput : putByte cap r SPACE = .ok (r ++ [SPACE]) :=
          putByte_ok cap r SPACE (by push_cast at hcap ⊢; omega)
        have hpad := padLoop_spec cap 8 (r ++ [SPACE]) (by omega)
          (by rw [hlen]; rw [hlen] at hk; push_cast at hcap ⊢; omega)
        obtain ⟨tail2, h1, h2, h3, h4, h5⟩ :=
          ih (j + 1) (t + 1) T (r ++ [SPACE] ++ List.replicate (padCount (r ++ [SPACE]).length) SPACE) h
            (by
              simp only [List.length_append, List.length_singleton, List.length_replicate]
              rw [hlen] at hk
              push_cast at hcap ⊢; omega)
        refine ⟨[SPACE] ++ List.replicate (padCount (r ++ [SPACE]).length) SPACE ++ tail2,
          ?_, ?_, ?_, ?_, ?_⟩
        · simp only [renderCharsLoop, hb, if_pos hc, hput, tabStop_toNat, hpad, h1]
          simp
        · simp only [cxToRxLoop, hb, if_pos hc]
          have e : (r.length : Int) + (KILO_TAB_STOP - 1 - Int.tmod (r.length : Int) KILO_TAB_STOP) + 1
              = ((r ++ [SPACE] ++ List.replicate (padCount (r ++ [SPACE]).length) SPACE).length : Int) := by
            rw [tmod_stop_natCast]
            simp only [List.length_append, List.length_singleton, List.length_replicate, padCount,
              KILO_TAB_STOP]
            push_cast
            omega
          rw [e, h2]
          simp [List.append_assoc]
        · simp only [List.length_append, List.length_singleton, List.length_replicate]
          omega
        · simp only [List.length_append, List.length_singleton, List.length_replicate]
          rw [hlen] at hk
          push_cast at h4 ⊢; omega
        · intro x hx
          simp only [List.mem_append, List.mem_singleton, List.mem_replicate] at hx
          rcases hx with (hx | hx) | hx
          · rw [hx]; decide
          · rw [hx.2]; decide
          · exact h5 x hx
      · rw [if_neg hc] at h
        have hput : putByte cap r c = .ok (r ++ [c]) :=
          putByte_ok cap r c (by push_cast at hcap ⊢; omega)
        obtain ⟨tail2, h1, h2, h3, h4, h5⟩ :=
          ih (j + 1) t T (r ++ [c]) h
            (by
              simp only [List.length_append, List.length_singleton]
              push_cast at hcap ⊢; omega)
        refine ⟨[c] ++ tail2, ?_, ?_, ?_, ?_, ?_⟩
        · simp only [renderCharsLoop, hb, if_neg hc, hput, h1]
          simp
        · simp only [cxToRxLoop, hb, if_neg hc]
          have e : (r.length : Int) + 1 = ((r ++ [c]).length : Int) := by simp
          rw [e, h2]
          simp [List.append_assoc]
        · simp only [List.length_append, List.length_singleton]
          omega
        · simp only [List.length_append, List.length_singleton]
          push_cast at h4 ⊢; omega
        · intro x hx
          simp only [List.mem_append, List.mem_singleton] at hx
          rcases hx with hx | hx
          · rw [hx]; exact hc
          · exact h5 x hx

theorem countTabsLoop_ok (row : erow) :
    ∀ (l pre post : List Nat) (t : Int), row.chars = pre ++ l ++ post →
      ∃ T, countTabsLoop row l.length pre.length t = .ok T ∧ ((∀ x ∈ l, x ≠ TAB) → T = t) := by
  intro l
  induction l with
  | nil =>
    intro pre post t _
    exact ⟨t, by simp [countTabsLoop], fun _ => rfl⟩
  | cons c l ih =>
    intro pre post t hch
    have hb : byteAt row.chars (pre.length : Int) = .ok c := by
      rw [hch, List.append_assoc, List.cons_append]
      exact byteAt_middle pre (l ++ post) c
    obtain ⟨T, hT, hfree⟩ := ih (pre ++ [c]) post (if c = TAB then t + 1 else t) (by rw [hch]; simp)
    refine ⟨T, ?_, ?_⟩
    · simp only [List.length_cons, countTabsLoop, hb]
      have e : (pre.length : Int) + 1 = ((pre ++ [c]).length : Int) := by simp
      rw [e]
      exact hT
    · intro hno
      have hc : c ≠ TAB := hno c (by simp)
      rw [hfree (fun x hx => hno x (by simp [hx])), if_neg hc]

theorem renderCharsLoop_notab (row : erow) (cap : Int) :
    ∀ (l pre post r : List Nat), row.chars = pre ++ l ++ post → (∀ x ∈ l, x ≠ TAB) →
      (r.length : Int) + (l.length : Int) ≤ cap →
      renderCharsLoop row cap l.length pre.length r = .ok (r ++ l) := by
  intro l
  induction l with
  | nil =>
    intro pre post r _ _ _
    simp [renderCharsLoop]
  | cons c l ih =>
    intro pre post r hch hno hcap
    have hb : byteAt row.chars (pre.length : Int) = .ok c := by
      rw [hch, List.append_assoc, List.cons_append]
      exact byteAt_middle pre (l ++ post) c
    have hc : c ≠ TAB := hno c (by simp)
    have hput : putByte cap r c = .ok (r ++ [c]) :=
      putByte_ok cap r c (by simp only [List.length_cons] at hcap; push_cast at hcap; omega)
    have e : (pre.length : Int) + 1 = ((pre ++ [c]).length : Int) := by simp
    simp only [List.length_cons, renderCharsLoop, hb, if_neg hc, hput]
    rw [e, ih (pre ++ [c]) post (r ++ [c]) (by rw [hch]; simp)
      (fun x hx => hno x (by simp [hx]))
      (by simp only [List.length_append, List.length_cons, List.length_nil] at hcap ⊢
          push_cast at hcap ⊢; omega)]
    simp

theorem cxToRxLoop_chars (r1 r2 : erow) (h : r1.chars = r2.chars) :
    ∀ (n : Nat) (j rx : Int), cxToRxLoop r1 n j rx = cxToRxLoop r2 n j rx := by
  intro n
  induction n with
  | zero => intro j rx; simp [cxToRxLoop]
  | succ n ih =>
    intro j rx
    simp only [cxToRxLoop, h]
    cases byteAt r2.chars j with
    | error e => rfl
    | ok c => exact ih _ _

theorem renderMarginLoop_newRow (s : List Nat) (cap : Int) (h : 2 ≤ cap) :
    renderMarginLoop (newRow s) cap 2 0 [] = .ok [126, 32] := by
  have h0 : ((([] : List Nat).length : Nat) : Int) < cap := by simp; omega
  have h1 : ((([126] : List Nat).length : Nat) : Int) < cap := by simp; omega
  simp only [renderMarginLoop, newRow, byteAt]
  simp [putByte_ok cap [] 126 h0, putByte_ok cap [126] 32 h1]

/-- What `editorUpdateRow` does to a row fresh from `editorAppendRow`: it returns;
the buffer holds the margin, then `tail`, then the terminator; `tail` is at
least as long as the content, at most 7 bytes longer per tab, and has no tab;
and the loop of `cxToRx` over the whole content ends at `rsize`. -/
theorem editorUpdateRow_newRow (s : List Nat) :
    ∃ (tail : List Nat) (T : Int),
      countTabsLoop (newRow s) s.length 0 0 = .ok T ∧
      editorUpdateRow (newRow s) =
        .ok { newRow s with
              render := [126, 32] ++ tail ++ [NUL]
              rsize := (([126, 32] ++ tail).length : Int) } ∧
      cxToRxLoop (newRow s) s.length 0 2 = .ok ((([126, 32] ++ tail).length : Nat) : Int) ∧
      s.length ≤ tail.length ∧
      (tail.length : Int) ≤ s.length + T * 7 ∧
      (∀ x ∈ tail, x ≠ TAB) ∧
      ((∀ x ∈ s, x ≠ TAB) → tail = s) := by
  obtain ⟨T, hT, hfree⟩ := countTabsLoop_ok (newRow s) s [] [NUL] 0 (by simp [newRow])
  simp only [List.length_nil, Nat.cast_zero] at hT
  have hT0 := countTabsLoop_mono _ _ _ _ _ hT
  have hcap : (2 : Int) ≤ (s.length : Int) + T * (KILO_TAB_STOP - 1) + 1 + 2 := by
    unfold KILO_TAB_STOP; omega
  obtain ⟨tail, h1, h2, h3, h4, h5⟩ :=
    renderCharsLoop_spec (newRow s) ((s.length : Int) + T * (KILO_TAB_STOP - 1) + 1 + 2)
      s.length 0 0 T [126, 32] hT (by
        unfold KILO_TAB_STOP
        simp only [List.length_cons, List.length_nil]
        push_cast; omega)
  refine ⟨tail, T, hT, ?_, ?_, h3, by simpa using h4, h5, ?_⟩
  · have hsz : (newRow s).size.toNat = s.length := by simp [newRow]
    have hsz2 : (newRow s).size = (s.length : Int) := by simp [newRow]
    have hm : (newRow s).marginlsize = 2 := by simp [newRow]
    have hput : putByte ((s.length : Int) + T * (KILO_TAB_STOP - 1) + 1 + 2) ([126, 32] ++ tail) NUL
        = .ok ([126, 32] ++ tail ++ [NUL]) :=
      putByte_ok _ _ _ (by
        unfold KILO_TAB_STOP
        simp only [List.length_append, List.length_cons, List.length_nil]
        push_cast; omega)
    unfold editorUpdateRow
    simp only [hsz2, Int.toNat_ofNat, hm, hT]
    have hmt : (2 : Int).toNat = 2 := by decide
    rw [hmt, renderMarginLoop_newRow s _ hcap]
    simp only [h1, hput]
  · simpa using h2
  · intro hno
    have hTt := hfree hno
    have hnt := renderCharsLoop_notab (newRow s) ((s.length : Int) + T * (KILO_TAB_STOP - 1) + 1 + 2)
      s [] [NUL] [126, 32] (by simp [newRow]) hno (by
        unfold KILO_TAB_STOP
        simp only [List.length_cons, List.length_nil]
        push_cast; omega)
    simp only [List.length_nil, Nat.cast_zero] at hnt
    rw [h1] at hnt
    have := Except.ok.inj hnt
    exact List.append_cancel_left this

/-- Loading lines never faults; it appends one row per line and keeps `numrows`
equal to the length of the row array. -/
theorem loadLines_ok :
    ∀ (ls : List (List Nat)) (E : editorConfig),
      ∃ E1, loadLines ls E = .ok E1 ∧ E1.numrows = E.numrows + (ls.length : Int) ∧
        E1.row.length = E.row.length + ls.length ∧ frameOf E1 = (E1.numrows, E1.row, E.screenrows, E.screencols) ∧
        E1.cx = E.cx ∧ E1.cy = E.cy := by
  intro ls
  induction ls with
  | nil => intro E; exact ⟨E, rfl, by simp, by simp, rfl, rfl, rfl⟩
  | cons l ls ih =>
    intro E
    obtain ⟨tail, T, _, hupd, _⟩ := editorUpdateRow_newRow l
    have happ : editorAppendRow E l = .ok
        { E with
          row := E.row ++ [{ newRow l with
                             render := [126, 32] ++ tail ++ [NUL]
                             rsize := (([126, 32] ++ tail).length : Int) }]
          numrows := E.numrows + 1 } := by
      simp only [editorAppendRow, hupd]
    obtain ⟨E1, h1, h2, h3, h4, h5, h6⟩ := ih
      { E with
        row := E.row ++ [{ newRow l with
                           render := [126, 32] ++ tail ++ [NUL]
                           rsize := (([126, 32] ++ tail).length : Int) }]
        numrows := E.numrows + 1 }
    refine ⟨E1, ?_, ?_, ?_, h4, h5, h6⟩
    · simp only [loadLines, happ, h1]
    · rw [h2]; simp only [List.length_cons]; push_cast; omega
    · rw [h3]; simp only [List.length_append, List.length_cons, List.length_nil]; omega

theorem byteAt_mem_of_ge (pre rest : List Nat) (i : Int) (x : Nat)
    (hi : (pre.length : Int) ≤ i) (h : byteAt (pre ++ rest) i = .ok x) : x ∈ rest := by
  unfold byteAt at h
  have hneg : ¬ (i < 0) := by omega
  rw [if_neg hneg] at h
  have hle : pre.length ≤ i.toNat := by omega
  rw [List.getElem?_append_right hle] at h
  cases hg : rest[i.toNat - pre.length]? with
  | none => rw [hg] at h; cases h
  | some y =>
    rw [hg] at h
    have hy : y = x := Except.ok.inj h
    rw [← hy]
    exact List.getElem?_mem hg

/-! ## The row store: claims C1, C9, C10 -/

/-- C1: for the row that `editorAppendRow` builds from arbitrary bytes `s`
(margin `"~ "`, `marginlsize` 2, tab stop 8), `cxToRx(row, 0)` is `marginlsize`
and `cxToRx(row, row.size)` is `row.rsize`, the length of the render text that
`editorUpdateRow` wrote before the terminator. -/
theorem cxToRx_at_ends (E : editorConfig) (s : List Nat) :
    ∃ row : erow,
      editorUpdateRow (newRow s) = .ok row ∧
      editorAppendRow E s = .ok { E with row := E.row ++ [row], numrows := E.numrows + 1 } ∧
      row.size = (s.length : Int) ∧ row.marginlsize = 2 ∧
      (row.render.length : Int) = row.rsize + 1 ∧
      cxToRx row 0 = .ok row.marginlsize ∧
      cxToRx row row.size = .ok row.rsize := by
  obtain ⟨tail, T, _, hupd, hrx, _, _, _, _⟩ := editorUpdateRow_newRow s
  refine ⟨_, hupd, ?_, ?_, ?_, ?_, ?_, ?_⟩
  · simp only [editorAppendRow, hupd]
  · simp [newRow]
  · simp [newRow]
  · simp only [List.length_append, List.length_cons, List.length_nil]
    push_cast; omega
  · simp [cxToRx, cxToRxLoop]
  · have hsz : (newRow s).size = (s.length : Int) := by simp [newRow]
    have hm : (newRow s).marginlsize = 2 := by simp [newRow]
    simp only [cxToRx, hsz, hm, Int.toNat_ofNat]
    refine Eq.trans (cxToRxLoop_chars _ _ ?_ _ _ _) hrx
    rfl

/-- C9: for content `s` without a tab byte the render text that
`editorUpdateRow` computes is the margin `"~ "` followed by `s`, byte for byte,
and `rsize = marginlsize + size`. -/
theorem render_of_tab_free (E : editorConfig) (s : List Nat) (h : ∀ x ∈ s, x ≠ TAB) :
    ∃ row : erow,
      editorUpdateRow (newRow s) = .ok row ∧
      editorAppendRow E s = .ok { E with row := E.row ++ [row], numrows := E.numrows + 1 } ∧
      row.render = [126, 32] ++ s ++ [NUL] ∧
      row.render.take row.rsize.toNat = [126, 32] ++ s ∧
      row.rsize = row.marginlsize + row.size := by
  obtain ⟨tail, T, _, hupd, _, _, _, _, hfree⟩ := editorUpdateRow_newRow s
  have ht : tail = s := hfree h
  subst ht
  refine ⟨_, hupd, ?_, rfl, ?_, ?_⟩
  · simp only [editorAppendRow, hupd]
  · simp only [Int.toNat_ofNat]
    rw [List.take_append_of_le_length (Nat.le_refl _), List.take_length]
  · simp only [newRow, List.length_append, List.length_cons, List.length_nil]
    push_cast; omega

/-- Witness of C9: the content `abc`. -/
theorem render_of_tab_free_witness :
    (∀ x ∈ [97, 98, 99], x ≠ TAB) ∧
    ∃ row : erow,
      editorUpdateRow (newRow [97, 98, 99]) = .ok row ∧
      editorAppendRow (initEditor 24 80) [97, 98, 99] =
        .ok { initEditor 24 80 with
              row := (initEditor 24 80).row ++ [row]
              numrows := (initEditor 24 80).numrows + 1 } ∧
      row.render = [126, 32] ++ [97, 98, 99] ++ [NUL] ∧
      row.render.take row.rsize.toNat = [126, 32] ++ [97, 98, 99] ∧
      row.rsize = row.marginlsize + row.size :=
  ⟨by decide, render_of_tab_free (initEditor 24 80) [97, 98, 99] (by decide)⟩

/-- C10: for every content `s`, tabs or not, the row `editorUpdateRow`
computes has `rsize >= size + marginlsize`, and no byte of `render` at an index
from `marginlsize` on is the tab byte. -/
theorem render_length_and_no_tab (s : List Nat) :
    ∃ row : erow,
      editorUpdateRow (newRow s) = .ok row ∧
      row.rsize ≥ row.size + row.marginlsize ∧
      ∀ i : Int, row.marginlsize ≤ i → byteAt row.render i ≠ .ok TAB := by
  obtain ⟨tail, T, _, hupd, _, hlen, _, hnotab, _⟩ := editorUpdateRow_newRow s
  refine ⟨_, hupd, ?_, ?_⟩
  · simp only [newRow, List.length_append, List.length_cons, List.length_nil]
    push_cast; omega
  · intro i hi hb
    have hi2 : (([126, 32] : List Nat).length : Int) ≤ i := by
      simp only [newRow] at hi
      simpa using hi
    rw [show ([126, 32] ++ tail ++ [NUL] : List Nat) = [126, 32] ++ (tail ++ [NUL]) by simp] at hb
    have hmem := byteAt_mem_of_ge [126, 32] (tail ++ [NUL]) i TAB hi2 hb
    rcases List.mem_append.mp hmem with hx | hx
    · exact hnotab TAB hx rfl
    · simp [TAB, NUL] at hx

/-! ## Scrolling: claim C4 -/

theorem cxToRxLoop_ok (row : erow) :
    ∀ (n j : Nat) (rx : Int), j + n ≤ row.chars.length →
      ∃ v, cxToRxLoop row n (j : Int) rx = .ok v := by
  intro n
  induction n with
  | zero => intro j rx _; exact ⟨rx, by simp [cxToRxLoop]⟩
  | succ n ih =>
    intro j rx h
    have hj : j < row.chars.length := by omega
    have hb : byteAt row.chars (j : Int) = .ok (row.chars[j]) := by
      rw [byteAt_natCast, List.getElem?_eq_getElem hj]
    simp only [cxToRxLoop, hb]
    have e : (j : Int) + 1 = ((j + 1 : Nat) : Int) := by push_cast; rfl
    rw [e]
    exact ih (j + 1) _ (by omega)

theorem scrollRx_fields (E E1 : editorConfig) (h : scrollRx E = .ok E1) :
    ∃ v, E1 = { E with rx := v } := by
  unfold scrollRx at h
  simp only at h
  split at h
  · cases hr : rowAt { E with rx := 0 } E.cy with
    | error e => rw [hr] at h; cases h
    | ok r =>
      rw [hr] at h
      simp only at h
      cases hx : cxToRx r E.cx with
      | error e => rw [hx] at h; cases h
      | ok v =>
        rw [hx] at h
        exact ⟨v, (Except.ok.inj h).symm⟩
  · exact ⟨0, (Except.ok.inj h).symm⟩

theorem scrollOffsets_visible (E1 : editorConfig) (hr : 0 < E1.screenrows)
    (hc : 0 < E1.screencols) :
    (scrollOffsets E1).rowoff ≤ E1.cy ∧ E1.cy < (scrollOffsets E1).rowoff + E1.screenrows ∧
    (scrollOffsets E1).coloff ≤ E1.rx ∧ E1.rx < (scrollOffsets E1).coloff + E1.screencols ∧
    (scrollOffsets E1).cx = E1.cx ∧ (scrollOffsets E1).cy = E1.cy ∧
    (scrollOffsets E1).rx = E1.rx ∧ (scrollOffsets E1).screenrows = E1.screenrows ∧
    (scrollOffsets E1).screencols = E1.screencols ∧ (scrollOffsets E1).numrows = E1.numrows ∧
    (scrollOffsets E1).row = E1.row := by
  unfold scrollOffsets
  simp only
  split_ifs <;> refine ⟨?_, ?_, ?_, ?_, rfl, rfl, rfl, rfl, rfl, rfl, rfl⟩ <;>
    dsimp only at * <;> omega

/-- The function `editorScroll` returns whenever the cursor is below the file or
on a row whose buffer holds at least `cx` bytes. -/
theorem editorScroll_defined (E : editorConfig)
    (hin : E.numrows ≤ E.cy ∨ ∃ r, rowAt E E.cy = .ok r ∧ E.cx ≤ (r.chars.length : Int)) :
    ∃ E1, editorScroll E = .ok E1 := by
  unfold editorScroll scrollRx
  simp only
  rcases hin with hbelow | ⟨r, hrow, hcx⟩
  · have : ¬ (E.cy < E.numrows) := by omega
    rw [if_neg this]
    exact ⟨_, rfl⟩
  · have hrow0 : rowAt { E with rx := 0 } E.cy = .ok r := hrow
    obtain ⟨v, hv⟩ := cxToRxLoop_ok r E.cx.toNat 0 r.marginlsize (by omega)
    have hx : cxToRx r E.cx = .ok v := by
      unfold cxToRx
      simpa using hv
    by_cases hlt : E.cy < E.numrows
    · rw [if_pos hlt, hrow0]
      simp only [hx]
      exact ⟨_, rfl⟩
    · rw [if_neg hlt]
      exact ⟨_, rfl⟩

/-- C4: for every editor state with `screenrows > 0` and `screencols > 0`,
whatever `cx`, `cy` and the earlier `rowoff`, `coloff` are, the state after
`editorScroll` has `rowoff <= cy < rowoff + screenrows` and
`coloff <= rx < coloff + screencols` for the `rx` just recomputed, with the
cursor and the screen size untouched.  `editorScroll` returns such a state
whenever the cursor is below the file or on a row whose buffer holds at least
`cx` bytes, the only reads it makes. -/
theorem editorScroll_cursor_visible (E : editorConfig) (hr : 0 < E.screenrows)
    (hc : 0 < E.screencols) :
    (∀ E', editorScroll E = .ok E' →
      E'.rowoff ≤ E'.cy ∧ E'.cy < E'.rowoff + E'.screenrows ∧
      E'.coloff ≤ E'.rx ∧ E'.rx < E'.coloff + E'.screencols ∧
      E'.cx = E.cx ∧ E'.cy = E.cy ∧ E'.screenrows = E.screenrows ∧
      E'.screencols = E.screencols) ∧
    ((E.numrows ≤ E.cy ∨ ∃ r, rowAt E E.cy = .ok r ∧ E.cx ≤ (r.chars.length : Int)) →
      ∃ E', editorScroll E = .ok E') := by
  constructor
  · intro E' h
    unfold editorScroll at h
    cases h1 : scrollRx E with
    | error e => rw [h1] at h; cases h
    | ok E1 =>
      rw [h1] at h
      have hE' : E' = scrollOffsets E1 := (Except.ok.inj h).symm
      obtain ⟨v, hv⟩ := scrollRx_fields E E1 h1
      have hr1 : 0 < E1.screenrows := by rw [hv]; exact hr
      have hc1 : 0 < E1.screencols := by rw [hv]; exact hc
      obtain ⟨a1, a2, a3, a4, a5, a6, a7, a8, a9, _, _⟩ := scrollOffsets_visible E1 hr1 hc1
      have e1 : E1.cx = E.cx := by rw [hv]
      have e2 : E1.cy = E.cy := by rw [hv]
      have e3 : E1.screenrows = E.screenrows := by rw [hv]
      have e4 : E1.screencols = E.screencols := by rw [hv]
      rw [hE']
      refine ⟨?_, ?_, ?_, ?_, ?_, ?_, ?_, ?_⟩ <;> omega
  · intro hin
    unfold editorScroll scrollRx
    simp only
    rcases hin with hbelow | ⟨r, hrow, hcx⟩
    · have : ¬ (E.cy < E.numrows) := by omega
      rw [if_neg this]
      exact ⟨_, rfl⟩
    · have hrow0 : rowAt { E with rx := 0 } E.cy = .ok r := hrow
      obtain ⟨v, hv⟩ := cxToRxLoop_ok r E.cx.toNat 0 r.marginlsize (by omega)
      have hx : cxToRx r E.cx = .ok v := by
        unfold cxToRx
        simpa using hv
      by_cases hlt : E.cy < E.numrows
      · rw [if_pos hlt, hrow0]
        simp only [hx]
        exact ⟨_, rfl⟩
      · rw [if_neg hlt]
        exact ⟨_, rfl⟩

/-- Witness of C4: the one-line file `a<TAB>b` on a 24 by 80 screen, the cursor
after the tab; `rx` becomes 8. -/
theorem editorScroll_cursor_visible_witness :
    (0 : Int) < (tabLine).screenrows ∧ (0 : Int) < (tabLine).screencols ∧
    ∃ E', editorScroll tabLine = .ok E' ∧ E'.rx = 8 ∧
      E'.rowoff ≤ E'.cy ∧ E'.cy < E'.rowoff + E'.screenrows ∧
      E'.coloff ≤ E'.rx ∧ E'.rx < E'.coloff + E'.screencols :=
  ⟨by decide, by decide, by
    have h := editorScroll_cursor_visible tabLine (by decide) (by decide)
    obtain ⟨b1, b2, b3, b4, _⟩ := h.1 _ (show editorScroll tabLine = .ok { tabLine with rx := 8 } by decide)
    exact ⟨_, by decide, rfl, b1, b2, b3, b4⟩⟩

/-! ## Key decoding: claims C5, C6, C7 -/

theorem charValue_eq_lit (sc : Bool) (b k : Nat) (hb : b < 256) (hk : k < 128) :
    charValue sc b = (k : Int) ↔ b = k := by
  unfold charValue
  split_ifs <;> omega

theorem charValue_digit (sc : Bool) (b : Nat) (hb : b < 256) :
    (charValue sc b ≥ 48 ∧ charValue sc b ≤ 57) ↔ (48 ≤ b ∧ b ≤ 57) := by
  unfold charValue
  split_ifs <;> omega

/-- Idle reads in front of the first byte, timeouts and `EAGAIN` failures, are
skipped by the opening loop of `editorReadKey`. -/
theorem editorReadKey_skip_idle (sc : Bool) (idle inp : List ReadResult)
    (h : ∀ r ∈ idle, r = .timeout ∨ r = .failed true) :
    editorReadKey sc (idle ++ inp) = editorReadKey sc inp := by
  induction idle with
  | nil => rfl
  | cons r idle ih =>
    have hr := h r (by simp)
    have ih1 := ih (fun x hx => h x (by simp [hx]))
    unfold editorReadKey at ih1 ⊢
    rcases hr with hr | hr <;> subst hr <;> simpa [readFirst] using ih1

/-- C6: `editorReadKey` decodes every recognised escape sequence to the key
named for it, whatever follows the sequence in the input and whether `char` is
signed or not: `ESC [ 1 ~` and `ESC [ 7 ~` to Home, `ESC [ 3 ~` to Delete,
`ESC [ 4 ~` and `ESC [ 8 ~` to End, `ESC [ 5 ~` to PageUp, `ESC [ 6 ~` to
PageDown, `ESC [ A/B/C/D` to the arrows up, down, right, left, `ESC [ F` to End,
`ESC [ H` to Home, `ESC O F` to End and `ESC O H` to Home.  What follows the
sequence is left unread. -/
theorem editorReadKey_recognised (sc : Bool) (rest : List ReadResult) :
    editorReadKey sc (.byte 27 :: .byte 91 :: .byte 49 :: .byte 126 :: rest) = .ok (HOME_KEY, rest) ∧
    editorReadKey sc (.byte 27 :: .byte 91 :: .byte 55 :: .byte 126 :: rest) = .ok (HOME_KEY, rest) ∧
    editorReadKey sc (.byte 27 :: .byte 91 :: .byte 51 :: .byte 126 :: rest) = .ok (DEL_KEY, rest) ∧
    editorReadKey sc (.byte 27 :: .byte 91 :: .byte 52 :: .byte 126 :: rest) = .ok (END_KEY, rest) ∧
    editorReadKey sc (.byte 27 :: .byte 91 :: .byte 56 :: .byte 126 :: rest) = .ok (END_KEY, rest) ∧
    editorReadKey sc (.byte 27 :: .byte 91 :: .byte 53 :: .byte 126 :: rest) = .ok (PAGE_UP, rest) ∧
    editorReadKey sc (.byte 27 :: .byte 91 :: .byte 54 :: .byte 126 :: rest) = .ok (PAGE_DOWN, rest) ∧
    editorReadKey sc (.byte 27 :: .byte 91 :: .byte 65 :: rest) = .ok (ARROW_UP, rest) ∧
    editorReadKey sc (.byte 27 :: .byte 91 :: .byte 66 :: rest) = .ok (ARROW_DOWN, rest) ∧
    editorReadKey sc (.byte 27 :: .byte 91 :: .byte 67 :: rest) = .ok (ARROW_RIGHT, rest) ∧
    editorReadKey sc (.byte 27 :: .byte 91 :: .byte 68 :: rest) = .ok (ARROW_LEFT, rest) ∧
    editorReadKey sc (.byte 27 :: .byte 91 :: .byte 70 :: rest) = .ok (END_KEY, rest) ∧
    editorReadKey sc (.byte 27 :: .byte 91 :: .byte 72 :: rest) = .ok (HOME_KEY, rest) ∧
    editorReadKey sc (.byte 27 :: .byte 79 :: .byte 70 :: rest) = .ok (END_KEY, rest) ∧
    editorReadKey sc (.byte 27 :: .byte 79 :: .byte 72 :: rest) = .ok (HOME_KEY, rest) := by
  cases sc <;> refine ⟨?_, ?_, ?_, ?_, ?_, ?_, ?_, ?_, ?_, ?_, ?_, ?_, ?_, ?_, ?_⟩ <;> rfl

theorem decodeTail_escape (c0 c1 : Int) (h : c0 = 79 → c1 ≠ 70 ∧ c1 ≠ 72) :
    decodeTail c0 c1 = 27 := by
  unfold decodeTail
  split_ifs with h1 h2 h3
  · exact absurd h2 (h h1).1
  · exact absurd h3 (h h1).2
  · rfl
  · rfl

theorem editorReadKey_two_bytes (sc : Bool) (b0 b1 : Nat) (f2 : List ReadResult)
    (hbytes : bytesOnly (.byte b0 :: .byte b1 :: f2))
    (hun : recognised (.byte b0 :: .byte b1 :: f2) = false) :
    ∃ rest, editorReadKey sc (.byte 27 :: .byte b0 :: .byte b1 :: f2) = .ok (27, rest) := by
  have hb0 : b0 < 256 := hbytes b0 (by simp)
  have hb1 : b1 < 256 := hbytes b1 (by simp)
  have h27 : charValue sc 27 = 27 := by cases sc <;> rfl
  have e0 : ∀ k : Nat, k < 128 → (charValue sc b0 = (k : Int) ↔ b0 = k) :=
    fun k hk => charValue_eq_lit sc b0 k hb0 hk
  have e1 : ∀ k : Nat, k < 128 → (charValue sc b1 = (k : Int) ↔ b1 = k) :=
    fun k hk => charValue_eq_lit sc b1 k hb1 hk
  have ed := charValue_digit sc b1 hb1
  simp only [editorReadKey, readFirst, readFollow, h27, if_true]
  simp only [recognised] at hun
  by_cases h0 : b0 = 91
  · have c0 : charValue sc b0 = 91 := (e0 91 (by decide)).mpr h0
    have hO : ¬ (charValue sc b0 = 79) := by rw [c0]; decide
    have htail : decodeTail (charValue sc b0) (charValue sc b1) = 27 :=
      decodeTail_escape _ _ (fun h => absurd h hO)
    rw [if_pos h0] at hun
    rw [if_pos c0, htail]
    by_cases hd : 48 ≤ b1 ∧ b1 ≤ 57
    · rw [if_pos (ed.mpr hd)]
      have hl : ¬ (b1 = 65 ∨ b1 = 66 ∨ b1 = 67 ∨ b1 = 68 ∨ b1 = 70 ∨ b1 = 72) := by omega
      rw [if_neg hl] at hun
      rcases f2 with _ | ⟨r2, f3⟩
      · exact ⟨_, rfl⟩
      · cases r2 with
        | timeout => exact ⟨_, rfl⟩
        | failed e => exact ⟨_, rfl⟩
        | byte b2 =>
          simp only [readFollow]
          by_cases ht : charValue sc b2 = 126
          · rw [if_pos ht]
            by_cases hdig : b1 = 49 ∨ b1 = 51 ∨ b1 = 52 ∨ b1 = 53 ∨ b1 = 54 ∨ b1 = 55 ∨ b1 = 56
            · rw [if_pos hdig] at hun
              simp only [decide_eq_false_iff_not] at hun
              have hb2 : b2 = 126 :=
                (charValue_eq_lit sc b2 126 (hbytes b2 (by simp)) (by decide)).mp ht
              exact absurd hb2 hun
            · have n1 : ¬ charValue sc b1 = 49 := fun h => hdig (by have := (e1 49 (by decide)).mp h; omega)
              have n3 : ¬ charValue sc b1 = 51 := fun h => hdig (by have := (e1 51 (by decide)).mp h; omega)
              have n4 : ¬ charValue sc b1 = 52 := fun h => hdig (by have := (e1 52 (by decide)).mp h; omega)
              have n5 : ¬ charValue sc b1 = 53 := fun h => hdig (by have := (e1 53 (by decide)).mp h; omega)
              have n6 : ¬ charValue sc b1 = 54 := fun h => hdig (by have := (e1 54 (by decide)).mp h; omega)
              have n7 : ¬ charValue sc b1 = 55 := fun h => hdig (by have := (e1 55 (by decide)).mp h; omega)
              have n8 : ¬ charValue sc b1 = 56 := fun h => hdig (by have := (e1 56 (by decide)).mp h; omega)
              rw [if_neg n1, if_neg n3, if_neg n4, if_neg n5, if_neg n6, if_neg n7, if_neg n8]
              exact ⟨_, rfl⟩
          · rw [if_neg ht]
            exact ⟨_, rfl⟩
    · rw [if_neg (fun h => hd (ed.mp h))]
      have hl : ¬ (b1 = 65 ∨ b1 = 66 ∨ b1 = 67 ∨ b1 = 68 ∨ b1 = 70 ∨ b1 = 72) := by
        intro hl
        rw [if_pos hl] at hun
        cases hun
      have m1 : ¬ charValue sc b1 = 65 := fun h => hl (by have := (e1 65 (by decide)).mp h; omega)
      have m2 : ¬ charValue sc b1 = 66 := fun h => hl (by have := (e1 66 (by decide)).mp h; omega)
      have m3 : ¬ charValue sc b1 = 67 := fun h => hl (by have := (e1 67 (by decide)).mp h; omega)
      have m4 : ¬ charValue sc b1 = 68 := fun h => hl (by have := (e1 68 (by decide)).mp h; omega)
      have m5 : ¬ charValue sc b1 = 70 := fun h => hl (by have := (e1 70 (by decide)).mp h; omega)
      have m6 : ¬ charValue sc b1 = 72 := fun h => hl (by have := (e1 72 (by decide)).mp h; omega)
      rw [if_neg m1, if_neg m2, if_neg m3, if_neg m4, if_neg m5, if_neg m6]
      exact ⟨_, rfl⟩
  · have c0 : ¬ (charValue sc b0 = 91) := fun h => h0 ((e0 91 (by decide)).mp h)
    rw [if_neg h0] at hun
    rw [if_neg c0]
    have htail : decodeTail (charValue sc b0) (charValue sc b1) = 27 := by
      apply decodeTail_escape
      intro hO
      have hb : b0 = 79 := (e0 79 (by decide)).mp hO
      rw [if_pos hb] at hun
      simp only [decide_eq_false_iff_not] at hun
      constructor
      · intro h; exact hun (Or.inl ((e1 70 (by decide)).mp h))
      · intro h; exact hun (Or.inr ((e1 72 (by decide)).mp h))
    rw [htail]
    exact ⟨_, rfl⟩

/-- C5: an input whose first byte is `0x1B` and whose continuation `follow` is
none of the recognised sequences makes `editorReadKey` return the literal
Escape key 27: it returns, `die` is not called.  This covers a continuation in
which a follow-up read delivers no byte (a timeout, a failed read, or the end
of the input) before the sequence is complete; in particular the input
`0x1B, 0x5B, 0x39` with nothing after it decodes to Escape. -/
theorem editorReadKey_unrecognised (sc : Bool) (follow : List ReadResult)
    (hbytes : bytesOnly follow) (hun : recognised follow = false) :
    (∃ rest, editorReadKey sc (.byte 27 :: follow) = .ok (27, rest)) ∧
    editorReadKey sc [.byte 27, .byte 91, .byte 57] = .ok (27, []) ∧
    (∀ rest, editorReadKey sc (.byte 27 :: .byte 91 :: .byte 57 :: .timeout :: rest)
      = .ok (27, rest)) := by
  refine ⟨?_, by cases sc <;> rfl, fun rest => by cases sc <;> rfl⟩
  have h27 : charValue sc 27 = 27 := by cases sc <;> rfl
  rcases follow with _ | ⟨r0, f1⟩
  · exact ⟨[], by simp [editorReadKey, readFirst, readFollow, h27]⟩
  · cases r0 with
    | timeout => exact ⟨f1, by simp [editorReadKey, readFirst, readFollow, h27]⟩
    | failed e => exact ⟨f1, by simp [editorReadKey, readFirst, readFollow, h27]⟩
    | byte b0 =>
      rcases f1 with _ | ⟨r1, f2⟩
      · exact ⟨[], by simp [editorReadKey, readFirst, readFollow, h27]⟩
      · cases r1 with
        | timeout => exact ⟨f2, by simp [editorReadKey, readFirst, readFollow, h27]⟩
        | failed e => exact ⟨f2, by simp [editorReadKey, readFirst, readFollow, h27]⟩
        | byte b1 => exact editorReadKey_two_bytes sc b0 b1 f2 hbytes hun

/-- Witness of C5: the truncated sequence `ESC [ 9`. -/
theorem editorReadKey_unrecognised_witness :
    bytesOnly [.byte 91, .byte 57] ∧ recognised [.byte 91, .byte 57] = false ∧
    ∃ rest, editorReadKey true (.byte 27 :: [.byte 91, .byte 57]) = .ok (27, rest) :=
  ⟨by intro b hb; simp at hb; omega, by decide,
    (editorReadKey_unrecognised true [.byte 91, .byte 57]
      (by intro b hb; simp at hb; omega) (by decide)).1⟩

/-- C7, amended: an input whose first byte `b` (0x00..0xFF) is not `0x1B` makes
`editorReadKey` return the value of `b` as a `char`, consume that one byte and
leave the rest unread.  The value is `b` itself, in 0x00..0xFF, when `b < 0x80`
or `char` is unsigned; where `char` is signed and `b >= 0x80` it is `b - 256`,
a value in -128..-1. -/
theorem editorReadKey_literal (sc : Bool) (b : Nat) (rest : List ReadResult)
    (hb : b < 256) (hne : b ≠ 27) :
    editorReadKey sc (.byte b :: rest) = .ok (charValue sc b, rest) ∧
    ((sc = false ∨ b < 128) → charValue sc b = (b : Int)) ∧
    ((sc = true ∧ 128 ≤ b) → charValue sc b = (b : Int) - 256) := by
  have hc : ¬ (charValue sc b = 27) := fun h => hne ((charValue_eq_lit sc b 27 hb (by decide)).mp h)
  refine ⟨?_, ?_, ?_⟩
  · simp only [editorReadKey, readFirst, if_neg hc]
  · intro h
    unfold charValue
    rcases h with h | h
    · simp [h]
    · have : ¬ (sc = true ∧ 128 ≤ b) := by omega
      rw [if_neg this]
  · intro h
    unfold charValue
    rw [if_pos h]

/-- Witness of C7, amended: the byte `q`, and the byte `0xE9` under a signed
`char`. -/
theorem editorReadKey_literal_witness :
    (113 < 256 ∧ 113 ≠ 27 ∧ editorReadKey true [.byte 113, .byte 27] = .ok (113, [.byte 27])) ∧
    (233 < 256 ∧ 233 ≠ 27 ∧ editorReadKey true [.byte 233, .byte 27] = .ok (-23, [.byte 27])) :=
  ⟨⟨by decide, by decide, (editorReadKey_literal true 113 [.byte 27] (by decide) (by decide)).1⟩,
   ⟨by decide, by decide, (editorReadKey_literal true 233 [.byte 27] (by decide) (by decide)).1⟩⟩

/-- C7 as stated fails where `char` is signed: the byte `0xFF` is returned as
`-1`, not as a key in 0x00..0xFF. -/
theorem editorReadKey_high_byte_negative :
    editorReadKey true [.byte 255] = .ok (-1, []) ∧
    ¬ (∃ k rest, editorReadKey true [.byte 255] = .ok (k, rest) ∧ 0 ≤ k ∧ k ≤ 255) := by
  refine ⟨by decide, ?_⟩
  rintro ⟨k, rest, h, h0, _⟩
  have e : editorReadKey true [.byte 255] = .ok (-1, []) := by decide
  rw [e] at h
  have hk : (-1 : Int) = k := congrArg Prod.fst (Except.ok.inj h)
  omega

/-! ## Cursor movement: claims C2, C3, C8 -/

theorem rowPtr_some (E : editorConfig) (i : Int) (h : rowPtr E = some i) :
    i = E.cy ∧ E.cy ≤ E.numrows := by
  unfold rowPtr at h
  split_ifs at h with h1 h2
  have := Option.some.inj h
  omega

theorem clampCx_fields (E E1 : editorConfig) (h : clampCx E = .ok E1) :
    E1 = { E with cx := E1.cx } ∧ E1.cx ≤ E.cx := by
  unfold clampCx at h
  split at h
  · split_ifs at h with hc
    · have := Except.ok.inj h; subst this; exact ⟨rfl, by dsimp only; omega⟩
    · have := Except.ok.inj h; subst this; exact ⟨rfl, le_refl _⟩
  · split at h
    · cases h
    · split_ifs at h with hc
      · have := Except.ok.inj h; subst this; exact ⟨rfl, by dsimp only; omega⟩
      · have := Except.ok.inj h; subst this; exact ⟨rfl, le_refl _⟩

theorem rowPtr_setCx (E : editorConfig) (v : Int) : rowPtr { E with cx := v } = rowPtr E := rfl

theorem rowSize_setCx (E : editorConfig) (v i : Int) :
    rowSize { E with cx := v } i = rowSize E i := rfl

/-- The closing clamp changes nothing when it is applied a second time. -/
theorem clampCx_idem (E E1 : editorConfig) (h : clampCx E = .ok E1) : clampCx E1 = .ok E1 := by
  unfold clampCx at h
  split at h
  · rename_i hp
    split_ifs at h with hc
    · have := Except.ok.inj h; subst this
      unfold clampCx
      rw [rowPtr_setCx, hp]
      simp
    · have := Except.ok.inj h; subst this
      unfold clampCx
      rw [hp, if_neg hc]
  · rename_i i hp
    split at h
    · cases h
    · rename_i rowlen hs
      split_ifs at h with hc
      · have := Except.ok.inj h; subst this
        unfold clampCx
        rw [rowPtr_setCx, hp]
        simp only [rowSize_setCx, hs]
        simp
      · have := Except.ok.inj h; subst this
        unfold clampCx
        rw [hp]
        simp only [hs, if_neg hc]

theorem moveSwitch_inv (E E1 : editorConfig) (key : Int) (h : moveSwitch E key = .ok E1) :
    E1.numrows = E.numrows ∧ E1.row = E.row ∧ E1.screenrows = E.screenrows ∧
    E1.screencols = E.screencols ∧
    (0 ≤ E.cy → 0 ≤ E1.cy) ∧ (E.cy ≤ E.numrows + 1 → E1.cy ≤ E.numrows + 1) := by
  unfold moveSwitch at h
  simp only at h
  split_ifs at h
  all_goals (repeat' split at h)
  all_goals first
    | (cases h; done)
    | (cases h
       refine ⟨rfl, rfl, rfl, rfl, fun _ => ?_, fun _ => ?_⟩ <;> (try dsimp only) <;> omega)
    | (cases h
       have hp := rowPtr_some E _ (by assumption)
       refine ⟨rfl, rfl, rfl, rfl, fun _ => ?_, fun _ => ?_⟩ <;> (try dsimp only) <;> omega)

theorem moveSwitch_keeps (E E1 : editorConfig) (key : Int) (h : moveSwitch E key = .ok E1) :
    frameOf E1 = frameOf E ∧ (cyInRange E → cyInRange E1) := by
  obtain ⟨a1, a2, a3, a4, a5, a6⟩ := moveSwitch_inv E E1 key h
  refine ⟨by simp only [frameOf, a1, a2, a3, a4], fun hc => ⟨a5 hc.1, ?_⟩⟩
  have := a6 hc.2
  omega

theorem clampCx_keeps (E E1 : editorConfig) (h : clampCx E = .ok E1) :
    frameOf E1 = frameOf E ∧ (cyInRange E → cyInRange E1) := by
  obtain ⟨e, _⟩ := clampCx_fields E E1 h
  constructor
  · rw [e]; rfl
  · intro hc
    rw [e]
    exact hc

theorem moveKey_keeps (E E1 : editorConfig) (key : Int) (h : moveKey E key = .ok E1) :
    frameOf E1 = frameOf E ∧ (cyInRange E → cyInRange E1) ∧ clampCx E1 = .ok E1 := by
  unfold moveKey at h
  cases hs : moveSwitch E key with
  | error e => rw [hs] at h; cases h
  | ok E2 =>
    rw [hs] at h
    obtain ⟨f1, c1⟩ := moveSwitch_keeps E E2 key hs
    obtain ⟨f2, c2⟩ := clampCx_keeps E2 E1 h
    exact ⟨f2.trans f1, fun hc => c2 (c1 hc), clampCx_idem E2 E1 h⟩

theorem pageLoop_keeps (arrow : Int) :
    ∀ (n : Nat) (E E1 : editorConfig), pageLoop arrow n E = .ok E1 →
      frameOf E1 = frameOf E ∧ (cyInRange E → cyInRange E1) ∧
      ((0 < n ∨ clampCx E = .ok E) → clampCx E1 = .ok E1) := by
  intro n
  induction n with
  | zero =>
    intro E E1 h
    have := Except.ok.inj h
    subst this
    exact ⟨rfl, id, fun hc => hc.elim (fun h0 => absurd h0 (by decide)) id⟩
  | succ n ih =>
    intro E E1 h
    simp only [pageLoop] at h
    cases hm : moveKey E arrow with
    | error e => rw [hm] at h; cases h
    | ok E2 =>
      rw [hm] at h
      obtain ⟨f1, c1, k1⟩ := moveKey_keeps E E2 arrow hm
      obtain ⟨f2, c2, k2⟩ := ih E2 E1 h
      exact ⟨f2.trans f1, fun hc => c2 (c1 hc), fun _ => k2 (Or.inr k1)⟩

theorem editorMoveCursor_keeps (E E1 : editorConfig) (key : Int)
    (h : editorMoveCursor E key = .ok E1) :
    frameOf E1 = frameOf E ∧ (cyInRange E → cyInRange E1) := by
  unfold editorMoveCursor at h
  by_cases hk : key = PAGE_DOWN ∨ key = PAGE_UP
  · rw [if_pos hk] at h
    by_cases hneg : E.screenrows < 0
    · rw [if_pos hneg] at h; cases h
    · rw [if_neg hneg] at h
      generalize (if key = PAGE_DOWN then ARROW_DOWN else ARROW_UP) = arrow at h
      cases hp : pageLoop arrow E.screenrows.toNat E with
      | error e => rw [hp] at h; cases h
      | ok E2 =>
        rw [hp] at h
        obtain ⟨f1, c1, _⟩ := pageLoop_keeps _ _ E E2 hp
        obtain ⟨f2, c2⟩ := clampCx_keeps E2 E1 h
        exact ⟨f2.trans f1, fun hc => c2 (c1 hc)⟩
  · rw [if_neg hk] at h
    obtain ⟨f1, c1, _⟩ := moveKey_keeps E E1 key h
    exact ⟨f1, c1⟩

theorem runKeys_keeps :
    ∀ (keys : List Int) (E E1 : editorConfig), runKeys keys E = .ok E1 →
      frameOf E1 = frameOf E ∧ (cyInRange E → cyInRange E1) := by
  intro keys
  induction keys with
  | nil =>
    intro E E1 h
    have := Except.ok.inj h
    subst this
    exact ⟨rfl, id⟩
  | cons k ks ih =>
    intro E E1 h
    simp only [runKeys] at h
    cases hm : editorMoveCursor E k with
    | error e => rw [hm] at h; cases h
    | ok E2 =>
      rw [hm] at h
      obtain ⟨f1, c1⟩ := editorMoveCursor_keeps E E2 k hm
      obtain ⟨f2, c2⟩ := ih E2 E1 h
      exact ⟨f2.trans f1, fun hc => c2 (c1 hc)⟩

/-- C2 as stated fails: in the empty document, from the initial cursor, one
press of ArrowDown gives `cy = 1` while `numrows = 0`. -/
theorem runKeys_cy_past_numrows :
    ∃ E1, runKeys [ARROW_DOWN] (initEditor 24 80) = .ok E1 ∧
      (initEditor 24 80).cx = 0 ∧ (initEditor 24 80).cy = 0 ∧
      E1.cy = 1 ∧ E1.numrows = 0 ∧ ¬ (E1.cy ≤ E1.numrows) :=
  ⟨{ initEditor 24 80 with cy := 1 }, by decide, rfl, rfl, rfl, rfl, by decide⟩

/-- C3 fails on the code: with the one-line file `abc`, End puts the cursor at
`cx = 3, cy = 0`; ArrowDown then moves to `cy = 1 = numrows`, where the closing
clamp still takes `&E.row[1]` for a row (its null test is `cy > numrows`) and
reads `row->size` one slot past the end of the array, instead of setting
`cx = 0`.  In the empty document ArrowDown, then ArrowLeft, reads
`E.row[0].size` through the null `E.row`. -/
theorem clamp_reads_past_last_row :
    (∃ D E1, loadLines [[97, 98, 99]] (initEditor 24 80) = .ok D ∧
      D.numrows = 1 ∧ D.row.length = 1 ∧
      editorMoveCursor D END_KEY = .ok E1 ∧ E1.cx = 3 ∧ E1.cy = 0 ∧
      moveSwitch E1 ARROW_DOWN = .ok { E1 with cy := 1 } ∧
      rowPtr { E1 with cy := 1 } = some 1 ∧
      rowSize { E1 with cy := 1 } 1 = .error .outOfBounds ∧
      editorMoveCursor E1 ARROW_DOWN = .error .outOfBounds) ∧
    editorMoveCursor (initEditor 24 80) ARROW_DOWN = .ok { initEditor 24 80 with cy := 1 } ∧
    editorMoveCursor { initEditor 24 80 with cy := 1 } ARROW_LEFT = .error .outOfBounds :=
  ⟨⟨_, _, rfl, rfl, rfl, rfl, rfl, rfl, rfl, rfl, rfl, rfl⟩, rfl, rfl⟩

theorem editorMoveCursor_arrow (E : editorConfig) (key : Int)
    (hk : key = ARROW_DOWN ∨ key = ARROW_UP) : editorMoveCursor E key = moveKey E key := by
  unfold editorMoveCursor
  have : ¬ (key = PAGE_DOWN ∨ key = PAGE_UP) := by
    rcases hk with hk | hk <;> subst hk <;> decide
  rw [if_neg this]

theorem pressTimes_arrow (key : Int) (hk : key = ARROW_DOWN ∨ key = ARROW_UP) :
    ∀ (n : Nat) (E : editorConfig), pressTimes key n E = pageLoop key n E := by
  intro n
  induction n with
  | zero => intro E; rfl
  | succ n ih =>
    intro E
    simp only [pressTimes, pageLoop, editorMoveCursor_arrow E key hk]
    cases moveKey E key with
    | error e => rfl
    | ok E1 => exact ih E1

theorem pageLoop_add (arrow : Int) :
    ∀ (m n : Nat) (E : editorConfig),
      pageLoop arrow (m + n) E =
        match pageLoop arrow m E with
        | .error e => .error e
        | .ok E1 => pageLoop arrow n E1 := by
  intro m
  induction m with
  | zero => intro n E; simp [pageLoop]
  | succ m ih =>
    intro n E
    rw [show m + 1 + n = (m + n) + 1 by omega]
    simp only [pageLoop]
    cases moveKey E arrow with
    | error e => rfl
    | ok E1 => exact ih n E1

/-- A page key is the loop of arrow calls alone: the clamp that follows the
loop finds the column already clamped. -/
theorem editorMoveCursor_page (E : editorConfig) (key arrow : Int)
    (hk : (key = PAGE_DOWN ∧ arrow = ARROW_DOWN) ∨ (key = PAGE_UP ∧ arrow = ARROW_UP))
    (hs : 0 ≤ E.screenrows) (hcl : cxClamped E ∨ 0 < E.screenrows) :
    editorMoveCursor E key = pageLoop arrow E.screenrows.toNat E := by
  have hkey : key = PAGE_DOWN ∨ key = PAGE_UP := by
    rcases hk with hk | hk
    · exact Or.inl hk.1
    · exact Or.inr hk.1
  have harrow : (if key = PAGE_DOWN then ARROW_DOWN else ARROW_UP) = arrow := by
    rcases hk with ⟨h1, h2⟩ | ⟨h1, h2⟩ <;> subst h1 <;> subst h2 <;> decide
  unfold editorMoveCursor
  rw [if_pos hkey, if_neg (by omega), harrow]
  cases hp : pageLoop arrow E.screenrows.toNat E with
  | error e => rfl
  | ok E1 =>
    obtain ⟨_, _, k⟩ := pageLoop_keeps arrow _ E E1 hp
    exact k (by
      rcases hcl with h | h
      · exact Or.inr h
      · exact Or.inl (by omega))

theorem pressTimes_page (key arrow : Int)
    (hk : (key = PAGE_DOWN ∧ arrow = ARROW_DOWN) ∨ (key = PAGE_UP ∧ arrow = ARROW_UP)) :
    ∀ (k : Nat) (E : editorConfig), 0 ≤ E.screenrows → (cxClamped E ∨ 0 < E.screenrows) →
      pressTimes key k E = pageLoop arrow (k * E.screenrows.toNat) E := by
  intro k
  induction k with
  | zero => intro E _ _; simp [pressTimes, pageLoop]
  | succ k ih =>
    intro E hs hcl
    rw [show (k + 1) * E.screenrows.toNat = E.screenrows.toNat + k * E.screenrows.toNat by ring,
      pageLoop_add]
    simp only [pressTimes, editorMoveCursor_page E key arrow hk hs hcl]
    cases hp : pageLoop arrow E.screenrows.toNat E with
    | error e => rfl
    | ok E1 =>
      obtain ⟨hf, _, hc⟩ := pageLoop_keeps arrow _ E E1 hp
      have hsr : E1.screenrows = E.screenrows := congrArg (fun t => t.2.2.1) hf
      have hcl1 : cxClamped E1 := hc (by
        rcases hcl with h | h
        · exact Or.inr h
        · exact Or.inl (by omega))
      simp only
      rw [ih E1 (by omega) (Or.inl hcl1), hsr]

/-- C8: for every document, every `k`, every `screenrows >= 0` and every
starting state whose `cx` is already clamped to its row (for `screenrows > 0`
this is not even needed), pressing PageDown `k` times gives the same outcome,
the same `cy` and the same `cx`, as pressing ArrowDown `k * screenrows` times;
likewise PageUp and ArrowUp. -/
theorem page_eq_repeated_arrow (E : editorConfig) (k : Nat) (hs : 0 ≤ E.screenrows)
    (hcl : cxClamped E ∨ 0 < E.screenrows) :
    pressTimes PAGE_DOWN k E = pressTimes ARROW_DOWN (k * E.screenrows.toNat) E ∧
    pressTimes PAGE_UP k E = pressTimes ARROW_UP (k * E.screenrows.toNat) E := by
  constructor
  · rw [pressTimes_arrow ARROW_DOWN (Or.inl rfl)]
    exact pressTimes_page PAGE_DOWN ARROW_DOWN (Or.inl ⟨rfl, rfl⟩) k E hs hcl
  · rw [pressTimes_arrow ARROW_UP (Or.inr rfl)]
    exact pressTimes_page PAGE_UP ARROW_UP (Or.inr ⟨rfl, rfl⟩) k E hs hcl

/-- Witness of C8: in a file of five lines on a screen of 2 rows, two presses
of PageDown and four of ArrowDown both end on row 4, the column cut back to 0
on the way through the empty line. -/
theorem page_eq_repeated_arrow_witness :
    (0 : Int) ≤ fiveLines.screenrows ∧ (cxClamped fiveLines ∨ 0 < fiveLines.screenrows) ∧
    (pressTimes PAGE_DOWN 2 fiveLines = pressTimes ARROW_DOWN (2 * fiveLines.screenrows.toNat) fiveLines ∧
      pressTimes PAGE_UP 2 fiveLines = pressTimes ARROW_UP (2 * fiveLines.screenrows.toNat) fiveLines) ∧
    pressTimes PAGE_DOWN 2 fiveLines = .ok { fiveLines with cx := 0, cy := 4 } :=
  ⟨by decide, Or.inl (by decide),
    page_eq_repeated_arrow fiveLines 2 (by decide) (Or.inl (by decide)), by decide⟩

/-! ## The row store, continued: claims C11, C18, C19 -/

/-- C11, amended: for the one-line document `a`, TAB, `b` (tab stop 8, margin
of width 2) `editorAppendRow`/`editorUpdateRow` produce the render text
margin, `a`, 5 blanks, `b`, with `rsize = 2 + 1 + 5 + 1 = 9`: the tab stops are
counted from the start of the margin, so the tab at render column 3 runs up to
column 8. -/
theorem render_a_tab_b (E : editorConfig) :
    editorUpdateRow (newRow [97, 9, 98]) =
      .ok { newRow [97, 9, 98] with
            render := [126, 32] ++ [97] ++ List.replicate 5 SPACE ++ [98] ++ [NUL]
            rsize := 9 } ∧
    editorAppendRow E [97, 9, 98] =
      .ok { E with
            row := E.row ++ [{ newRow [97, 9, 98] with
                               render := [126, 32] ++ [97] ++ List.replicate 5 SPACE ++ [98] ++ [NUL]
                               rsize := 9 }]
            numrows := E.numrows + 1 } ∧
    (2 : Int) + 1 + 5 + 1 = 9 := by
  have h : editorUpdateRow (newRow [97, 9, 98]) =
      .ok { newRow [97, 9, 98] with
            render := [126, 32] ++ [97] ++ List.replicate 5 SPACE ++ [98] ++ [NUL]
            rsize := 9 } := by decide
  refine ⟨h, ?_, by decide⟩
  simp only [editorAppendRow, h]

/-- C11 as stated fails: the render text of `a`, TAB, `b` has 9 bytes, not 10,
and is not margin, `a`, 6 blanks, `b`. -/
theorem render_a_tab_b_not_six_blanks :
    ∃ row, editorUpdateRow (newRow [97, 9, 98]) = .ok row ∧
      row.rsize = 9 ∧ row.rsize ≠ 10 ∧
      row.render.take row.rsize.toNat ≠ [126, 32] ++ [97] ++ List.replicate 6 SPACE ++ [98] :=
  ⟨{ newRow [97, 9, 98] with
     render := [126, 32] ++ [97] ++ List.replicate 5 SPACE ++ [98] ++ [NUL]
     rsize := 9 }, by decide, rfl, by decide, by decide⟩

theorem countTabsLoop_count (row : erow) :
    ∀ (l pre post : List Nat) (t : Int), row.chars = pre ++ l ++ post →
      countTabsLoop row l.length pre.length t = .ok (t + (l.count TAB : Int)) := by
  intro l
  induction l with
  | nil => intro pre post t _; simp [countTabsLoop]
  | cons c l ih =>
    intro pre post t hch
    have hb : byteAt row.chars (pre.length : Int) = .ok c := by
      rw [hch, List.append_assoc, List.cons_append]
      exact byteAt_middle pre (l ++ post) c
    have e : (pre.length : Int) + 1 = ((pre ++ [c]).length : Int) := by simp
    simp only [List.length_cons, countTabsLoop, hb]
    rw [e, ih (pre ++ [c]) post _ (by rw [hch]; simp)]
    by_cases hc : c = TAB
    · subst hc
      simp only [if_true, List.count_cons_self]
      push_cast; congr 1; omega
    · rw [if_neg hc, List.count_cons_of_ne (fun h => hc h.symm)]

theorem padLoop_post (cap : Int) :
    ∀ (f : Nat) (r r2 : List Nat), padCount r.length ≤ f → padLoop cap f r = .ok r2 →
      r2 = r ++ List.replicate (padCount r.length) SPACE := by
  intro f
  induction f with
  | zero =>
    intro r r2 hf h
    have hk : padCount r.length = 0 := by omega
    have h0 : r.length % 8 = 0 := by unfold padCount at hk; omega
    simp [padLoop, tmod_stop_natCast, h0] at h
    subst h
    simp [hk]
  | succ f ih =>
    intro r r2 hf h
    by_cases h0 : r.length % 8 = 0
    · have hk : padCount r.length = 0 := by unfold padCount; omega
      simp [padLoop, tmod_stop_natCast, h0] at h
      subst h
      simp [hk]
    · have hk : padCount r.length = padCount (r ++ [SPACE]).length + 1 := by
        simp only [padCount, List.length_append, List.length_singleton]; omega
      have hne : Int.tmod (r.length : Int) KILO_TAB_STOP ≠ 0 := by
        rw [tmod_stop_natCast]; omega
      rw [padLoop, if_pos hne] at h
      by_cases hlt : (r.length : Int) < cap
      · rw [putByte_ok cap r SPACE hlt] at h
        simp only at h
        rw [ih (r ++ [SPACE]) r2 (by omega) h, hk, List.replicate_succ]
        simp
      · simp [putByte, hlt] at h

/-- The character loop of `editorUpdateRow` appends exactly the tab expansion of
the content it runs over, whenever it returns. -/
theorem renderCharsLoop_expand (row : erow) (cap : Int) :
    ∀ (l pre post r r2 : List Nat), row.chars = pre ++ l ++ post →
      renderCharsLoop row cap l.length pre.length r = .ok r2 →
      r2 = r ++ expandTabs r.length l := by
  intro l
  induction l with
  | nil =>
    intro pre post r r2 _ h
    simp only [List.length_nil, renderCharsLoop, Except.ok.injEq] at h
    simp [expandTabs, h]
  | cons c l ih =>
    intro pre post r r2 hch h
    have hb : byteAt row.chars (pre.length : Int) = .ok c := by
      rw [hch, List.append_assoc, List.cons_append]
      exact byteAt_middle pre (l ++ post) c
    have e : (pre.length : Int) + 1 = ((pre ++ [c]).length : Int) := by simp
    have hch1 : row.chars = (pre ++ [c]) ++ l ++ post := by rw [hch]; simp
    simp only [List.length_cons, renderCharsLoop, hb] at h
    by_cases hc : c = TAB
    · rw [if_pos hc] at h
      by_cases hlt : (r.length : Int) < cap
      · rw [putByte_ok cap r SPACE hlt] at h
        simp only at h
        cases hp : padLoop cap KILO_TAB_STOP.toNat (r ++ [SPACE]) with
        | error e1 => rw [hp] at h; cases h
        | ok r1 =>
          rw [hp] at h
          simp only at h
          rw [tabStop_toNat] at hp
          have hr1 := padLoop_post cap 8 (r ++ [SPACE]) r1
            (by have := padCount_le (r ++ [SPACE]).length; omega) hp
          rw [e] at h
          have hfin := ih (pre ++ [c]) post r1 r2 hch1 h
          rw [hfin, hr1]
          simp only [expandTabs, if_pos hc, List.length_append, List.length_singleton,
            List.length_replicate, List.replicate_add, List.append_assoc]
          rfl
      · simp [putByte, hlt] at h
    · rw [if_neg hc] at h
      by_cases hlt : (r.length : Int) < cap
      · rw [putByte_ok cap r c hlt] at h
        simp only at h
        rw [e] at h
        have hfin := ih (pre ++ [c]) post (r ++ [c]) r2 hch1 h
        rw [hfin]
        simp [expandTabs, hc]
      · simp [putByte, hlt] at h

/-- The loop of `cxToRx` over the content `l`, started at column `col`, ends at
`col` plus the length of the tab expansion of `l`. -/
theorem cxToRxLoop_expand (row : erow) :
    ∀ (l pre post : List Nat) (col : Nat), row.chars = pre ++ l ++ post →
      cxToRxLoop row l.length pre.length (col : Int) =
        .ok (((col + (expandTabs col l).length : Nat) : Int)) := by
  intro l
  induction l with
  | nil => intro pre post col _; simp [cxToRxLoop, expandTabs]
  | cons c l ih =>
    intro pre post col hch
    have hb : byteAt row.chars (pre.length : Int) = .ok c := by
      rw [hch, List.append_assoc, List.cons_append]
      exact byteAt_middle pre (l ++ post) c
    have e : (pre.length : Int) + 1 = ((pre ++ [c]).length : Int) := by simp
    have hch1 : row.chars = (pre ++ [c]) ++ l ++ post := by rw [hch]; simp
    simp only [List.length_cons, cxToRxLoop, hb]
    by_cases hc : c = TAB
    · have ecol : (col : Int) + (KILO_TAB_STOP - 1 - Int.tmod (col : Int) KILO_TAB_STOP) + 1
          = ((col + (1 + padCount (col + 1)) : Nat) : Int) := by
        rw [tmod_stop_natCast]
        simp only [padCount, KILO_TAB_STOP]
        push_cast
        omega
      simp only [if_pos hc]
      rw [ecol, e, ih (pre ++ [c]) post _ hch1]
      simp only [expandTabs, if_pos hc, List.length_append, List.length_replicate]
      congr 1
      push_cast
      omega
    · simp only [if_neg hc]
      have ecol : (col : Int) + 1 = ((col + 1 : Nat) : Int) := by push_cast; rfl
      rw [ecol, e, ih (pre ++ [c]) post _ hch1]
      simp only [expandTabs, if_neg hc, List.length_cons]
      congr 1
      push_cast
      omega

theorem expandTabs_append :
    ∀ (l1 l2 : List Nat) (col : Nat),
      expandTabs col (l1 ++ l2) =
        expandTabs col l1 ++ expandTabs (col + (expandTabs col l1).length) l2 := by
  intro l1
  induction l1 with
  | nil => intro l2 col; simp [expandTabs]
  | cons c l1 ih =>
    intro l2 col
    by_cases hc : c = TAB
    · simp only [List.cons_append, expandTabs, if_pos hc, List.append_eq, ih, List.append_assoc,
        List.length_append, List.length_replicate]
      congr 3
      omega
    · simp only [List.cons_append, expandTabs, if_neg hc, List.append_eq, ih, List.length_cons]
      congr 3
      omega

theorem editorUpdateRow_inv (row row1 : erow) (h : editorUpdateRow row = .ok row1) :
    ∃ (T : Int) (r1 r2 : List Nat),
      countTabsLoop row row.size.toNat 0 0 = .ok T ∧
      renderMarginLoop row (row.size + T * (KILO_TAB_STOP - 1) + 1 + row.marginlsize)
        row.marginlsize.toNat 0 [] = .ok r1 ∧
      renderCharsLoop row (row.size + T * (KILO_TAB_STOP - 1) + 1 + row.marginlsize)
        row.size.toNat 0 r1 = .ok r2 ∧
      row1 = { row with render := r2 ++ [NUL], rsize := (r2.length : Int) } := by
  unfold editorUpdateRow at h
  cases hT : countTabsLoop row row.size.toNat 0 0 with
  | error e => rw [hT] at h; cases h
  | ok T =>
    rw [hT] at h
    simp only at h
    cases h1 : renderMarginLoop row (row.size + T * (KILO_TAB_STOP - 1) + 1 + row.marginlsize)
        row.marginlsize.toNat 0 [] with
    | error e => rw [h1] at h; cases h
    | ok r1 =>
      rw [h1] at h
      simp only at h
      cases h2 : renderCharsLoop row (row.size + T * (KILO_TAB_STOP - 1) + 1 + row.marginlsize)
          row.size.toNat 0 r1 with
      | error e => rw [h2] at h; cases h
      | ok r2 =>
        rw [h2] at h
        simp only at h
        by_cases hlt : (r2.length : Int) < row.size + T * (KILO_TAB_STOP - 1) + 1 + row.marginlsize
        · rw [putByte_ok _ r2 NUL hlt] at h
          exact ⟨T, r1, r2, rfl, h1, h2, (Except.ok.inj h).symm⟩
        · simp [putByte, hlt] at h

/-- The row `editorUpdateRow` builds from the content `s`, in closed form: the
margin, the tab expansion of `s` from column 2, the terminator. -/
theorem editorUpdateRow_expand (s : List Nat) :
    editorUpdateRow (newRow s) =
      .ok { newRow s with
            render := [126, 32] ++ expandTabs 2 s ++ [NUL]
            rsize := ((2 + (expandTabs 2 s).length : Nat) : Int) } := by
  obtain ⟨tail, T0, _, hupd, _⟩ := editorUpdateRow_newRow s
  obtain ⟨T, r1, r2, hT, h1, h2, hrow⟩ := editorUpdateRow_inv _ _ hupd
  have hT0 := countTabsLoop_mono _ _ _ _ _ hT
  have hsz : (newRow s).size = (s.length : Int) := by simp [newRow]
  have hm : (newRow s).marginlsize = 2 := by simp [newRow]
  have hmt : (2 : Int).toNat = 2 := by decide
  rw [hsz, hm, hmt] at h1
  rw [renderMarginLoop_newRow s _ (by unfold KILO_TAB_STOP; omega)] at h1
  have hr1 : r1 = [126, 32] := (Except.ok.inj h1).symm
  subst hr1
  rw [hsz, Int.toNat_ofNat] at h2
  have hexp := renderCharsLoop_expand (newRow s) _ s [] [NUL] [126, 32] r2 (by simp [newRow])
    (by simpa using h2)
  rw [hupd, hrow, hexp]
  simp only [List.length_cons, List.length_nil, List.length_append]

/-- C19: the buffer `editorUpdateRow` allocates is always large enough.  For
content `s` with `t` tab bytes the function returns without a write outside
the buffer, `rsize <= size + t * (KILO_TAB_STOP - 1) + marginlsize`, and the
written bytes, the terminator at index `rsize` included, number at most the
allocated `size + t * 7 + 1 + marginlsize`. -/
theorem render_fits_allocation (s : List Nat) :
    ∃ row : erow,
      editorUpdateRow (newRow s) = .ok row ∧
      countTabsLoop (newRow s) (newRow s).size.toNat 0 0 = .ok ((s.count TAB : Nat) : Int) ∧
      row.rsize ≤ row.size + (s.count TAB : Int) * (KILO_TAB_STOP - 1) + row.marginlsize ∧
      row.rsize < row.size + (s.count TAB : Int) * 7 + 1 + row.marginlsize ∧
      (row.render.length : Int) = row.rsize + 1 ∧
      editorUpdateRow (newRow s) ≠ .error .outOfBounds := by
  obtain ⟨tail, T, hT, hupd, _, _, hlen, _, _⟩ := editorUpdateRow_newRow s
  have hc := countTabsLoop_count (newRow s) s [] [NUL] 0 (by simp [newRow])
  simp only [List.length_nil, Nat.cast_zero, zero_add] at hc
  rw [hT] at hc
  have hTc : T = (s.count TAB : Int) := Except.ok.inj hc
  have hsz : (newRow s).size.toNat = s.length := by simp [newRow]
  refine ⟨_, hupd, ?_, ?_, ?_, ?_, ?_⟩
  · rw [hsz, hT, hTc]
  · simp only [newRow, List.length_append, List.length_cons, List.length_nil, KILO_TAB_STOP]
    push_cast; omega
  · simp only [newRow, List.length_append, List.length_cons, List.length_nil]
    push_cast; omega
  · simp only [List.length_append, List.length_cons, List.length_nil]
    push_cast; omega
  · rw [hupd]; exact fun h => Except.noConfusion h

theorem byteAt_split (s post : List Nat) (j : Int) (c : Nat) (h0 : 0 ≤ j)
    (hj : j < (s.length : Int)) (hb : byteAt (s ++ post) j = .ok c) :
    s = s.take j.toNat ++ c :: s.drop (j.toNat + 1) ∧ (s.take j.toNat).length = j.toNat := by
  have hn : j.toNat < s.length := by omega
  unfold byteAt at hb
  rw [if_neg (by omega), List.getElem?_append_left hn, List.getElem?_eq_getElem hn] at hb
  have hc : s[j.toNat] = c := Except.ok.inj hb
  constructor
  · rw [← hc, ← List.drop_eq_getElem_cons hn, List.take_append_drop]
  · exact List.length_take_of_le (by omega)

/-- The column `cxToRx` computes for a row fresh from `editorAppendRow`, in
closed form. -/
theorem cxToRx_expand (s : List Nat) (row : erow) (n : Nat) (hrow : row.chars = s ++ [NUL])
    (hm : row.marginlsize = 2) (hn : n ≤ s.length) :
    cxToRx row (n : Int) = .ok (((2 + (expandTabs 2 (s.take n)).length : Nat) : Int)) := by
  have hch : row.chars = [] ++ s.take n ++ (s.drop n ++ [NUL]) := by
    rw [hrow, List.nil_append, ← List.append_assoc, List.take_append_drop]
  have h := cxToRxLoop_expand row (s.take n) [] (s.drop n ++ [NUL]) 2 hch
  rw [List.length_take_of_le hn] at h
  unfold cxToRx
  rw [hm, Int.toNat_ofNat]
  exact h

/-- C18: `cxToRx` uses the tab-stop arithmetic of `editorUpdateRow`.  For every
content `s` and every `cx` with `0 <= cx <= size`, `cxToRx(row, cx)` is the
`rsize` of the row built from the first `cx` bytes of `s`, whose render text is
a prefix of the render text of `row`; hence for every byte `c` other than a tab
at an index `j` of the content, `render[cxToRx(row, j)]` is `c`. -/
theorem cxToRx_matches_render (s : List Nat) (cx : Int) (h0 : 0 ≤ cx)
    (h1 : cx ≤ (s.length : Int)) :
    ∃ (row pre : erow) (rest : List Nat),
      editorUpdateRow (newRow s) = .ok row ∧
      editorUpdateRow (newRow (s.take cx.toNat)) = .ok pre ∧
      cxToRx row cx = .ok pre.rsize ∧
      row.render.take row.rsize.toNat = pre.render.take pre.rsize.toNat ++ rest ∧
      ∀ (j : Int) (c : Nat), 0 ≤ j → j < row.size → byteAt row.chars j = .ok c → c ≠ TAB →
        ∃ rx, cxToRx row j = .ok rx ∧ byteAt row.render rx = .ok c := by
  have hn : cx.toNat ≤ s.length := by omega
  have hcx : ((cx.toNat : Nat) : Int) = cx := Int.toNat_of_nonneg h0
  refine ⟨_, _, expandTabs (2 + (expandTabs 2 (s.take cx.toNat)).length) (s.drop cx.toNat),
    editorUpdateRow_expand s, editorUpdateRow_expand (s.take cx.toNat), ?_, ?_, ?_⟩
  · have h := cxToRx_expand s
      { newRow s with
        render := [126, 32] ++ expandTabs 2 s ++ [NUL]
        rsize := ((2 + (expandTabs 2 s).length : Nat) : Int) } cx.toNat rfl rfl hn
    rw [hcx] at h
    exact h
  · have e1 : ∀ t : List Nat,
        ([126, 32] ++ expandTabs 2 t ++ [NUL]).take (2 + (expandTabs 2 t).length)
          = [126, 32] ++ expandTabs 2 t := by
      intro t
      exact List.take_left' (by simp; omega)
    simp only [Int.toNat_ofNat]
    rw [e1 s, e1 (s.take cx.toNat)]
    conv_lhs => rw [← List.take_append_drop cx.toNat s, expandTabs_append]
    simp
  · intro j c hj0 hj hb hc
    have hjs : j < (s.length : Int) := by simpa [newRow] using hj
    have hb1 : byteAt (s ++ [NUL]) j = .ok c := hb
    obtain ⟨hsplit, hlen⟩ := byteAt_split s [NUL] j c hj0 hjs hb1
    have hjn : j.toNat ≤ s.length := by omega
    have h := cxToRx_expand s
      { newRow s with
        render := [126, 32] ++ expandTabs 2 s ++ [NUL]
        rsize := ((2 + (expandTabs 2 s).length : Nat) : Int) } j.toNat rfl rfl hjn
    rw [Int.toNat_of_nonneg hj0] at h
    refine ⟨_, h, ?_⟩
    have hexp : expandTabs 2 s = expandTabs 2 (s.take j.toNat) ++
        c :: expandTabs (2 + (expandTabs 2 (s.take j.toNat)).length + 1) (s.drop (j.toNat + 1)) := by
      conv_lhs => rw [hsplit, expandTabs_append]
      simp only [expandTabs, if_neg hc]
    have hrender : ([126, 32] ++ expandTabs 2 s ++ [NUL] : List Nat) =
        ([126, 32] ++ expandTabs 2 (s.take j.toNat)) ++
          c :: (expandTabs (2 + (expandTabs 2 (s.take j.toNat)).length + 1) (s.drop (j.toNat + 1))
            ++ [NUL]) := by
      rw [hexp]; simp
    have hidx : ((2 + (expandTabs 2 (s.take j.toNat)).length : Nat) : Int) =
        ((([126, 32] ++ expandTabs 2 (s.take j.toNat) : List Nat).length : Nat) : Int) := by
      simp only [List.length_append, List.length_cons, List.length_nil]
    show byteAt ([126, 32] ++ expandTabs 2 s ++ [NUL]) _ = .ok c
    rw [hrender, hidx]
    exact byteAt_middle _ _ c

/-- Witness of C18: for the content `a`, TAB, `b`, `cxToRx(row, 1) = 3`, the
`rsize` of the row built from `a` alone. -/
theorem cxToRx_matches_render_witness :
    (0 : Int) ≤ 1 ∧ (1 : Int) ≤ (([97, 9, 98] : List Nat).length : Int) ∧
    ∃ (row pre : erow) (rest : List Nat),
      editorUpdateRow (newRow [97, 9, 98]) = .ok row ∧
      editorUpdateRow (newRow (([97, 9, 98] : List Nat).take (1 : Int).toNat)) = .ok pre ∧
      cxToRx row 1 = .ok pre.rsize ∧ pre.rsize = 3 ∧ cxToRx row 1 = .ok 3 ∧
      row.render.take row.rsize.toNat = pre.render.take pre.rsize.toNat ++ rest := by
  refine ⟨by decide, by decide, ?_⟩
  obtain ⟨row, pre, rest, a1, a2, a3, a4, _⟩ :=
    cxToRx_matches_render [97, 9, 98] 1 (by decide) (by decide)
  have hp : editorUpdateRow (newRow (([97, 9, 98] : List Nat).take (1 : Int).toNat)) =
      .ok { newRow [97] with render := [126, 32, 97, 0], rsize := 3 } := by decide
  rw [hp] at a2
  have hpre : pre.rsize = 3 := by rw [← Except.ok.inj a2]
  exact ⟨row, pre, rest, a1, hp.trans a2, a3, hpre, by rw [a3, hpre], a4⟩

/-! ## Cursor movement, continued: claims C12, C15, C20 -/

theorem rowAt_ok (E : editorConfig) (i : Int) (h0 : 0 ≤ i) (h : i < (E.row.length : Int)) :
    ∃ r, rowAt E i = .ok r := by
  have hn : i.toNat < E.row.length := by omega
  refine ⟨E.row[i.toNat], ?_⟩
  unfold rowAt
  rw [if_neg (by omega), List.getElem?_eq_getElem hn]

theorem rowAt_nonempty (E : editorConfig) (i : Int) (r : erow) (h : rowAt E i = .ok r) :
    E.row ≠ [] ∧ 0 ≤ i ∧ i < (E.row.length : Int) := by
  unfold rowAt at h
  by_cases hi : i < 0
  · rw [if_pos hi] at h; cases h
  · rw [if_neg hi] at h
    cases hg : E.row[i.toNat]? with
    | none => rw [hg] at h; cases h
    | some x =>
      have hlt := (List.getElem?_eq_some.mp hg).1
      refine ⟨?_, by omega, by omega⟩
      intro hnil
      rw [hnil] at hlt
      simp at hlt

/-- The closing clamp on a row of the file: `cx` is cut back to the size of
the row. -/
theorem clampCx_on_row (E : editorConfig) (r : erow) (hrow : rowAt E E.cy = .ok r)
    (hcy : E.cy ≤ E.numrows) :
    clampCx E = .ok (if E.cx > r.size then { E with cx := r.size } else E) := by
  obtain ⟨hne, _, _⟩ := rowAt_nonempty E E.cy r hrow
  have hp : rowPtr E = some E.cy := by
    unfold rowPtr
    rw [if_neg (by omega), if_neg (fun h => hne h.1)]
  unfold clampCx
  rw [hp]
  simp only [rowSize, hrow]

theorem editorMoveCursor_left (E : editorConfig) :
    editorMoveCursor E ARROW_LEFT =
      match (if E.cx > 0 then .ok { E with cx := E.cx - 1 }
        else if E.cx = 0 ∧ E.cy > 0 then
          match rowSize E (E.cy - 1) with
          | .error e => .error e
          | .ok sz => .ok { E with cy := E.cy - 1, cx := sz }
        else .ok E : Except Fault editorConfig) with
      | .error e => .error e
      | .ok E1 => clampCx E1 := by
  unfold editorMoveCursor moveKey moveSwitch
  have k0 : ¬ (ARROW_LEFT = PAGE_DOWN ∨ ARROW_LEFT = PAGE_UP) := by decide
  have k1 : ¬ (ARROW_LEFT = ARROW_UP) := by decide
  simp only [if_neg k0, if_neg k1, if_true]

/-- C12: `editorMoveCursor(ARROW_LEFT)`.  For every document and every cursor
with `cx = 0` and `0 < cy <= numrows` it yields `cy - 1` and the size of row
`cy - 1` as `cx`, the end of the previous row.  When `cx > 0` it yields `cx - 1`,
then clamped by the closing clamp, with `cy` unchanged; on a row of the file
that is the smaller of `cx - 1` and the size of the row. -/
theorem arrow_left_moves (E : editorConfig) (hdoc : E.numrows = (E.row.length : Int)) :
    (E.cx = 0 → 0 < E.cy → E.cy ≤ E.numrows →
      ∃ r, rowAt E (E.cy - 1) = .ok r ∧
        editorMoveCursor E ARROW_LEFT = .ok { E with cy := E.cy - 1, cx := r.size }) ∧
    (0 < E.cx →
      editorMoveCursor E ARROW_LEFT = clampCx { E with cx := E.cx - 1 } ∧
      ∀ E1, editorMoveCursor E ARROW_LEFT = .ok E1 → E1.cy = E.cy ∧ E1.cx ≤ E.cx - 1) ∧
    (0 < E.cx → 0 ≤ E.cy → E.cy < E.numrows →
      ∃ r, rowAt E E.cy = .ok r ∧
        editorMoveCursor E ARROW_LEFT = .ok { E with cx := min (E.cx - 1) r.size }) := by
  refine ⟨?_, ?_, ?_⟩
  · intro hcx hcy hle
    obtain ⟨r, hr⟩ := rowAt_ok E (E.cy - 1) (by omega) (by omega)
    refine ⟨r, hr, ?_⟩
    have hr1 : rowAt { E with cy := E.cy - 1, cx := r.size } (E.cy - 1) = .ok r := hr
    have hcl := clampCx_on_row { E with cy := E.cy - 1, cx := r.size } r hr1
      (by show E.cy - 1 ≤ E.numrows; omega)
    rw [editorMoveCursor_left, if_neg (by omega), if_pos ⟨hcx, hcy⟩]
    simp only [rowSize, hr]
    rw [hcl, if_neg (by show ¬ (r.size > r.size); omega)]
  · intro hcx
    have heq : editorMoveCursor E ARROW_LEFT = clampCx { E with cx := E.cx - 1 } := by
      rw [editorMoveCursor_left, if_pos hcx]
    refine ⟨heq, ?_⟩
    intro E1 h1
    rw [heq] at h1
    obtain ⟨e, hle⟩ := clampCx_fields _ E1 h1
    constructor
    · rw [e]
    · exact hle
  · intro hcx hcy hlt
    obtain ⟨r, hr⟩ := rowAt_ok E E.cy hcy (by omega)
    refine ⟨r, hr, ?_⟩
    have hr1 : rowAt { E with cx := E.cx - 1 } E.cy = .ok r := hr
    have hcl := clampCx_on_row { E with cx := E.cx - 1 } r hr1 (by show E.cy ≤ E.numrows; omega)
    rw [editorMoveCursor_left, if_pos hcx]
    simp only
    rw [hcl]
    by_cases hgt : E.cx - 1 > r.size
    · rw [if_pos (by exact hgt), min_eq_right (by omega)]
    · rw [if_neg (by exact hgt), min_eq_left (by omega)]

/-- Witness of C12: in a file of five lines, ArrowLeft at `cx = 0, cy = 3` moves
to `cy = 2, cx = 4`, the end of the line `abcd`; at `cx = 3, cy = 0` it moves
to `cx = 2`. -/
theorem arrow_left_moves_witness :
    (fiveLinesRow3.numrows = (fiveLinesRow3.row.length : Int) ∧ fiveLinesRow3.cx = 0 ∧
      0 < fiveLinesRow3.cy ∧ fiveLinesRow3.cy ≤ fiveLinesRow3.numrows ∧
      (∃ r, rowAt fiveLinesRow3 (fiveLinesRow3.cy - 1) = .ok r ∧
        editorMoveCursor fiveLinesRow3 ARROW_LEFT =
          .ok { fiveLinesRow3 with cy := fiveLinesRow3.cy - 1, cx := r.size }) ∧
      editorMoveCursor fiveLinesRow3 ARROW_LEFT = .ok { fiveLinesRow3 with cy := 2, cx := 4 }) ∧
    (fiveLines.numrows = (fiveLines.row.length : Int) ∧ 0 < fiveLines.cx ∧ 0 ≤ fiveLines.cy ∧
      fiveLines.cy < fiveLines.numrows ∧
      (∃ r, rowAt fiveLines fiveLines.cy = .ok r ∧
        editorMoveCursor fiveLines ARROW_LEFT = .ok { fiveLines with cx := min (fiveLines.cx - 1) r.size }) ∧
      editorMoveCursor fiveLines ARROW_LEFT = .ok { fiveLines with cx := 2 }) :=
  ⟨⟨by decide, by decide, by decide, by decide,
      (arrow_left_moves fiveLinesRow3 (by decide)).1 (by decide) (by decide) (by decide),
      by decide⟩,
    ⟨by decide, by decide, by decide, by decide,
      (arrow_left_moves fiveLines (by decide)).2.2 (by decide) (by decide) (by decide),
      by decide⟩⟩

/-- C15 fails on the code: with the one-line file `abc` and the cursor on the
one-past-end row (`cx = 0, cy = 1 = numrows`), ArrowRight does not find
`row` null, since the test is `cy > numrows`; it reads `row->size` one slot
past the end of `E.row` and moves the cursor according to that stray value.
The same read ends the wrap from the end of the last line (`cx = 3, cy = 0`):
the switch wraps to `cy = 1, cx = 0`, the closing clamp then reads
`E.row[1].size`. -/
theorem arrow_right_reads_past_last_row :
    ∃ D, loadLines [[97, 98, 99]] (initEditor 24 80) = .ok D ∧
      D.numrows = 1 ∧ D.row.length = 1 ∧ D.cx = 0 ∧ D.cy = 0 ∧
      rowPtr { D with cy := 1 } = some 1 ∧
      rowSize { D with cy := 1 } 1 = .error .outOfBounds ∧
      editorMoveCursor { D with cy := 1 } ARROW_RIGHT = .error .outOfBounds ∧
      moveSwitch { D with cx := 3 } ARROW_RIGHT = .ok { D with cy := 1, cx := 0 } ∧
      editorMoveCursor { D with cx := 3 } ARROW_RIGHT = .error .outOfBounds ∧
      editorMoveCursor D ARROW_RIGHT = .ok { D with cx := 1 } :=
  ⟨_, rfl, rfl, rfl, rfl, rfl, rfl, rfl, rfl, rfl, rfl, rfl⟩

/-! ## Scrolling, continued: claim C17 -/

theorem scrollOffsets_cases (E1 : editorConfig) (hr : 0 < E1.screenrows)
    (hc : 0 < E1.screencols) :
    (scrollOffsets E1).rowoff =
      (if E1.cy < E1.rowoff then E1.cy
       else if E1.rowoff + E1.screenrows ≤ E1.cy then E1.cy - E1.screenrows + 1
       else E1.rowoff) ∧
    (scrollOffsets E1).coloff =
      (if E1.rx < E1.coloff then E1.rx
       else if E1.coloff + E1.screencols ≤ E1.rx then E1.rx - E1.screencols + 1
       else E1.coloff) := by
  unfold scrollOffsets
  simp only
  split_ifs <;> refine ⟨?_, ?_⟩ <;> dsimp only at * <;> omega

/-- C17: `editorScroll` moves the viewport minimally.  For every state with
`screenrows > 0` and `screencols > 0` the new `rowoff` shows the cursor row and
is at least as close to the old `rowoff` as any offset `o` with
`o <= cy < o + screenrows`: it is the old one when the cursor row was visible,
`cy` when the cursor was above, `cy - screenrows + 1` when it was below.  The
same holds for the new `coloff`, the recomputed `rx` and `screencols`. -/
theorem editorScroll_minimal (E : editorConfig) (hr : 0 < E.screenrows)
    (hc : 0 < E.screencols) :
    (∀ E1, editorScroll E = .ok E1 →
      (E1.rowoff ≤ E.cy ∧ E.cy < E1.rowoff + E.screenrows) ∧
      (∀ o : Int, o ≤ E.cy → E.cy < o + E.screenrows →
        (E1.rowoff - E.rowoff).natAbs ≤ (o - E.rowoff).natAbs) ∧
      (E.rowoff ≤ E.cy → E.cy < E.rowoff + E.screenrows → E1.rowoff = E.rowoff) ∧
      (E.cy < E.rowoff → E1.rowoff = E.cy) ∧
      (E.rowoff + E.screenrows ≤ E.cy → E1.rowoff = E.cy - E.screenrows + 1) ∧
      (E1.coloff ≤ E1.rx ∧ E1.rx < E1.coloff + E.screencols) ∧
      (∀ o : Int, o ≤ E1.rx → E1.rx < o + E.screencols →
        (E1.coloff - E.coloff).natAbs ≤ (o - E.coloff).natAbs) ∧
      (E.coloff ≤ E1.rx → E1.rx < E.coloff + E.screencols → E1.coloff = E.coloff) ∧
      (E1.rx < E.coloff → E1.coloff = E1.rx) ∧
      (E.coloff + E.screencols ≤ E1.rx → E1.coloff = E1.rx - E.screencols + 1)) ∧
    ((E.numrows ≤ E.cy ∨ ∃ r, rowAt E E.cy = .ok r ∧ E.cx ≤ (r.chars.length : Int)) →
      ∃ E1, editorScroll E = .ok E1) := by
  constructor
  · intro E1 h
    unfold editorScroll at h
    cases h1 : scrollRx E with
    | error e => rw [h1] at h; cases h
    | ok E2 =>
      rw [h1] at h
      have hE1 : E1 = scrollOffsets E2 := (Except.ok.inj h).symm
      obtain ⟨v, hv⟩ := scrollRx_fields E E2 h1
      have hr2 : 0 < E2.screenrows := by rw [hv]; exact hr
      have hc2 : 0 < E2.screencols := by rw [hv]; exact hc
      obtain ⟨a1, a2⟩ := scrollOffsets_cases E2 hr2 hc2
      obtain ⟨_, _, _, _, _, _, a7, _⟩ := scrollOffsets_visible E2 hr2 hc2
      have e1 : E2.cy = E.cy := by rw [hv]
      have e2 : E2.rowoff = E.rowoff := by rw [hv]
      have e3 : E2.screenrows = E.screenrows := by rw [hv]
      have e4 : E2.screencols = E.screencols := by rw [hv]
      have e5 : E2.coloff = E.coloff := by rw [hv]
      rw [e1, e2, e3] at a1
      rw [e4, e5] at a2
      rw [← hE1] at a1 a2 a7
      rw [← a7] at a2
      refine ⟨?_, ?_, ?_, ?_, ?_, ?_, ?_, ?_, ?_, ?_⟩
      all_goals (split_ifs at a1 a2 <;> omega)
  · intro hin
    have h4 := (editorScroll_defined E hin)
    exact h4

/-! ## Drawing: claims C13, C14, C16 -/

theorem welcomeText_bytes :
    welcomeText = "~ Kilo Editor -- Version 0.0.1".toList.map Char.toNat := by decide

theorem abAppend_post (ab s : List Nat) (off len : Int) (ab1 : abuf)
    (h : abAppend ab s off len = .ok ab1) :
    ab1 = ab ++ (s.drop off.toNat).take len.toNat ∧ 0 ≤ len ∧
      (0 < len → 0 ≤ off ∧ off + len ≤ (s.length : Int)) := by
  unfold abAppend at h
  split_ifs at h with h1 h2
  · refine ⟨(Except.ok.inj h).symm, by omega, ?_⟩
    intro hpos
    by_contra hcon
    exact h2 ⟨hpos, by omega⟩

theorem abAppend_ok (ab s : List Nat) (off len : Int) (h0 : 0 ≤ len)
    (h1 : 0 < len → 0 ≤ off ∧ off + len ≤ (s.length : Int)) :
    abAppend ab s off len = .ok (ab ++ (s.drop off.toNat).take len.toNat) := by
  unfold abAppend
  rw [if_neg (by omega), if_neg]
  rintro ⟨hpos, hbad⟩
  have := h1 hpos
  omega

/-- Appending to a buffer is appending to the empty buffer, behind what the
buffer held. -/
theorem abAppend_behind (ab s : List Nat) (off len : Int) :
    abAppend ab s off len = (abAppend [] s off len).map (fun c => ab ++ c) := by
  unfold abAppend
  split_ifs <;> simp [Except.map]

theorem padBlanks_eq : ∀ (n : Nat) (ab : abuf),
    padBlanks n ab = .ok (ab ++ List.replicate n SPACE) := by
  intro n
  induction n with
  | zero => intro ab; simp [padBlanks]
  | succ n ih =>
    intro ab
    have h : abAppend ab [SPACE, NUL] 0 1 = .ok (ab ++ [SPACE]) := by
      rw [abAppend_ok ab [SPACE, NUL] 0 1 (by omega) (by intro _; simp)]
      rfl
    simp only [padBlanks, h, ih, List.replicate_succ]
    simp

theorem drawLine_behind_aux (buf ab : List Nat) (p len : Int) :
    (if p < 0 then (.error .negativeCount : Except Fault abuf)
      else abAppend (ab ++ List.replicate p.toNat SPACE) buf 0 len) =
    (if p < 0 then (.error .negativeCount : Except Fault abuf)
      else abAppend ([] ++ List.replicate p.toNat SPACE) buf 0 len).map (fun c => ab ++ c) := by
  by_cases hp : p < 0
  · rw [if_pos hp, if_pos hp]; rfl
  · rw [if_neg hp, if_neg hp, abAppend_behind (ab ++ _), abAppend_behind ([] ++ _)]
    cases abAppend [] buf 0 len with
    | error e => rfl
    | ok c => simp [Except.map]

theorem drawLine_behind (E : editorConfig) (text ab : List Nat) :
    drawLine E text ab = (drawLine E text []).map (fun c => ab ++ c) := by
  unfold drawLine
  simp only [padBlanks_eq]
  exact drawLine_behind_aux _ _ _ _

/-- The line `drawTitle` and `drawDebug` append for a text that fits the array
of 80 bytes: the padding, then the text cut to `screencols` bytes. -/
theorem drawLine_eq (E : editorConfig) (text ab : List Nat) (hsc : 0 ≤ E.screencols)
    (hn : text.length ≤ 79) :
    drawLine E text ab =
      .ok (ab ++ List.replicate (linePadding E.screencols text.length) SPACE ++
        text.take E.screencols.toNat) := by
  have hbuf : (snprintf 80 text).1 = text ++ [NUL] := by
    simp only [snprintf]
    rw [List.take_of_length_le (by omega)]
  have hret : (snprintf 80 text).2 = (text.length : Int) := rfl
  have key : ∀ len : Int, 0 ≤ len → len ≤ (text.length : Int) → len ≤ E.screencols →
      (text ++ [NUL]).take len.toNat = text.take E.screencols.toNat →
      (if (if Int.tdiv (E.screencols - len) 2 ≠ 0 then Int.tdiv (E.screencols - len) 2 - 1
            else Int.tdiv (E.screencols - len) 2) < 0
        then (.error .negativeCount : Except Fault abuf)
        else abAppend (ab ++ List.replicate
            (if Int.tdiv (E.screencols - len) 2 ≠ 0 then Int.tdiv (E.screencols - len) 2 - 1
              else Int.tdiv (E.screencols - len) 2).toNat SPACE) (text ++ [NUL]) 0 len) =
      .ok (ab ++ List.replicate
            (if Int.tdiv (E.screencols - len) 2 ≠ 0 then Int.tdiv (E.screencols - len) 2 - 1
              else Int.tdiv (E.screencols - len) 2).toNat SPACE ++ text.take E.screencols.toNat) := by
    intro len h0 h1 h2 htake
    have hd := Int.tdiv_nonneg (show 0 ≤ E.screencols - len by omega) (show (0 : Int) ≤ 2 by decide)
    generalize Int.tdiv (E.screencols - len) 2 = pd at hd ⊢
    have hp : ¬ ((if pd ≠ 0 then pd - 1 else pd) < 0) := by split_ifs <;> omega
    have hok := fun a : List Nat => abAppend_ok a (text ++ [NUL]) 0 len h0
      (by
        intro _
        refine ⟨le_refl _, ?_⟩
        simp only [List.length_append, List.length_singleton]
        push_cast
        omega)
    rw [if_neg hp, hok]
    simp only [Int.toNat_zero, List.drop_zero, htake]
  unfold drawLine linePadding
  simp only [padBlanks_eq, hbuf, hret]
  by_cases hgt : (text.length : Int) > E.screencols
  · simp only [if_pos hgt]
    exact key E.screencols hsc (by omega) (le_refl _)
      (List.take_append_of_le_length (by omega))
  · simp only [if_neg hgt]
    exact key (text.length : Int) (by omega) (le_refl _) (by omega)
      (by rw [Int.toNat_ofNat, List.take_left, List.take_of_length_le (by omega)])

theorem drawRowContent_behind (E : editorConfig) (y : Int) (ab : List Nat) :
    drawRowContent E y ab = (drawRowContent E y []).map (fun c => ab ++ c) := by
  unfold drawRowContent drawTitle drawDebug
  simp only
  by_cases h1 : y + E.rowoff ≥ E.numrows
  · rw [if_pos h1, if_pos h1]
    by_cases h2 : E.numrows = 0
    · rw [if_pos h2, if_pos h2]
      by_cases h3 : y = Int.tdiv E.screenrows 3
      · have h4 : ¬ (y = Int.tdiv E.screenrows 3 + 1) := by omega
        simp only [if_pos h3, if_neg h4]
        rw [drawLine_behind E welcomeText ab]
        cases drawLine E welcomeText [] with
        | error e => rfl
        | ok c => rfl
      · simp only [if_neg h3]
        by_cases h4 : y = Int.tdiv E.screenrows 3 + 1
        · simp only [if_pos h4]
          rw [drawLine_behind E (debugText E) ab]
        · simp only [if_neg h4]
          simp [Except.map]
    · rw [if_neg h2, if_neg h2]
      simp [Except.map]
  · rw [if_neg h1, if_neg h1]
    cases rowAt E (y + E.rowoff) with
    | error e => rfl
    | ok r =>
      simp only
      rw [abAppend_behind]

/-- The content of a screen row that shows a row of the file: one call of
`abAppend` on the render buffer of that row. -/
theorem drawRowContent_on_row (E : editorConfig) (y : Int) (ab : abuf)
    (hdoc : E.numrows = (E.row.length : Int))
    (hlo : 0 ≤ E.rowoff + y) (hhi : E.rowoff + y < E.numrows) :
    ∃ r, rowAt E (y + E.rowoff) = .ok r ∧
      drawRowContent E y ab =
        abAppend ab r.render E.coloff
          (if (if r.rsize - E.coloff < 0 then 0 else r.rsize - E.coloff) > E.screencols
            then E.screencols else (if r.rsize - E.coloff < 0 then 0 else r.rsize - E.coloff)) := by
  obtain ⟨r, hr⟩ := rowAt_ok E (y + E.rowoff) (by omega) (by omega)
  refine ⟨r, hr, ?_⟩
  unfold drawRowContent
  simp only
  rw [if_neg (by omega), hr]

/-- C16: for every state with `0 <= coloff` and every screen row `y` whose
document row `rowoff + y` is within range, the content bytes `editorDrawRows`
emits for that row are `render[coloff .. min(rsize, coloff + screencols))` of
the row, that is the render text without its first `coloff` bytes, cut to
`screencols` bytes: at most `screencols` bytes, none when `coloff >= rsize`, and
no byte from outside the render text.  The bytes are emitted whenever
`screencols >= 0` and the render text lies inside its buffer. -/
theorem drawRowContent_slice (E : editorConfig) (y : Int) (ab : abuf)
    (hdoc : E.numrows = (E.row.length : Int)) (hcol : 0 ≤ E.coloff)
    (hlo : 0 ≤ E.rowoff + y) (hhi : E.rowoff + y < E.numrows) :
    ∃ r, rowAt E (y + E.rowoff) = .ok r ∧
      (∀ ab1, drawRowContent E y ab = .ok ab1 →
        ab1 = ab ++ ((r.render.take r.rsize.toNat).drop E.coloff.toNat).take E.screencols.toNat ∧
        (ab1.length : Int) ≤ ab.length + E.screencols ∧
        (r.rsize ≤ E.coloff → ab1 = ab)) ∧
      (0 ≤ E.screencols → r.rsize ≤ (r.render.length : Int) →
        ∃ ab1, drawRowContent E y ab = .ok ab1) := by
  obtain ⟨r, hr, hunf⟩ := drawRowContent_on_row E y ab hdoc hlo hhi
  refine ⟨r, hr, ?_, ?_⟩
  · intro ab1 h
    rw [hunf] at h
    obtain ⟨e, h0, _⟩ := abAppend_post _ _ _ _ _ h
    have hslice : (r.render.drop E.coloff.toNat).take
        (if (if r.rsize - E.coloff < 0 then 0 else r.rsize - E.coloff) > E.screencols
          then E.screencols else (if r.rsize - E.coloff < 0 then 0 else r.rsize - E.coloff)).toNat
        = ((r.render.take r.rsize.toNat).drop E.coloff.toNat).take E.screencols.toNat := by
      rw [List.drop_take, List.take_take]
      congr 1
      split_ifs at h0 ⊢ <;> omega
    rw [hslice] at e
    refine ⟨e, ?_, ?_⟩
    · rw [e, List.length_append]
      have hl := List.length_take_le E.screencols.toNat
        ((r.render.take r.rsize.toNat).drop E.coloff.toNat)
      have hsc : 0 ≤ E.screencols := by split_ifs at h0 <;> omega
      push_cast
      omega
    · intro hle
      rw [e, List.drop_take]
      have hz : r.rsize.toNat - E.coloff.toNat = 0 := by omega
      rw [hz]
      simp
  · intro hsc hfit
    rw [hunf]
    exact ⟨_, abAppend_ok _ _ _ _ (by split_ifs <;> omega) (by intro _; split_ifs <;> omega)⟩

/-- Witness of C16: the line `a<TAB>b`, whose render text has 9 bytes, seen
through a window of 4 columns from column 3: the 4 blanks `render[3 .. 7)`. -/
theorem drawRowContent_slice_witness :
    tabWindow.numrows = (tabWindow.row.length : Int) ∧ 0 ≤ tabWindow.coloff ∧
    0 ≤ tabWindow.rowoff + 0 ∧ tabWindow.rowoff + 0 < tabWindow.numrows ∧
    drawRowContent tabWindow 0 [] = .ok [32, 32, 32, 32] ∧
    ∃ r, rowAt tabWindow (0 + tabWindow.rowoff) = .ok r ∧
      [32, 32, 32, 32] =
        [] ++ ((r.render.take r.rsize.toNat).drop tabWindow.coloff.toNat).take
          tabWindow.screencols.toNat := by
  refine ⟨by decide, by decide, by decide, by decide, by decide, ?_⟩
  obtain ⟨r, hr, hpost, _⟩ :=
    drawRowContent_slice tabWindow 0 [] (by decide) (by decide) (by decide) (by decide)
  exact ⟨r, hr, (hpost _ (by decide)).1⟩

theorem drawRow_eq (E : editorConfig) (y : Int) (ab : List Nat) :
    drawRow E y ab =
      match drawRowContent E y [] with
      | .error e => .error e
      | .ok c => .ok (ab ++ c ++ [27, 91, 75] ++ (if y < E.screenrows - 1 then [13, 10] else [])) := by
  unfold drawRow
  rw [drawRowContent_behind]
  cases drawRowContent E y [] with
  | error e => rfl
  | ok c =>
    have h1 : abAppend (ab ++ c) [27, 91, 75, NUL] 0 3 = .ok (ab ++ c ++ [27, 91, 75]) := by
      rw [abAppend_ok _ _ 0 3 (by omega) (by intro _; simp)]
      rfl
    have h2 : abAppend (ab ++ c ++ [27, 91, 75]) [13, 10, NUL] 0 2
        = .ok (ab ++ c ++ [27, 91, 75] ++ [13, 10]) := by
      rw [abAppend_ok _ _ 0 2 (by omega) (by intro _; simp)]
      rfl
    simp only [Except.map, h1]
    split_ifs
    · exact h2
    · simp

theorem drawRowsLoop_eq (E : editorConfig) :
    ∀ (n : Nat) (y : Int) (ab : List Nat),
      drawRowsLoop E n y ab =
        match rowContents E n y with
        | .error e => .error e
        | .ok cs => .ok (ab ++ rowsFrom E.screenrows y cs) := by
  intro n
  induction n with
  | zero => intro y ab; simp [drawRowsLoop, rowContents, rowsFrom]
  | succ n ih =>
    intro y ab
    simp only [drawRowsLoop, rowContents, drawRow_eq]
    cases drawRowContent E y [] with
    | error e => rfl
    | ok c =>
      simp only [ih]
      cases rowContents E n (y + 1) with
      | error e => rfl
      | ok cs => simp [rowsFrom]

theorem rowContents_get (E : editorConfig) :
    ∀ (n : Nat) (y : Int) (cs : List (List Nat)), rowContents E n y = .ok cs →
      cs.length = n ∧
      ∀ (i : Nat) (h : i < cs.length), drawRowContent E (y + (i : Int)) [] = .ok (cs.get ⟨i, h⟩) := by
  intro n
  induction n with
  | zero =>
    intro y cs h
    have : cs = [] := (Except.ok.inj h).symm
    subst this
    exact ⟨rfl, fun i h => absurd h (by simp)⟩
  | succ n ih =>
    intro y cs h
    simp only [rowContents] at h
    cases hc : drawRowContent E y [] with
    | error e => rw [hc] at h; cases h
    | ok c =>
      rw [hc] at h
      simp only at h
      cases hcs : rowContents E n (y + 1) with
      | error e => rw [hcs] at h; cases h
      | ok cs1 =>
        rw [hcs] at h
        have : cs = c :: cs1 := (Except.ok.inj h).symm
        subst this
        obtain ⟨hl, hg⟩ := ih (y + 1) cs1 hcs
        refine ⟨by simp [hl], ?_⟩
        intro i hi
        cases i with
        | zero => simpa using hc
        | succ i =>
          have := hg i (by simpa using hi)
          simp only [List.get_cons_succ]
          rw [← this]
          congr 1
          push_cast
          omega

theorem rowsFrom_eq_joinRows (sr : Int) :
    ∀ (cs : List (List Nat)) (y : Int), y + (cs.length : Int) = sr →
      rowsFrom sr y cs = joinRows cs := by
  intro cs
  induction cs with
  | nil => intro y _; rfl
  | cons c cs ih =>
    intro y hy
    cases cs with
    | nil =>
      have : ¬ (y < sr - 1) := by simp at hy; omega
      simp [rowsFrom, joinRows, this]
    | cons c1 cs =>
      have hlt : y < sr - 1 := by
        simp only [List.length_cons] at hy
        push_cast at hy
        omega
      have := ih (y + 1) (by
        simp only [List.length_cons] at hy ⊢
        push_cast at hy ⊢
        omega)
      simp only [rowsFrom, joinRows, if_pos hlt] at this ⊢
      rw [this]

/-- The rows of a frame hold three bytes `ESC [ K` per row and two bytes CR LF
per row but the last. -/
theorem joinRows_length :
    ∀ cs : List (List Nat),
      (joinRows cs).length = (cs.map List.length).sum + 3 * cs.length + 2 * (cs.length - 1) := by
  intro cs
  induction cs with
  | nil => rfl
  | cons c cs ih =>
    cases cs with
    | nil => simp [joinRows]
    | cons c1 cs =>
      simp only [joinRows, List.length_append, ih, List.map_cons, List.sum_cons, List.length_cons,
        List.length_nil]
      omega

theorem decimalAux_nonzero :
    ∀ (fuel n : Nat) (acc : List Nat), (∀ x ∈ acc, x ≠ NUL) →
      ∀ x ∈ decimalAux fuel n acc, x ≠ NUL := by
  intro fuel
  induction fuel with
  | zero => intro n acc h x hx; exact h x hx
  | succ fuel ih =>
    intro n acc h x hx
    simp only [decimalAux] at hx
    split_ifs at hx
    · rcases List.mem_cons.mp hx with hx | hx
      · rw [hx]; simp [NUL]
      · exact h x hx
    · refine ih (n / 10) _ ?_ x hx
      intro z hz
      rcases List.mem_cons.mp hz with hz | hz
      · rw [hz]; simp [NUL]
      · exact h z hz

theorem decimalAux_length :
    ∀ (fuel n : Nat) (acc : List Nat) (k : Nat), n < fuel → 1 ≤ k → n < 10 ^ k →
      (decimalAux fuel n acc).length ≤ acc.length + k := by
  intro fuel
  induction fuel with
  | zero => intro n acc k h; omega
  | succ fuel ih =>
    intro n acc k hf hk hn
    simp only [decimalAux]
    split_ifs with h10
    · simp only [List.length_cons]; omega
    · have hk2 : 2 ≤ k := by
        by_contra hcon
        have : k = 1 := by omega
        subst this
        omega
      have hdiv : n / 10 < 10 ^ (k - 1) := by
        apply Nat.div_lt_of_lt_mul
        have : 10 ^ k = 10 * 10 ^ (k - 1) := by
          rw [← Nat.pow_succ']
          congr 1
          omega
        omega
      have := ih (n / 10) ((48 + n % 10) :: acc) (k - 1) (by omega) (by omega) hdiv
      simp only [List.length_cons] at this
      omega

theorem fmtInt_length (v : Int) (h : isInt32 v) : (fmtInt v).length ≤ 11 := by
  have hl : (decimal v.natAbs).length ≤ 10 := by
    have := decimalAux_length (v.natAbs + 1) v.natAbs [] 10 (by omega) (by omega)
      (by unfold isInt32 at h; omega)
    simpa [decimal] using this
  unfold fmtInt
  split_ifs
  · simp only [List.length_cons]; omega
  · omega

theorem fmtInt_nonzero (v : Int) : ∀ x ∈ fmtInt v, x ≠ NUL := by
  have hd : ∀ x ∈ decimal v.natAbs, x ≠ NUL :=
    decimalAux_nonzero _ _ [] (fun x hx => absurd hx (by simp))
  unfold fmtInt
  split_ifs
  · intro x hx
    rcases List.mem_cons.mp hx with hx | hx
    · rw [hx]; simp [NUL]
    · exact hd x hx
  · exact hd

theorem strlen_terminated (t rest : List Nat) (h : ∀ x ∈ t, x ≠ NUL) :
    strlen (t ++ NUL :: rest) = (t.length : Int) := by
  unfold strlen
  congr 1
  induction t with
  | nil => simp [List.takeWhile]
  | cons c t ih =>
    have hc : c ≠ NUL := h c (by simp)
    simp only [List.cons_append, List.takeWhile_cons, ne_eq, hc, not_false_eq_true, decide_True,
      if_true, List.length_cons]
    rw [ih (fun x hx => h x (by simp [hx]))]

theorem cursorText_nonzero (E : editorConfig) : ∀ x ∈ cursorText E, x ≠ NUL := by
  intro x hx
  unfold cursorText at hx
  simp only [List.mem_append, List.mem_cons, List.mem_singleton, List.not_mem_nil, or_false] at hx
  rcases hx with (((hx | hx) | hx) | hx) | hx
  · rcases hx with hx | hx <;> rw [hx] <;> simp [NUL]
  · exact fmtInt_nonzero _ x hx
  · rw [hx]; simp [NUL]
  · exact fmtInt_nonzero _ x hx
  · rw [hx]; simp [NUL]

theorem cursorText_length (E : editorConfig) (h1 : isInt32 (E.cy - E.rowoff + 1))
    (h2 : isInt32 (E.rx - E.coloff + 1)) : (cursorText E).length ≤ 26 := by
  have a := fmtInt_length _ h1
  have b := fmtInt_length _ h2
  unfold cursorText
  simp only [List.length_append, List.length_cons, List.length_nil]
  omega

theorem rowAt_mem (E : editorConfig) (i : Int) (r : erow) (h : rowAt E i = .ok r) : r ∈ E.row := by
  unfold rowAt at h
  by_cases hi : i < 0
  · rw [if_pos hi] at h; cases h
  · rw [if_neg hi] at h
    cases hg : E.row[i.toNat]? with
    | none => rw [hg] at h; cases h
    | some x =>
      rw [hg] at h
      have hx : x = r := Except.ok.inj h
      rw [← hx]
      exact List.getElem?_mem hg

theorem debugText_length (E : editorConfig) (hcx : isInt32 E.cx) (hcy : isInt32 E.cy) :
    (debugText E).length ≤ 34 := by
  have a := fmtInt_length _ hcx
  have b := fmtInt_length _ hcy
  unfold debugText
  simp only [List.length_append, List.length_cons, List.length_nil]
  omega

theorem drawRowContent_defined (E : editorConfig) (hd : drawable E) (y : Int) (hy : 0 ≤ y) :
    ∃ c, drawRowContent E y [] = .ok c := by
  obtain ⟨hsc, hcol, hro, hdoc, hrows, hcx, hcy⟩ := hd
  by_cases h1 : y + E.rowoff ≥ E.numrows
  · have ht := drawLine_eq E welcomeText [] hsc (by decide)
    have hdb := fun ab => drawLine_eq E (debugText E) ab hsc
      (by have := debugText_length E hcx hcy; omega)
    unfold drawRowContent drawTitle drawDebug
    simp only
    rw [if_pos h1]
    split_ifs
    · simp only [ht, hdb]; exact ⟨_, rfl⟩
    · simp only [ht]; exact ⟨_, rfl⟩
    · simp only [hdb]; exact ⟨_, rfl⟩
    · exact ⟨_, rfl⟩
    · exact ⟨_, rfl⟩
  · obtain ⟨r, hr, hunf⟩ := drawRowContent_on_row E y [] hdoc (by omega) (by omega)
    have hfit := hrows r (rowAt_mem E _ r hr)
    rw [hunf]
    exact ⟨_, abAppend_ok _ _ _ _ (by split_ifs <;> omega) (by intro _; split_ifs <;> omega)⟩

theorem rowContents_defined (E : editorConfig) (hd : drawable E) :
    ∀ (n : Nat) (y : Int), 0 ≤ y → ∃ cs, rowContents E n y = .ok cs := by
  intro n
  induction n with
  | zero => intro y _; exact ⟨[], rfl⟩
  | succ n ih =>
    intro y hy
    obtain ⟨c, hc⟩ := drawRowContent_defined E hd y hy
    obtain ⟨cs, hcs⟩ := ih (y + 1) (by omega)
    exact ⟨c :: cs, by simp only [rowContents, hc, hcs]⟩

theorem decimalAux_digits :
    ∀ (fuel n : Nat) (acc : List Nat), n < fuel → 0 < n →
      decimalAux fuel n acc = (Nat.digits 10 n).reverse.map (fun d => 48 + d) ++ acc := by
  intro fuel
  induction fuel with
  | zero => intro n acc h; omega
  | succ fuel ih =>
    intro n acc hf hn
    simp only [decimalAux]
    split_ifs with h10
    · rw [Nat.digits_of_lt 10 n (by omega) h10]
      rfl
    · rw [ih (n / 10) _ (by omega) (by omega), Nat.digits_def' (by omega) hn]
      simp only [List.reverse_cons, List.map_append, List.map_cons, List.map_nil,
        List.append_assoc, List.singleton_append]

theorem decimal_eq_decimalText (n : Nat) : decimal n = decimalText n := by
  unfold decimal decimalText
  split_ifs with h0
  · subst h0; rfl
  · rw [decimalAux_digits (n + 1) n [] (by omega) (by omega), List.append_nil]

/-- The model of `%d` prints the decimal text of the value. -/
theorem fmtInt_eq_intText (v : Int) : fmtInt v = intText v := by
  unfold fmtInt intText
  simp only [decimal_eq_decimalText]

theorem debugText_eq (E : editorConfig) :
    debugText E =
      [126, 32, 99, 120, 58, 32] ++ intText E.cx ++ [44, 32, 99, 121, 58, 32] ++ intText E.cy := by
  unfold debugText
  rw [fmtInt_eq_intText, fmtInt_eq_intText]

theorem cursorText_eq (E : editorConfig) :
    cursorText E =
      [27, 91] ++ intText (E.cy - E.rowoff + 1) ++ [59] ++ intText (E.rx - E.coloff + 1) ++
        [72] := by
  unfold cursorText
  rw [fmtInt_eq_intText, fmtInt_eq_intText]

theorem linePadding_eq (n : Nat) (h : n ≤ 78) : linePadding 80 n = (80 - n) / 2 - 1 := by
  unfold linePadding
  simp only
  have h1 : ¬ ((n : Int) > 80) := by omega
  rw [if_neg h1]
  have h2 : Int.tdiv (80 - (n : Int)) 2 = (((80 - n) / 2 : Nat) : Int) := by
    rw [Int.tdiv_eq_ediv (by omega) (by omega)]
    omega
  rw [h2]
  have h3 : (((80 - n) / 2 : Nat) : Int) ≠ 0 := by omega
  rw [if_pos h3]
  omega

/-- C14: for every editor state with `screenrows >= 1` the buffer
`editorRefreshScreen` builds is the concatenation, in order, of hide-cursor
`ESC [ ? 2 5 l`, cursor-home `ESC [ H`, then for `y = 0 .. screenrows - 1` the
content of screen row `y` followed by `ESC [ K`, with CR LF after every row
except the last (`screenrows - 1` separators), then the cursor-position escape
`ESC [ <cy - rowoff + 1> ; <rx - coloff + 1> H` in decimal as it fits the
array of 32 bytes (in full for values of a C `int`), then show-cursor
`ESC [ ? 2 5 h`.  The buffer is built, without a fault, in every drawable
state.  The two numbers of the cursor escape are the decimal texts `intText`
of `cy - rowoff + 1` and of `rx - coloff + 1`, a sign `-` and the base 10
digits, most significant first. -/
theorem editorRefreshScreen_frame (E : editorConfig) (hs : 1 ≤ E.screenrows) :
    editorRefreshScreen E =
      (match rowContents E E.screenrows.toNat 0 with
        | .error e => .error e
        | .ok cs => .ok (frameOfRows cs ((cursorText E).take 31))) ∧
    (∀ cs, rowContents E E.screenrows.toNat 0 = .ok cs →
      (cs.length : Int) = E.screenrows ∧
      (∀ (i : Nat) (h : i < cs.length),
        drawRowContent E (i : Int) [] = .ok (cs.get ⟨i, h⟩)) ∧
      (joinRows cs).length = (cs.map List.length).sum + 3 * cs.length + 2 * (cs.length - 1)) ∧
    (isInt32 (E.cy - E.rowoff + 1) → isInt32 (E.rx - E.coloff + 1) →
      (cursorText E).take 31 = cursorText E) ∧
    (drawable E → ∃ out, editorRefreshScreen E = .ok out) ∧
    cursorText E =
      [27, 91] ++ intText (E.cy - E.rowoff + 1) ++ [59] ++ intText (E.rx - E.coloff + 1) ++
        [72] ∧
    (isInt32 (E.cy - E.rowoff + 1) → isInt32 (E.rx - E.coloff + 1) →
      editorRefreshScreen E =
        (match rowContents E E.screenrows.toNat 0 with
          | .error e => .error e
          | .ok cs =>
            .ok ([27, 91, 63, 50, 53, 108] ++ [27, 91, 72] ++ joinRows cs ++
              ([27, 91] ++ intText (E.cy - E.rowoff + 1) ++ [59] ++
                intText (E.rx - E.coloff + 1) ++ [72]) ++
              [27, 91, 63, 50, 53, 104]))) := by
  have hhide : abAppend ABUF_INIT [27, 91, 63, 50, 53, 108, NUL] 0 6 = .ok [27, 91, 63, 50, 53, 108] := by
    decide
  have hhome : abAppend [27, 91, 63, 50, 53, 108] [27, 91, 72, NUL] 0 3
      = .ok ([27, 91, 63, 50, 53, 108] ++ [27, 91, 72]) := by decide
  have hmain : editorRefreshScreen E =
      (match rowContents E E.screenrows.toNat 0 with
        | .error e => .error e
        | .ok cs => .ok (frameOfRows cs ((cursorText E).take 31))) := by
    unfold editorRefreshScreen
    simp only [hhide, hhome, editorDrawRows, drawRowsLoop_eq]
    cases hcs : rowContents E E.screenrows.toNat 0 with
    | error e => rfl
    | ok cs =>
      obtain ⟨hlen, _⟩ := rowContents_get E _ _ cs hcs
      have hjoin := rowsFrom_eq_joinRows E.screenrows cs 0 (by rw [hlen]; omega)
      have hbuf : (snprintf 32 (cursorText E)).1 = (cursorText E).take 31 ++ NUL :: [] := rfl
      have hnz : ∀ x ∈ (cursorText E).take 31, x ≠ NUL :=
        fun x hx => cursorText_nonzero E x (List.mem_of_mem_take hx)
      have hstr := strlen_terminated ((cursorText E).take 31) [] hnz
      have hcur : ∀ ab : List Nat,
          abAppend ab ((cursorText E).take 31 ++ NUL :: []) 0 (((cursorText E).take 31).length : Int)
            = .ok (ab ++ (cursorText E).take 31) := by
        intro ab
        rw [abAppend_ok _ _ 0 _ (by omega)
          (by intro _; refine ⟨le_refl _, ?_⟩; simp only [List.length_append, List.length_cons,
                List.length_nil]; push_cast; omega)]
        simp only [Int.toNat_zero, List.drop_zero, Int.toNat_ofNat, List.take_left]
      have hshow : ∀ ab : List Nat, abAppend ab [27, 91, 63, 50, 53, 104, NUL] 0 6
          = .ok (ab ++ [27, 91, 63, 50, 53, 104]) := by
        intro ab
        rw [abAppend_ok _ _ 0 6 (by omega) (by intro _; simp)]
        rfl
      simp only [hbuf, hstr, hcur, hshow, hjoin, frameOfRows]
  have htake : isInt32 (E.cy - E.rowoff + 1) → isInt32 (E.rx - E.coloff + 1) →
      (cursorText E).take 31 = cursorText E := by
    intro h1 h2
    exact List.take_of_length_le (by have := cursorText_length E h1 h2; omega)
  refine ⟨hmain, ?_, htake, ?_, cursorText_eq E, ?_⟩
  · intro cs hcs
    obtain ⟨hlen, hget⟩ := rowContents_get E _ _ cs hcs
    refine ⟨by rw [hlen]; omega, ?_, joinRows_length cs⟩
    intro i h
    have := hget i h
    simpa using this
  · intro hd
    obtain ⟨cs, hcs⟩ := rowContents_defined E hd E.screenrows.toNat 0 (le_refl _)
    rw [hmain, hcs]
    exact ⟨_, rfl⟩
  · intro h1 h2
    rw [hmain, htake h1 h2, cursorText_eq E]
    rfl

theorem drawRowContent_empty (E : editorConfig) (hn : E.numrows = 0) (hr : E.screenrows = 24)
    (hc : E.screencols = 80) (hro : E.rowoff = 0) (hcx : isInt32 E.cx) (hcy : isInt32 E.cy)
    (y : Int) (hy : 0 ≤ y) :
    drawRowContent E y [] =
      .ok (if y = 8 then titleLine else if y = 9 then debugLine E else []) := by
  have hlen := debugText_length E hcx hcy
  have ht := drawLine_eq E welcomeText [] (by omega) (by decide)
  have hdb := drawLine_eq E (debugText E) [] (by omega) (by omega)
  have htake1 : welcomeText.take E.screencols.toNat = welcomeText := by
    rw [hc]; decide
  have htake2 : (debugText E).take E.screencols.toNat = debugText E :=
    List.take_of_length_le (by rw [hc]; simp; omega)
  have hpad : linePadding E.screencols welcomeText.length = 24 := by rw [hc]; decide
  rw [htake1, hpad] at ht
  rw [htake2, hc] at hdb
  have h3 : Int.tdiv E.screenrows 3 = 8 := by rw [hr]; decide
  unfold drawRowContent drawTitle drawDebug
  simp only
  rw [if_pos (by omega), if_pos hn, h3]
  by_cases h8 : y = 8
  · have h9 : ¬ (y = 8 + 1) := by omega
    simp only [if_pos h8, if_neg h9, ht]
    rfl
  · simp only [if_neg h8]
    by_cases h9 : y = 9
    · have h9a : y = 8 + 1 := by omega
      simp only [if_pos h9a, if_pos h9, hdb]
      rfl
    · have h9a : ¬ (y = 8 + 1) := by omega
      simp only [if_neg h9a, if_neg h9]

/-- C13: for the empty document with `screenrows = 24`, `screencols = 80` and
`rowoff = 0` (and `cx`, `cy` values of a C `int`), the rows `editorDrawRows`
composes are: on screen row 8 the title line, 24 blanks and
`~ Kilo Editor -- Version 0.0.1`; on screen row 9 the debug line, the padding
and `~ cx: <cx>, cy: <cy>` (32 blanks and `~ cx: 0, cy: 0` for the initial
cursor); on each of the other 22 rows no content byte, only `ESC [ K`.  The
debug text is `~ cx: `, the decimal text `intText` of `cx`, `, cy: ` and the
decimal text of `cy`, whatever the cursor is; in front of a text of `n` bytes
stand `(80 - n) / 2 - 1` blanks. -/
theorem empty_document_rows (E : editorConfig) (hn : E.numrows = 0) (hr : E.screenrows = 24)
    (hc : E.screencols = 80) (hro : E.rowoff = 0) (hcx : isInt32 E.cx) (hcy : isInt32 E.cy)
    (ab : abuf) :
    rowContents E 24 0 = .ok (emptyScreen E) ∧
    editorDrawRows E ab = .ok (ab ++ joinRows (emptyScreen E)) ∧
    (∀ y : Int, 0 ≤ y → y ≠ 8 → y ≠ 9 →
      drawRowContent E y [] = .ok [] ∧
      drawRow E y ab = .ok (ab ++ [27, 91, 75] ++ (if y < 23 then [13, 10] else []))) ∧
    drawRowContent E 8 [] = .ok (List.replicate 24 SPACE ++ welcomeText) ∧
    drawRowContent E 9 [] =
      .ok (List.replicate (linePadding 80 (debugText E).length) SPACE ++ debugText E) ∧
    (E.cx = 0 → E.cy = 0 →
      debugLine E = List.replicate 32 SPACE ++
        [126, 32, 99, 120, 58, 32, 48, 44, 32, 99, 121, 58, 32, 48]) ∧
    debugText E =
      [126, 32, 99, 120, 58, 32] ++ intText E.cx ++ [44, 32, 99, 121, 58, 32] ++ intText E.cy ∧
    (∀ txt : List Nat,
      txt = [126, 32, 99, 120, 58, 32] ++ intText E.cx ++ [44, 32, 99, 121, 58, 32] ++
        intText E.cy →
      txt.length ≤ 34 ∧
      drawRowContent E 9 [] = .ok (List.replicate ((80 - txt.length) / 2 - 1) SPACE ++ txt) ∧
      rowContents E 24 0 =
        .ok (List.replicate 8 [] ++
          [List.replicate 24 SPACE ++
            [126, 32, 75, 105, 108, 111, 32, 69, 100, 105, 116, 111, 114, 32, 45, 45, 32,
              86, 101, 114, 115, 105, 111, 110, 32, 48, 46, 48, 46, 49],
           List.replicate ((80 - txt.length) / 2 - 1) SPACE ++ txt] ++
          List.replicate 14 [])) := by
  have key := drawRowContent_empty E hn hr hc hro hcx hcy
  have hrows : rowContents E 24 0 = .ok (emptyScreen E) := by
    have k0 := key 0 (by omega)
    have k1 := key 1 (by omega)
    have k2 := key 2 (by omega)
    have k3 := key 3 (by omega)
    have k4 := key 4 (by omega)
    have k5 := key 5 (by omega)
    have k6 := key 6 (by omega)
    have k7 := key 7 (by omega)
    have k8 := key 8 (by omega)
    have k9 := key 9 (by omega)
    have k10 := key 10 (by omega)
    have k11 := key 11 (by omega)
    have k12 := key 12 (by omega)
    have k13 := key 13 (by omega)
    have k14 := key 14 (by omega)
    have k15 := key 15 (by omega)
    have k16 := key 16 (by omega)
    have k17 := key 17 (by omega)
    have k18 := key 18 (by omega)
    have k19 := key 19 (by omega)
    have k20 := key 20 (by omega)
    have k21 := key 21 (by omega)
    have k22 := key 22 (by omega)
    have k23 := key 23 (by omega)
    norm_num at k0 k1 k2 k3 k4 k5 k6 k7 k8 k9 k10 k11 k12 k13 k14 k15 k16 k17 k18 k19 k20 k21 k22 k23
    simp only [rowContents]
    norm_num [k0, k1, k2, k3, k4, k5, k6, k7, k8, k9, k10, k11, k12, k13, k14, k15, k16, k17, k18, k19, k20, k21, k22, k23, emptyScreen, List.replicate]
  refine ⟨hrows, ?_, ?_, ?_, ?_, ?_, debugText_eq E, ?_⟩
  · unfold editorDrawRows
    have h24 : (24 : Int).toNat = 24 := by decide
    rw [drawRowsLoop_eq, hr, h24, hrows]
    simp only
    rw [rowsFrom_eq_joinRows 24 (emptyScreen E) 0 (by simp [emptyScreen])]
  · intro y hy h8 h9
    have hc0 : drawRowContent E y [] = .ok [] := by
      rw [key y hy, if_neg h8, if_neg h9]
    refine ⟨hc0, ?_⟩
    rw [drawRow_eq, hc0, hr]
    simp
  · rw [key 8 (by omega)]; rfl
  · rw [key 9 (by omega)]; rfl
  · intro h0 h1
    unfold debugLine debugText
    rw [h0, h1]
    decide
  · intro txt htxt
    have hlen := debugText_length E hcx hcy
    have hpad := linePadding_eq (debugText E).length (by omega)
    rw [← debugText_eq E] at htxt
    subst htxt
    refine ⟨hlen, ?_, ?_⟩
    · rw [key 9 (by omega), ← hpad]
      rfl
    · rw [hrows, ← hpad]
      rfl

/-- Witness of C13: the editor right after `initEditor` on a screen of 24 by
80; the same screen after one ArrowDown, where the debug line is 32 blanks and
`~ cx: 0, cy: 1`; and a cursor of several digits and a negative row, where it
is 30 blanks and `~ cx: 120, cy: -7`. -/
theorem empty_document_rows_witness :
    (initEditor 24 80).numrows = 0 ∧ (initEditor 24 80).screenrows = 24 ∧
    (initEditor 24 80).screencols = 80 ∧ (initEditor 24 80).rowoff = 0 ∧
    isInt32 (initEditor 24 80).cx ∧ isInt32 (initEditor 24 80).cy ∧
    editorDrawRows (initEditor 24 80) [] = .ok ([] ++ joinRows (emptyScreen (initEditor 24 80))) ∧
    emptyRow1.numrows = 0 ∧ emptyRow1.screenrows = 24 ∧ emptyRow1.screencols = 80 ∧
    emptyRow1.rowoff = 0 ∧ isInt32 emptyRow1.cx ∧ isInt32 emptyRow1.cy ∧
    debugText emptyRow1 =
      [126, 32, 99, 120, 58, 32] ++ intText emptyRow1.cx ++ [44, 32, 99, 121, 58, 32] ++
        intText emptyRow1.cy ∧
    debugText emptyRow1 = [126, 32, 99, 120, 58, 32, 48, 44, 32, 99, 121, 58, 32, 49] ∧
    drawRowContent emptyRow1 9 [] =
      .ok (List.replicate 32 SPACE ++ [126, 32, 99, 120, 58, 32, 48, 44, 32, 99, 121, 58, 32, 49]) ∧
    emptyFarCursor.numrows = 0 ∧ emptyFarCursor.screenrows = 24 ∧
    emptyFarCursor.screencols = 80 ∧ emptyFarCursor.rowoff = 0 ∧
    isInt32 emptyFarCursor.cx ∧ isInt32 emptyFarCursor.cy ∧
    debugText emptyFarCursor =
      [126, 32, 99, 120, 58, 32] ++ intText emptyFarCursor.cx ++ [44, 32, 99, 121, 58, 32] ++
        intText emptyFarCursor.cy ∧
    intText 120 = [49, 50, 48] ∧ intText (-7) = [45, 55] ∧
    drawRowContent emptyFarCursor 9 [] =
      .ok (List.replicate 30 SPACE ++
        [126, 32, 99, 120, 58, 32, 49, 50, 48, 44, 32, 99, 121, 58, 32, 45, 55]) :=
  ⟨rfl, rfl, rfl, rfl, ⟨by decide, by decide⟩, ⟨by decide, by decide⟩,
    (empty_document_rows (initEditor 24 80) rfl rfl rfl rfl ⟨by decide, by decide⟩
      ⟨by decide, by decide⟩ []).2.1,
    rfl, rfl, rfl, rfl, ⟨by decide, by decide⟩, ⟨by decide, by decide⟩,
    (empty_document_rows emptyRow1 rfl rfl rfl rfl ⟨by decide, by decide⟩
      ⟨by decide, by decide⟩ []).2.2.2.2.2.2.1,
    by decide, by decide,
    rfl, rfl, rfl, rfl, ⟨by decide, by decide⟩, ⟨by decide, by decide⟩,
    (empty_document_rows emptyFarCursor rfl rfl rfl rfl ⟨by decide, by decide⟩
      ⟨by decide, by decide⟩ []).2.2.2.2.2.2.1,
    by simp [intText, decimalText], by simp [intText, decimalText], by decide⟩

/-- Witness of C14: the one-line file `a<TAB>b` on a screen of 2 rows.  The
frame is hide-cursor, cursor-home, the render text and `ESC [ K`, CR LF,
`ESC [ K` for the row below the file, `ESC [ 1 ; 1 H`, show-cursor; with
`rx = 8`, as `editorScroll` sets it for the cursor after the tab, the cursor
escape is `ESC [ 1 ; 9 H`.  For the file of twelve lines with the cursor at
the end of the last line the cursor escape is `ESC [ 1 2 ; 1 0 H`. -/
theorem editorRefreshScreen_frame_witness :
    (1 : Int) ≤ tabLineTwoRows.screenrows ∧
    editorRefreshScreen tabLineTwoRows =
      (match rowContents tabLineTwoRows tabLineTwoRows.screenrows.toNat 0 with
        | .error e => .error e
        | .ok cs => .ok (frameOfRows cs ((cursorText tabLineTwoRows).take 31))) ∧
    editorRefreshScreen tabLineTwoRows =
      .ok ([27, 91, 63, 50, 53, 108] ++ [27, 91, 72] ++
        [126, 32, 97, 32, 32, 32, 32, 32, 98] ++ [27, 91, 75] ++ [13, 10] ++ [27, 91, 75] ++
        [27, 91, 49, 59, 49, 72] ++ [27, 91, 63, 50, 53, 104]) ∧
    editorRefreshScreen { tabLineTwoRows with rx := 8 } =
      .ok ([27, 91, 63, 50, 53, 108] ++ [27, 91, 72] ++
        [126, 32, 97, 32, 32, 32, 32, 32, 98] ++ [27, 91, 75] ++ [13, 10] ++ [27, 91, 75] ++
        [27, 91, 49, 59, 57, 72] ++ [27, 91, 63, 50, 53, 104]) ∧
    (1 : Int) ≤ twelveLines.screenrows ∧
    twelveLines.cy - twelveLines.rowoff + 1 = 12 ∧ twelveLines.rx - twelveLines.coloff + 1 = 10 ∧
    cursorText twelveLines =
      [27, 91] ++ intText (twelveLines.cy - twelveLines.rowoff + 1) ++ [59] ++
        intText (twelveLines.rx - twelveLines.coloff + 1) ++ [72] ∧
    intText 12 = [49, 50] ∧ intText 10 = [49, 48] ∧
    rowContents twelveLines twelveLines.screenrows.toNat 0 =
      .ok (List.replicate 12 [126, 32, 97, 32, 32, 32, 32, 32, 98]) ∧
    editorRefreshScreen twelveLines =
      .ok ([27, 91, 63, 50, 53, 108] ++ [27, 91, 72] ++
        joinRows (List.replicate 12 [126, 32, 97, 32, 32, 32, 32, 32, 98]) ++
        [27, 91, 49, 50, 59, 49, 48, 72] ++ [27, 91, 63, 50, 53, 104]) := by
  have h := editorRefreshScreen_frame twelveLines (by decide)
  have hrc : rowContents twelveLines twelveLines.screenrows.toNat 0 =
      .ok (List.replicate 12 [126, 32, 97, 32, 32, 32, 32, 32, 98]) := by decide
  have e1 : twelveLines.cy - twelveLines.rowoff + 1 = 12 := by decide
  have e2 : twelveLines.rx - twelveLines.coloff + 1 = 10 := by decide
  have h12 : intText 12 = [49, 50] := by simp [intText, decimalText]
  have h10 : intText 10 = [49, 48] := by simp [intText, decimalText]
  have hlast := h.2.2.2.2.2 (by rw [e1]; exact ⟨by decide, by decide⟩)
    (by rw [e2]; exact ⟨by decide, by decide⟩)
  rw [hrc, e1, e2, h12, h10] at hlast
  exact ⟨by decide, (editorRefreshScreen_frame tabLineTwoRows (by decide)).1, by decide,
    by decide, by decide, e1, e2, h.2.2.2.2.1, h12, h10, hrc, hlast⟩

/-- Witness of C17: a file of five lines on a screen of 2 rows, `rowoff = 0`,
the cursor on row 4: the cursor is below the window and the new `rowoff` is
`4 - 2 + 1 = 3`. -/
theorem editorScroll_minimal_witness :
    (0 : Int) < fiveLinesRow4.screenrows ∧ (0 : Int) < fiveLinesRow4.screencols ∧
    fiveLinesRow4.rowoff + fiveLinesRow4.screenrows ≤ fiveLinesRow4.cy ∧
    ∃ E1, editorScroll fiveLinesRow4 = .ok E1 ∧
      E1.rowoff = fiveLinesRow4.cy - fiveLinesRow4.screenrows + 1 ∧ E1.rowoff = 3 := by
  refine ⟨by decide, by decide, by decide, ?_⟩
  have h := (editorScroll_minimal fiveLinesRow4 (by decide) (by decide)).1
  have hev : editorScroll fiveLinesRow4 = .ok { fiveLinesRow4 with rx := 2, rowoff := 3 } := by
    decide
  obtain ⟨_, _, _, _, h5, _⟩ := h _ hev
  exact ⟨_, hev, h5 (by decide), rfl⟩

/-! ## Cursor movement when reads past the row array return: claims C2, C20 -/

theorem rowAt_error (E : editorConfig) (i : Int) (e : Fault) (h : rowAt E i = .error e) :
    e = .outOfBounds := by
  unfold rowAt at h
  split_ifs at h
  · exact (Except.error.inj h).symm
  · split at h
    · cases h
    · exact (Except.error.inj h).symm

theorem rowSizeWith_strict (E : editorConfig) (i : Int) :
    rowSizeWith strictRead E i = rowSize E i := by
  unfold rowSizeWith rowSize
  cases h : rowAt E i with
  | ok r => rfl
  | error e => rw [rowAt_error E i e h]; rfl

theorem clampCxWith_strict (E : editorConfig) : clampCxWith strictRead E = clampCx E := by
  unfold clampCxWith clampCx
  simp only [rowSizeWith_strict]

theorem moveSwitchWith_strict (E : editorConfig) (key : Int) :
    moveSwitchWith strictRead E key = moveSwitch E key := by
  unfold moveSwitchWith moveSwitch
  have hp : ∀ o, ptrSizeWith strictRead E o = ptrSize E o := by
    intro o
    cases o with
    | none => rfl
    | some i => exact rowSizeWith_strict E i
  simp only [rowSizeWith_strict, hp]

theorem moveKeyWith_strict (E : editorConfig) (key : Int) :
    moveKeyWith strictRead E key = moveKey E key := by
  unfold moveKeyWith moveKey
  rw [moveSwitchWith_strict]
  cases moveSwitch E key with
  | error e => rfl
  | ok E1 => exact clampCxWith_strict E1

theorem pageLoopWith_strict (arrow : Int) :
    ∀ (n : Nat) (E : editorConfig), pageLoopWith strictRead arrow n E = pageLoop arrow n E := by
  intro n
  induction n with
  | zero => intro E; rfl
  | succ n ih =>
    intro E
    simp only [pageLoopWith, pageLoop, moveKeyWith_strict]
    cases moveKey E arrow with
    | error e => rfl
    | ok E1 => exact ih E1

/-- With every read outside the array a fault, `editorMoveCursorWith` is
`editorMoveCursor`. -/
theorem editorMoveCursorWith_strict (E : editorConfig) (key : Int) :
    editorMoveCursorWith strictRead E key = editorMoveCursor E key := by
  unfold editorMoveCursorWith editorMoveCursor
  simp only [pageLoopWith_strict, moveKeyWith_strict]
  split_ifs
  · rfl
  · cases pageLoop ARROW_DOWN E.screenrows.toNat E with
    | error e => rfl
    | ok E1 => exact clampCxWith_strict E1
  · cases pageLoop ARROW_UP E.screenrows.toNat E with
    | error e => rfl
    | ok E1 => exact clampCxWith_strict E1
  · rfl

theorem clampCxWith_fields (stray : StrayRead) (E E1 : editorConfig)
    (h : clampCxWith stray E = .ok E1) : E1 = { E with cx := E1.cx } := by
  unfold clampCxWith at h
  split at h
  · split_ifs at h with hc
    · have := Except.ok.inj h; subst this; rfl
    · have := Except.ok.inj h; subst this; rfl
  · split at h
    · cases h
    · split_ifs at h with hc
      · have := Except.ok.inj h; subst this; rfl
      · have := Except.ok.inj h; subst this; rfl

theorem moveSwitchWith_inv (stray : StrayRead) (E E1 : editorConfig) (key : Int)
    (h : moveSwitchWith stray E key = .ok E1) :
    E1.numrows = E.numrows ∧ E1.row = E.row ∧ E1.screenrows = E.screenrows ∧
    E1.screencols = E.screencols ∧
    (0 ≤ E.cy → 0 ≤ E1.cy) ∧ (E.cy ≤ E.numrows + 1 → E1.cy ≤ E.numrows + 1) := by
  unfold moveSwitchWith at h
  simp only at h
  split_ifs at h
  all_goals (repeat' split at h)
  all_goals first
    | (cases h; done)
    | (cases h
       refine ⟨rfl, rfl, rfl, rfl, fun _ => ?_, fun _ => ?_⟩ <;> (try dsimp only) <;> omega)
    | (cases h
       have hp := rowPtr_some E _ (by assumption)
       refine ⟨rfl, rfl, rfl, rfl, fun _ => ?_, fun _ => ?_⟩ <;> (try dsimp only) <;> omega)

theorem moveKeyWith_keeps (stray : StrayRead) (E E1 : editorConfig) (key : Int)
    (h : moveKeyWith stray E key = .ok E1) :
    frameOf E1 = frameOf E ∧ (cyInRange E → cyInRange E1) := by
  unfold moveKeyWith at h
  cases hs : moveSwitchWith stray E key with
  | error e => rw [hs] at h; cases h
  | ok E2 =>
    rw [hs] at h
    obtain ⟨a1, a2, a3, a4, a5, a6⟩ := moveSwitchWith_inv stray E E2 key hs
    have e := clampCxWith_fields stray E2 E1 h
    constructor
    · rw [e]
      simp only [frameOf, a1, a2, a3, a4]
    · intro hc
      have h5 := a5 hc.1
      have h6 := a6 hc.2
      rw [e]
      exact ⟨h5, by show E2.cy ≤ E2.numrows + 1; omega⟩

theorem pageLoopWith_keeps (stray : StrayRead) (arrow : Int) :
    ∀ (n : Nat) (E E1 : editorConfig), pageLoopWith stray arrow n E = .ok E1 →
      frameOf E1 = frameOf E ∧ (cyInRange E → cyInRange E1) := by
  intro n
  induction n with
  | zero =>
    intro E E1 h
    have := Except.ok.inj h
    subst this
    exact ⟨rfl, id⟩
  | succ n ih =>
    intro E E1 h
    simp only [pageLoopWith] at h
    cases hm : moveKeyWith stray E arrow with
    | error e => rw [hm] at h; cases h
    | ok E2 =>
      rw [hm] at h
      obtain ⟨f1, c1⟩ := moveKeyWith_keeps stray E E2 arrow hm
      obtain ⟨f2, c2⟩ := ih E2 E1 h
      exact ⟨f2.trans f1, fun hc => c2 (c1 hc)⟩

/-- One call of `editorMoveCursor`, whatever the reads outside `E.row` yield,
leaves the file and the screen size alone and keeps `0 <= cy <= numrows + 1`. -/
theorem editorMoveCursorWith_keeps (stray : StrayRead) (E E1 : editorConfig) (key : Int)
    (h : editorMoveCursorWith stray E key = .ok E1) :
    frameOf E1 = frameOf E ∧ (cyInRange E → cyInRange E1) := by
  unfold editorMoveCursorWith at h
  by_cases hk : key = PAGE_DOWN ∨ key = PAGE_UP
  · rw [if_pos hk] at h
    by_cases hneg : E.screenrows < 0
    · rw [if_pos hneg] at h; cases h
    · rw [if_neg hneg] at h
      generalize (if key = PAGE_DOWN then ARROW_DOWN else ARROW_UP) = arrow at h
      cases hp : pageLoopWith stray arrow E.screenrows.toNat E with
      | error e => rw [hp] at h; cases h
      | ok E2 =>
        rw [hp] at h
        obtain ⟨f1, c1⟩ := pageLoopWith_keeps stray _ _ E E2 hp
        have e := clampCxWith_fields stray E2 E1 h
        constructor
        · rw [e]; exact f1
        · intro hc
          rw [e]
          exact c1 hc
  · rw [if_neg hk] at h
    exact moveKeyWith_keeps stray E E1 key h

theorem rowSizeWith_total (stray : StrayRead) (ht : totalRead stray) (E : editorConfig)
    (i : Int) : ∃ v, rowSizeWith stray E i = .ok v := by
  unfold rowSizeWith
  cases rowAt E i with
  | ok r => exact ⟨r.size, rfl⟩
  | error e => exact ht i

theorem clampCxWith_total (stray : StrayRead) (ht : totalRead stray) (E : editorConfig) :
    ∃ E1, clampCxWith stray E = .ok E1 := by
  unfold clampCxWith
  cases rowPtr E with
  | none => exact ⟨_, rfl⟩
  | some i =>
    obtain ⟨v, hv⟩ := rowSizeWith_total stray ht E i
    simp only [hv]
    exact ⟨_, rfl⟩

theorem moveSwitchWith_total (stray : StrayRead) (ht : totalRead stray) (E : editorConfig)
    (hdoc : E.numrows = (E.row.length : Int)) (key : Int) :
    ∃ E1, moveSwitchWith stray E key = .ok E1 := by
  unfold moveSwitchWith
  simp only
  by_cases k1 : key = ARROW_UP
  · rw [if_pos k1]; exact ⟨_, rfl⟩
  rw [if_neg k1]
  by_cases k2 : key = ARROW_LEFT
  · rw [if_pos k2]
    by_cases c1 : E.cx > 0
    · rw [if_pos c1]; exact ⟨_, rfl⟩
    · rw [if_neg c1]
      by_cases c2 : E.cx = 0 ∧ E.cy > 0
      · rw [if_pos c2]
        obtain ⟨v, hv⟩ := rowSizeWith_total stray ht E (E.cy - 1)
        simp only [hv]
        exact ⟨_, rfl⟩
      · rw [if_neg c2]; exact ⟨_, rfl⟩
  rw [if_neg k2]
  by_cases k3 : key = ARROW_RIGHT
  · rw [if_pos k3]
    cases rowPtr E with
    | none => exact ⟨_, rfl⟩
    | some i =>
      obtain ⟨v, hv⟩ := rowSizeWith_total stray ht E i
      simp only [hv]
      split_ifs <;> exact ⟨_, rfl⟩
  rw [if_neg k3]
  by_cases k4 : key = ARROW_DOWN
  · rw [if_pos k4]; exact ⟨_, rfl⟩
  rw [if_neg k4]
  by_cases k5 : key = HOME_KEY
  · rw [if_pos k5]; exact ⟨_, rfl⟩
  rw [if_neg k5]
  by_cases k6 : key = END_KEY
  · rw [if_pos k6]
    by_cases c6 : E.cy < E.numrows
    · rw [if_pos c6]
      have hp : rowPtr E = some E.cy := by
        unfold rowPtr
        rw [if_neg (by omega), if_neg]
        rintro ⟨hnil, h0⟩
        rw [hnil] at hdoc
        simp at hdoc
        omega
      rw [hp]
      obtain ⟨v, hv⟩ := rowSizeWith_total stray ht E E.cy
      simp only [ptrSizeWith, hv]
      exact ⟨_, rfl⟩
    · rw [if_neg c6]; exact ⟨_, rfl⟩
  rw [if_neg k6]
  exact ⟨_, rfl⟩

theorem hdoc_of_frame (E E1 : editorConfig) (hf : frameOf E1 = frameOf E)
    (hdoc : E.numrows = (E.row.length : Int)) : E1.numrows = (E1.row.length : Int) := by
  have hn : E1.numrows = E.numrows := congrArg Prod.fst hf
  have hr : E1.row = E.row := congrArg (fun t => t.2.1) hf
  rw [hn, hr]
  exact hdoc

theorem moveKeyWith_total (stray : StrayRead) (ht : totalRead stray) (E : editorConfig)
    (hdoc : E.numrows = (E.row.length : Int)) (key : Int) :
    ∃ E1, moveKeyWith stray E key = .ok E1 := by
  obtain ⟨E2, h2⟩ := moveSwitchWith_total stray ht E hdoc key
  obtain ⟨E1, h1⟩ := clampCxWith_total stray ht E2
  exact ⟨E1, by simp only [moveKeyWith, h2, h1]⟩

theorem pageLoopWith_total (stray : StrayRead) (ht : totalRead stray) (arrow : Int) :
    ∀ (n : Nat) (E : editorConfig), E.numrows = (E.row.length : Int) →
      ∃ E1, pageLoopWith stray arrow n E = .ok E1 := by
  intro n
  induction n with
  | zero => intro E _; exact ⟨E, rfl⟩
  | succ n ih =>
    intro E hdoc
    obtain ⟨E2, h2⟩ := moveKeyWith_total stray ht E hdoc arrow
    obtain ⟨hf, _⟩ := moveKeyWith_keeps stray E E2 arrow h2
    obtain ⟨E1, h1⟩ := ih E2 (hdoc_of_frame E E2 hf hdoc)
    exact ⟨E1, by simp only [pageLoopWith, h2, h1]⟩

/-- When the reads outside `E.row` find some `int`, every call of
`editorMoveCursor` on a loaded file with `screenrows >= 0` returns. -/
theorem editorMoveCursorWith_total (stray : StrayRead) (ht : totalRead stray)
    (E : editorConfig) (hdoc : E.numrows = (E.row.length : Int)) (hs : 0 ≤ E.screenrows)
    (key : Int) : ∃ E1, editorMoveCursorWith stray E key = .ok E1 := by
  unfold editorMoveCursorWith
  by_cases hk : key = PAGE_DOWN ∨ key = PAGE_UP
  · rw [if_pos hk, if_neg (by omega)]
    obtain ⟨E2, h2⟩ := pageLoopWith_total stray ht
      (if key = PAGE_DOWN then ARROW_DOWN else ARROW_UP) E.screenrows.toNat E hdoc
    obtain ⟨E1, h1⟩ := clampCxWith_total stray ht E2
    exact ⟨E1, by simp only [h2, h1]⟩
  · rw [if_neg hk]
    exact moveKeyWith_total stray ht E hdoc key

theorem runKeysWith_keeps :
    ∀ (ks : List (Int × StrayRead)) (E E1 : editorConfig), runKeysWith ks E = .ok E1 →
      frameOf E1 = frameOf E ∧ (cyInRange E → cyInRange E1) := by
  intro ks
  induction ks with
  | nil =>
    intro E E1 h
    have := Except.ok.inj h
    subst this
    exact ⟨rfl, id⟩
  | cons k ks ih =>
    intro E E1 h
    simp only [runKeysWith] at h
    cases hm : editorMoveCursorWith k.2 E k.1 with
    | error e => rw [hm] at h; cases h
    | ok E2 =>
      rw [hm] at h
      obtain ⟨f1, c1⟩ := editorMoveCursorWith_keeps k.2 E E2 k.1 hm
      obtain ⟨f2, c2⟩ := ih E2 E1 h
      exact ⟨f2.trans f1, fun hc => c2 (c1 hc)⟩

theorem runKeysWith_total :
    ∀ (ks : List (Int × StrayRead)) (E : editorConfig), E.numrows = (E.row.length : Int) →
      0 ≤ E.screenrows → (∀ k ∈ ks, totalRead k.2) → ∃ E1, runKeysWith ks E = .ok E1 := by
  intro ks
  induction ks with
  | nil => intro E _ _ _; exact ⟨E, rfl⟩
  | cons k ks ih =>
    intro E hdoc hs ht
    obtain ⟨E2, h2⟩ := editorMoveCursorWith_total k.2 (ht k (by simp)) E hdoc hs k.1
    obtain ⟨hf, _⟩ := editorMoveCursorWith_keeps k.2 E E2 k.1 h2
    have hs2 : E2.screenrows = E.screenrows := congrArg (fun t => t.2.2.1) hf
    obtain ⟨E1, h1⟩ := ih E2 (hdoc_of_frame E E2 hf hdoc) (by omega)
      (fun x hx => ht x (by simp [hx]))
    exact ⟨E1, by simp only [runKeysWith, h2, h1]⟩

/-- C2, amended: for every document and every finite sequence of keys handed to
`editorMoveCursor` (the eight navigation keys in particular), starting from the
row `cy = 0`, the row index of the resulting state satisfies
`0 <= cy <= numrows + 1`, and the file is unchanged.  This holds whatever the
reads of `size` past the end of `E.row` yield at each press; when they yield
some `int`, as on the running program, and `screenrows >= 0`, the sequence runs
to its end; when they are faults the run is the one of `editorMoveCursor`. -/
theorem runKeysWith_cy_bound (E : editorConfig) (ks : List (Int × StrayRead))
    (hdoc : E.numrows = (E.row.length : Int)) (hcy : E.cy = 0) :
    (∀ E1, runKeysWith ks E = .ok E1 →
      0 ≤ E1.cy ∧ E1.cy ≤ E1.numrows + 1 ∧ E1.numrows = E.numrows ∧ E1.row = E.row) ∧
    (0 ≤ E.screenrows → (∀ k ∈ ks, totalRead k.2) →
      ∃ E1, runKeysWith ks E = .ok E1 ∧ 0 ≤ E1.cy ∧ E1.cy ≤ E1.numrows + 1) ∧
    (∀ key, editorMoveCursorWith strictRead E key = editorMoveCursor E key) := by
  have hpost : ∀ E1, runKeysWith ks E = .ok E1 →
      0 ≤ E1.cy ∧ E1.cy ≤ E1.numrows + 1 ∧ E1.numrows = E.numrows ∧ E1.row = E.row := by
    intro E1 hrun
    obtain ⟨hf, hc⟩ := runKeysWith_keeps ks E E1 hrun
    have hn : E1.numrows = E.numrows := congrArg Prod.fst hf
    have hr : E1.row = E.row := congrArg (fun t => t.2.1) hf
    have h0 : cyInRange E := by
      unfold cyInRange
      omega
    obtain ⟨b1, b2⟩ := hc h0
    exact ⟨b1, b2, hn, hr⟩
  refine ⟨hpost, ?_, fun key => editorMoveCursorWith_strict E key⟩
  intro hs ht
  obtain ⟨E1, h1⟩ := runKeysWith_total ks E hdoc hs ht
  obtain ⟨b1, b2, _, _⟩ := hpost E1 h1
  exact ⟨E1, h1, b1, b2⟩

/-- Witness of C2, amended: in a file of five lines, six presses of ArrowDown,
the reads past the array finding the `int` 33, end on row `6 = numrows + 1`; a
seventh press stays there. -/
theorem runKeysWith_cy_bound_witness :
    fiveLinesStart.numrows = (fiveLinesStart.row.length : Int) ∧ fiveLinesStart.cy = 0 ∧
    fiveLinesStart.numrows = 5 ∧
    runKeysWith (List.replicate 6 (ARROW_DOWN, stray33)) fiveLinesStart
      = .ok { fiveLinesStart with cy := 6 } ∧
    runKeysWith (List.replicate 7 (ARROW_DOWN, stray33)) fiveLinesStart
      = .ok { fiveLinesStart with cy := 6 } ∧
    (0 : Int) ≤ 6 ∧ (6 : Int) ≤ 5 + 1 := by
  have h6 : runKeysWith (List.replicate 6 (ARROW_DOWN, stray33)) fiveLinesStart
      = .ok { fiveLinesStart with cy := 6 } := by decide
  have hb := (runKeysWith_cy_bound fiveLinesStart (List.replicate 6 (ARROW_DOWN, stray33))
    (by decide) (by decide)).1 _ h6
  exact ⟨by decide, by decide, by decide, h6, by decide, hb.1, hb.2.1⟩

theorem Reaches.trans (E0 E E1 : editorConfig) (h1 : Reaches E0 E) (h2 : Reaches E E1) :
    Reaches E0 E1 := by
  induction h2 with
  | start => exact h1
  | step Ea Eb key stray _ hk hstep ih => exact Reaches.step Ea Eb key stray ih hk hstep

/-- A run of navigation keys that returns ends in a reachable state. -/
theorem reaches_of_run :
    ∀ (ks : List (Int × StrayRead)) (E0 E : editorConfig), (∀ k ∈ ks, isNavKey k.1) →
      runKeysWith ks E0 = .ok E → Reaches E0 E := by
  intro ks
  induction ks with
  | nil =>
    intro E0 E _ h
    have := Except.ok.inj h
    subst this
    exact Reaches.start
  | cons k ks ih =>
    intro E0 E hnav h
    simp only [runKeysWith] at h
    cases hm : editorMoveCursorWith k.2 E0 k.1 with
    | error e => rw [hm] at h; cases h
    | ok E2 =>
      rw [hm] at h
      have hstep : Reaches E0 E2 :=
        Reaches.step E0 E2 k.1 k.2 Reaches.start (hnav k (by simp)) hm
      exact Reaches.trans E0 E2 E hstep (ih E2 E (fun x hx => hnav x (by simp [hx])) h)

theorem reaches_keeps (E0 E : editorConfig) (hr : Reaches E0 E) :
    frameOf E = frameOf E0 ∧ (cyInRange E0 → cyInRange E) := by
  induction hr with
  | start => exact ⟨rfl, id⟩
  | step Ea Eb key stray _ _ hstep ih =>
    obtain ⟨f1, c1⟩ := editorMoveCursorWith_keeps stray Ea Eb key hstep
    exact ⟨f1.trans ih.1, fun hc => c1 (ih.2 hc)⟩

/-- C20: in every state reachable from a state with `cy = 0` (the initial
cursor `cx = 0, cy = 0` in particular) by navigation keys handed to
`editorMoveCursor`, on any document, `0 <= cy <= numrows + 1`: the row index
never goes more than one position beyond the one-past-end row.  The reachable
states are taken whatever the reads of `size` past the end of `E.row` yield;
when they yield some `int` and `screenrows >= 0`, every further key press
returns and leads to a reachable state again. -/
theorem reaches_cy_bound (E0 E : editorConfig) (hdoc : E0.numrows = (E0.row.length : Int))
    (hcy : E0.cy = 0) (hr : Reaches E0 E) :
    0 ≤ E.cy ∧ E.cy ≤ E.numrows + 1 ∧ E.numrows = E0.numrows ∧ E.row = E0.row ∧
    (∀ (stray : StrayRead) (key : Int), totalRead stray → 0 ≤ E0.screenrows → isNavKey key →
      ∃ E1, editorMoveCursorWith stray E key = .ok E1 ∧ Reaches E0 E1 ∧
        0 ≤ E1.cy ∧ E1.cy ≤ E1.numrows + 1) := by
  obtain ⟨hf, hc⟩ := reaches_keeps E0 E hr
  have hn : E.numrows = E0.numrows := congrArg Prod.fst hf
  have hrow : E.row = E0.row := congrArg (fun t => t.2.1) hf
  have hsr : E.screenrows = E0.screenrows := congrArg (fun t => t.2.2.1) hf
  have h0 : cyInRange E0 := by
    unfold cyInRange
    omega
  obtain ⟨b1, b2⟩ := hc h0
  refine ⟨b1, b2, hn, hrow, ?_⟩
  intro stray key ht hs hk
  obtain ⟨E1, h1⟩ := editorMoveCursorWith_total stray ht E (hdoc_of_frame E0 E hf hdoc)
    (by omega) key
  have hr1 : Reaches E0 E1 := Reaches.step E E1 key stray hr hk h1
  obtain ⟨_, c1⟩ := reaches_keeps E0 E1 hr1
  obtain ⟨d1, d2⟩ := c1 h0
  exact ⟨E1, h1, hr1, d1, d2⟩

/-- Witness of C20: in a file of five lines the state on row `6 = numrows + 1`
is reached by six presses of ArrowDown, the reads past the array finding the
`int` 33. -/
theorem reaches_cy_bound_witness :
    fiveLinesStart.numrows = (fiveLinesStart.row.length : Int) ∧ fiveLinesStart.cy = 0 ∧
    fiveLinesStart.numrows = 5 ∧
    Reaches fiveLinesStart { fiveLinesStart with cy := 6 } ∧
    (0 : Int) ≤ 6 ∧ (6 : Int) ≤ 5 + 1 := by
  have hreach : Reaches fiveLinesStart { fiveLinesStart with cy := 6 } :=
    reaches_of_run (List.replicate 6 (ARROW_DOWN, stray33)) _ _
      (by
        intro k hk
        rw [(List.mem_replicate.mp hk).2]
        decide)
      (by decide)
  have hb := reaches_cy_bound fiveLinesStart _ (by decide) (by decide) hreach
  exact ⟨by decide, by decide, by decide, hreach, hb.1, hb.2.1⟩

end Kilo
